import Mathlib

/-!
# Singly linked lists of `linkedList.c`

A shallow embedding of the list library.  Nodes live in a store that is
passed explicitly: every function that writes through a pointer takes the
store and returns the new one.  `while` loops are recursive functions on a
fuel argument (one unit per test of the loop condition); a result `none`
means the fuel ran out before the C function returned.

The values of the nodes are `int`s on which the library only copies and
compares, so they are integers here.  The `int` counters that the library
increments (`length`, `freq`) are 32 bits wide and wrap around, see
`wrap_int`.
-/

namespace LinkedList

/-! ## Data model -/

/-- A `node*`: `none` is `NULL`, `some a` is the address `a` of a node. -/
abbrev Ptr := Option Nat

/-- The store of `struct node` objects, one map per field
(`value1`, `next`), and `brk`, the address the next `malloc` returns. -/
structure Heap where
  value1 : Nat → Int
  next : Nat → Ptr
  brk : Nat

/-- The assignment `(*a).next = p`. -/
def Heap.set_next (h : Heap) (a : Nat) (p : Ptr) : Heap :=
  { h with next := fun b => if b = a then p else h.next b }

/-- The assignment `(*a).value1 = v`. -/
def Heap.set_value1 (h : Heap) (a : Nat) (v : Int) : Heap :=
  { h with value1 := fun b => if b = a then v else h.value1 b }

/-- A store in which nothing has been allocated yet. -/
def Heap.init : Heap :=
  { value1 := fun _ => 0, next := fun _ => none, brk := 0 }

/-- The constant `DEFAULT_VALUE`. -/
def DEFAULT_VALUE : Int := 0

/-- The struct `tuple`: two node pointers. -/
structure tuple where
  node1 : Ptr
  node2 : Ptr
deriving DecidableEq, Repr

/-- Value of an `int` expression after a step that leaves the range of a
32-bit `int`: the result wraps around modulo `2 ^ 32`. -/
def wrap_int (z : Int) : Int := (z + 2 ^ 31) % 2 ^ 32 - 2 ^ 31

/-! ## Creation -/

/-- Function `create_node`: `malloc` hands out the address `brk` (the
allocation is taken to succeed), the value is set to `v1` and the link to
`NULL`. -/
def create_node (v1 : Int) (h : Heap) : Heap × Nat :=
  ({ value1 := fun b => if b = h.brk then v1 else h.value1 b,
     next := fun b => if b = h.brk then none else h.next b,
     brk := h.brk + 1 }, h.brk)

/-- Function `create_empty_node`. -/
def create_empty_node (h : Heap) : Heap × Nat :=
  create_node DEFAULT_VALUE h

/-- The `for` loop of `create_list`; `todo` is the number of iterations
left, `length - i`.  Reading `values[i]` past the end of the array has no
defined result (`none`). -/
def create_list_loop (values : List Int) : Nat → Nat → Heap → Nat → Option Heap
  | 0, _, h, _ => some h
  | todo + 1, i, h, temp =>
    match values[i]? with
    | none => none
    | some v =>
      let r := create_node v h
      create_list_loop values todo (i + 1) (r.1.set_next temp (some r.2)) r.2

/-- Function `create_list(values, length)`; `values = none` is the `NULL` array. -/
def create_list (values : Option (List Int)) (length : Nat) (h : Heap) :
    Option (Heap × Ptr) :=
  if length = 0 then some (h, none) else
  match values with
  | none => some (h, none)
  | some vs =>
    match vs[0]? with
    | none => none
    | some v =>
      let r := create_node v h
      match create_list_loop vs (length - 1) 1 r.1 r.2 with
      | none => none
      | some h2 => some (h2, some r.2)

/-! ## Insertion -/

/-- Function `insertion_head_node(head, n)`. -/
def insertion_head_node (h : Heap) (head n : Ptr) : Heap × Ptr :=
  match head, n with
  | none, none => (h, none)
  | none, some _ => (h, n)
  | some _, none => (h, head)
  | some _, some a => (h.set_next a head, n)

/-- The loop `while((*temp).next) temp = (*temp).next;` of
`insertion_end_node`; returns the final `temp`. -/
def insertion_end_node_loop : Nat → Heap → Nat → Option Nat
  | 0, _, _ => none
  | fuel + 1, h, temp =>
    match h.next temp with
    | none => some temp
    | some t => insertion_end_node_loop fuel h t

/-- Function `insertion_end_node(head, n)`. -/
def insertion_end_node (fuel : Nat) (h : Heap) (head n : Ptr) : Option (Heap × Ptr) :=
  match head, n with
  | none, none => some (h, none)
  | none, some _ => some (h, n)
  | some _, none => some (h, head)
  | some a, some _ =>
    match insertion_end_node_loop fuel h a with
    | none => none
    | some temp => some (h.set_next temp n, head)

/-- The loop `while(temp && temp != n) temp = (*temp).next;` of
`insertion_after_node`; returns the final `temp`. -/
def insertion_after_node_loop : Nat → Heap → Ptr → Ptr → Option Ptr
  | 0, _, _, _ => none
  | fuel + 1, h, temp, n =>
    match temp with
    | none => some none
    | some t => if temp = n then some temp else insertion_after_node_loop fuel h (h.next t) n

/-- Function `insertion_after_node(head, n, after_n)`. -/
def insertion_after_node (fuel : Nat) (h : Heap) (head n after_n : Ptr) :
    Option (Heap × Ptr) :=
  match head, after_n with
  | none, none => some (h, none)
  | none, some _ => some (h, after_n)
  | some _, none => some (h, head)
  | some _, some b =>
    match n with
    | none => some (h, head)
    | some _ =>
      match insertion_after_node_loop fuel h head n with
      | none => none
      | some none => some (h, head)
      | some (some temp) =>
        let h1 := h.set_next b (h.next temp)
        some (h1.set_next temp after_n, head)

/-- The loop `while((*temp).next && (*temp).next != n) temp = (*temp).next;`
of `insertion_before_node`; returns the final `temp`. -/
def insertion_before_node_loop : Nat → Heap → Nat → Ptr → Option Nat
  | 0, _, _, _ => none
  | fuel + 1, h, temp, n =>
    match h.next temp with
    | none => some temp
    | some t => if h.next temp = n then some temp else insertion_before_node_loop fuel h t n

/-- Function `insertion_before_node(head, n, before_n)`. -/
def insertion_before_node (fuel : Nat) (h : Heap) (head n before_n : Ptr) :
    Option (Heap × Ptr) :=
  match head, before_n with
  | none, none => some (h, none)
  | none, some _ => some (h, before_n)
  | some _, none => some (h, head)
  | some a, some b =>
    match n with
    | none => some (h, head)
    | some _ =>
      match insertion_before_node_loop fuel h a n with
      | none => none
      | some temp =>
        match h.next temp with
        | none => some (h, head)
        | some _ =>
          let h1 := h.set_next b (h.next temp)
          some (h1.set_next temp before_n, head)

/-! ## Concatenation and splitting -/

/-- Function `concatenate_lists(head1, head2)`. -/
def concatenate_lists (fuel : Nat) (h : Heap) (head1 head2 : Ptr) : Option (Heap × Ptr) :=
  match head1, head2 with
  | none, none => some (h, none)
  | none, some _ => some (h, head2)
  | some _, none => some (h, head1)
  | some _, some _ => insertion_end_node fuel h head1 head2

/-- The loop `while(temp && temp != n) temp = (*temp).next;` of
`split_list_at_node`; returns the final `temp`. -/
def split_list_at_node_loop : Nat → Heap → Ptr → Ptr → Option Ptr
  | 0, _, _, _ => none
  | fuel + 1, h, temp, n =>
    match temp with
    | none => some none
    | some t => if temp = n then some temp else split_list_at_node_loop fuel h (h.next t) n

/-- Function `split_list_at_node(head, n)`. -/
def split_list_at_node (fuel : Nat) (h : Heap) (head n : Ptr) : Option (Heap × tuple) :=
  match head with
  | none => some (h, ⟨head, none⟩)
  | some a =>
    if n = head then some (h.set_next a none, ⟨head, h.next a⟩) else
    match split_list_at_node_loop fuel h head n with
    | none => none
    | some none => some (h, ⟨head, none⟩)
    | some (some temp) => some (h.set_next temp none, ⟨head, h.next temp⟩)

/-- The loop `while(temp && (*temp).value1 != value) temp = (*temp).next;`
of `split_list_at_value`; returns the final `temp`. -/
def split_list_at_value_loop : Nat → Heap → Ptr → Int → Option Ptr
  | 0, _, _, _ => none
  | fuel + 1, h, temp, value =>
    match temp with
    | none => some none
    | some t =>
      if h.value1 t = value then some temp else split_list_at_value_loop fuel h (h.next t) value

/-- Function `split_list_at_value(head, value)`. -/
def split_list_at_value (fuel : Nat) (h : Heap) (head : Ptr) (value : Int) :
    Option (Heap × tuple) :=
  match head with
  | none => some (h, ⟨head, none⟩)
  | some a =>
    if h.value1 a = value then some (h.set_next a none, ⟨head, h.next a⟩) else
    match split_list_at_value_loop fuel h head value with
    | none => none
    | some none => some (h, ⟨head, none⟩)
    | some (some temp) => some (h.set_next temp none, ⟨head, h.next temp⟩)

/-! ## Removal -/

/-- The loop `while((*temp).next && (*temp).next != n) temp = (*temp).next;`
of `remove_node`; returns the final `temp`. -/
def remove_node_loop : Nat → Heap → Nat → Ptr → Option Nat
  | 0, _, _, _ => none
  | fuel + 1, h, temp, n =>
    match h.next temp with
    | none => some temp
    | some t => if h.next temp = n then some temp else remove_node_loop fuel h t n

/-- Function `remove_node(head, n)`. -/
def remove_node (fuel : Nat) (h : Heap) (head n : Ptr) : Option (Heap × tuple) :=
  match head, n with
  | none, _ => some (h, ⟨head, none⟩)
  | some _, none => some (h, ⟨head, none⟩)
  | some a, some b =>
    if n = head then some (h.set_next b none, ⟨h.next a, n⟩) else
    match remove_node_loop fuel h a n with
    | none => none
    | some temp =>
      match h.next temp with
      | none => some (h, ⟨head, none⟩)
      | some _ =>
        let h1 := h.set_next temp (h.next b)
        some (h1.set_next b none, ⟨head, n⟩)

/-- The loop
`while((*temp).next && (*(*temp).next).value1 != value) temp = (*temp).next;`
of `remove_node_with_value`; returns the final `temp`. -/
def remove_node_with_value_loop : Nat → Heap → Nat → Int → Option Nat
  | 0, _, _, _ => none
  | fuel + 1, h, temp, value =>
    match h.next temp with
    | none => some temp
    | some t =>
      if h.value1 t = value then some temp else remove_node_with_value_loop fuel h t value

/-- Function `remove_node_with_value(head, value)`. -/
def remove_node_with_value (fuel : Nat) (h : Heap) (head : Ptr) (value : Int) :
    Option (Heap × tuple) :=
  match head with
  | none => some (h, ⟨head, none⟩)
  | some a =>
    if h.value1 a = value then some (h.set_next a none, ⟨h.next a, head⟩) else
    match remove_node_with_value_loop fuel h a value with
    | none => none
    | some temp =>
      match h.next temp with
      | none => some (h, ⟨head, none⟩)
      | some d =>
        let h1 := h.set_next temp (h.next d)
        some (h1.set_next d none, ⟨head, some d⟩)

/-! ## Changes and queries -/

/-- The loop of `change_node_value`, which returns from inside the loop
after the assignment. -/
def change_node_value_loop : Nat → Heap → Ptr → Ptr → Int → Option Heap
  | 0, _, _, _, _ => none
  | fuel + 1, h, temp, n, new_value =>
    match temp with
    | none => some h
    | some t =>
      if temp = n then some (h.set_value1 t new_value)
      else change_node_value_loop fuel h (h.next t) n new_value

/-- Function `change_node_value(head, n, new_value)`. -/
def change_node_value (fuel : Nat) (h : Heap) (head n : Ptr) (new_value : Int) :
    Option (Heap × Ptr) :=
  match head, n with
  | none, _ => some (h, none)
  | some _, none => some (h, head)
  | some _, some _ =>
    match change_node_value_loop fuel h head n new_value with
    | none => none
    | some h1 => some (h1, head)

/-- The loop of `change_node_value_with_value`. -/
def change_node_value_with_value_loop : Nat → Heap → Ptr → Int → Int → Option Heap
  | 0, _, _, _, _ => none
  | fuel + 1, h, temp, value, new_value =>
    match temp with
    | none => some h
    | some t =>
      if h.value1 t = value then some (h.set_value1 t new_value)
      else change_node_value_with_value_loop fuel h (h.next t) value new_value

/-- Function `change_node_value_with_value(head, value, new_value)`. -/
def change_node_value_with_value (fuel : Nat) (h : Heap) (head : Ptr) (value new_value : Int) :
    Option (Heap × Ptr) :=
  match head with
  | none => some (h, none)
  | some _ =>
    match change_node_value_with_value_loop fuel h head value new_value with
    | none => none
    | some h1 => some (h1, head)

/-- Function `is_empty_list(head)`. -/
def is_empty_list (head : Ptr) : Int :=
  match head with
  | none => 1
  | some _ => 0

/-- The loop of `node_in_list`; `n` is the (non-`NULL`) node looked for. -/
def node_in_list_loop : Nat → Heap → Ptr → Nat → Option (Heap × Ptr)
  | 0, _, _, _ => none
  | fuel + 1, h, temp, n =>
    match temp with
    | none => some (h, none)
    | some t =>
      if t = n then some (h.set_next n none, some n)
      else node_in_list_loop fuel h (h.next t) n

/-- Function `node_in_list(head, n)`. -/
def node_in_list (fuel : Nat) (h : Heap) (head n : Ptr) : Option (Heap × tuple) :=
  match head, n with
  | none, _ => some (h, ⟨head, none⟩)
  | some _, none => some (h, ⟨head, none⟩)
  | some _, some b =>
    match node_in_list_loop fuel h head b with
    | none => none
    | some r => some (r.1, ⟨head, r.2⟩)

/-- The loop of `value_in_list`; returns `result.node2`. -/
def value_in_list_loop : Nat → Heap → Ptr → Int → Option Ptr
  | 0, _, _, _ => none
  | fuel + 1, h, temp, value =>
    match temp with
    | none => some none
    | some t =>
      if h.value1 t = value then some temp else value_in_list_loop fuel h (h.next t) value

/-- Function `value_in_list(head, value)`; it writes nothing, the store is
returned as it was. -/
def value_in_list (fuel : Nat) (h : Heap) (head : Ptr) (value : Int) : Option (Heap × tuple) :=
  match head with
  | none => some (h, ⟨head, none⟩)
  | some _ =>
    match value_in_list_loop fuel h head value with
    | none => none
    | some r => some (h, ⟨head, r⟩)

/-- The loop of `reverse_list`, on `prev` and `current`; returns the final
store and `prev`. -/
def reverse_list_loop : Nat → Heap → Ptr → Ptr → Option (Heap × Ptr)
  | 0, _, _, _ => none
  | fuel + 1, h, prev, current =>
    match current with
    | none => some (h, prev)
    | some c => reverse_list_loop fuel (h.set_next c prev) current (h.next c)

/-- Function `reverse_list(head)`. -/
def reverse_list (fuel : Nat) (h : Heap) (head : Ptr) : Option (Heap × Ptr) :=
  match head with
  | none => some (h, none)
  | some _ => reverse_list_loop fuel h none head

/-- The loop of `list_length`; the counter is an `int`. -/
def list_length_loop : Nat → Heap → Ptr → Int → Option Int
  | 0, _, _, _ => none
  | fuel + 1, h, temp, length =>
    match temp with
    | none => some length
    | some t => list_length_loop fuel h (h.next t) (wrap_int (length + 1))

/-- Function `list_length(head)`. -/
def list_length (fuel : Nat) (h : Heap) (head : Ptr) : Option Int :=
  list_length_loop fuel h head 0

/-- The loop of `max_list`. -/
def max_list_loop : Nat → Heap → Ptr → Int → Option Int
  | 0, _, _, _ => none
  | fuel + 1, h, temp, max =>
    match temp with
    | none => some max
    | some t => max_list_loop fuel h (h.next t) (if h.value1 t > max then h.value1 t else max)

/-- Function `max_list(head)`. -/
def max_list (fuel : Nat) (h : Heap) (head : Ptr) : Option Int :=
  match head with
  | none => some DEFAULT_VALUE
  | some a => max_list_loop fuel h head (h.value1 a)

/-- The loop of `min_list`. -/
def min_list_loop : Nat → Heap → Ptr → Int → Option Int
  | 0, _, _, _ => none
  | fuel + 1, h, temp, min =>
    match temp with
    | none => some min
    | some t => min_list_loop fuel h (h.next t) (if h.value1 t < min then h.value1 t else min)

/-- Function `min_list(head)`. -/
def min_list (fuel : Nat) (h : Heap) (head : Ptr) : Option Int :=
  match head with
  | none => some DEFAULT_VALUE
  | some a => min_list_loop fuel h head (h.value1 a)

/-- The loop of `count_frequents_in_list`; the counter is an `int`. -/
def count_frequents_in_list_loop : Nat → Heap → Ptr → Int → Int → Option Int
  | 0, _, _, _, _ => none
  | fuel + 1, h, temp, value, freq =>
    match temp with
    | none => some freq
    | some t =>
      count_frequents_in_list_loop fuel h (h.next t) value
        (if h.value1 t = value then wrap_int (freq + 1) else freq)

/-- Function `count_frequents_in_list(head, value)`. -/
def count_frequents_in_list (fuel : Nat) (h : Heap) (head : Ptr) (value : Int) : Option Int :=
  match head with
  | none => some 0
  | some _ => count_frequents_in_list_loop fuel h head value 0

/-! ## Sorting -/

/-- The partition loop of `sort_list`: each node is cut off and put at the
head of `left`, `middle` or `right`. -/
def sort_list_loop (pivot : Int) :
    Nat → Heap → Ptr → Ptr → Ptr → Ptr → Option (Heap × Ptr × Ptr × Ptr)
  | 0, _, _, _, _, _ => none
  | fuel + 1, h, left, middle, right, temp =>
    match temp with
    | none => some (h, left, middle, right)
    | some t =>
      let next := h.next t
      let h1 := h.set_next t none
      if h1.value1 t < pivot then
        let r := insertion_head_node h1 left temp
        sort_list_loop pivot fuel r.1 r.2 middle right next
      else if h1.value1 t = pivot then
        let r := insertion_head_node h1 middle temp
        sort_list_loop pivot fuel r.1 left r.2 right next
      else
        let r := insertion_head_node h1 right temp
        sort_list_loop pivot fuel r.1 left middle r.2 next

/-- Function `sort_list(head)`; the fuel bounds the depth of the recursion
as well as the length of each loop. -/
def sort_list : Nat → Heap → Ptr → Option (Heap × Ptr)
  | 0, _, _ => none
  | fuel + 1, h, head =>
    match head with
    | none => some (h, head)
    | some a =>
      match h.next a with
      | none => some (h, head)
      | some _ =>
        match sort_list_loop (h.value1 a) fuel h none none none head with
        | none => none
        | some (h1, left, middle, right) =>
          match sort_list fuel h1 left with
          | none => none
          | some (h2, left1) =>
            match sort_list fuel h2 right with
            | none => none
            | some (h3, right1) =>
              match insertion_end_node fuel h3 middle right1 with
              | none => none
              | some (h4, middle1) => insertion_end_node fuel h4 left1 middle1

/-! ## Extraction -/

/-- What a call of `list_values` ends in: the `NULL` result, a filled array,
`exit(EXIT_FAILURE)` after a failed allocation, or a write outside the
allocated array, which has no defined behaviour. -/
inductive values_result where
  | null
  | array (values : List Int)
  | exit
  | undefined
deriving DecidableEq, Repr

/-- The copy loop of `list_values`: `values[index++] = (*temp).value1`. -/
def list_values_loop : Nat → Heap → Ptr → Nat → List Int → Option values_result
  | 0, _, _, _, _ => none
  | fuel + 1, h, temp, index, values =>
    match temp with
    | none => some (values_result.array values)
    | some t =>
      if index < values.length then
        list_values_loop fuel h (h.next t) (index + 1) (values.set index (h.value1 t))
      else some values_result.undefined

/-- Function `list_values(head)`.  The array has `length` cells, which hold
arbitrary values (here 0) until they are written.  A negative `length`
converts to a `size_t` above `2 ^ 63`, a size no `malloc` grants, so the
allocation fails and the program exits; every other allocation is taken to
succeed. -/
def list_values (fuel : Nat) (h : Heap) (head : Ptr) : Option values_result :=
  match head with
  | none => some values_result.null
  | some _ =>
    match list_length fuel h head with
    | none => none
    | some length =>
      if length < 0 then some values_result.exit
      else list_values_loop fuel h head 0 (List.replicate length.toNat 0)

/-! ## Well-formed lists -/

/-- Predicate `Chain h p ns`: in the store `h`, following the `next` links
from `p` visits exactly the nodes `ns`, in this order, and then reaches
`NULL`.  A list is well formed (finite and acyclic) when it is such a chain. -/
def Chain (h : Heap) : Ptr → List Nat → Prop
  | p, [] => p = none
  | p, a :: ns => p = some a ∧ Chain h (h.next a) ns

instance Chain.decidable (h : Heap) : (p : Ptr) → (ns : List Nat) → Decidable (Chain h p ns)
  | p, [] => inferInstanceAs (Decidable (p = none))
  | p, a :: ns =>
    have := Chain.decidable h (h.next a) ns
    inferInstanceAs (Decidable (p = some a ∧ Chain h (h.next a) ns))

/-- The value sequence of the nodes `ns` in the store `h`. -/
def vals (h : Heap) (ns : List Nat) : List Int := ns.map h.value1

/-- Segment `Seg h p ns q`: following the links from `p` visits the nodes
`ns` and arrives at `q`. -/
def Seg (h : Heap) : Ptr → List Nat → Ptr → Prop
  | p, [], q => p = q
  | p, a :: ns, q => p = some a ∧ Seg h (h.next a) ns q

/-! ## Sample stores -/

/-- Store after `create_list` on the values 5, 3, 5, 1, 4 in the initial
store: the list has head `some 0` and nodes 0, 1, 2, 3, 4. -/
def sample_store : Heap :=
  match create_list (some [5, 3, 5, 1, 4]) 5 Heap.init with
  | some r => r.1
  | none => Heap.init

/-- The sample store after one more `create_node(9)`: the new node has
address 5 and no successor, and is not a node of the list. -/
def sample_store_node : Heap := (create_node 9 sample_store).1

/-- Predicate `well_formed h p`: from `p` the links lead through finitely
many nodes, none of them twice, to `NULL`. -/
def well_formed (h : Heap) (p : Ptr) : Prop := ∃ ns, Chain h p ns ∧ ns.Nodup

end LinkedList

/-!
# Perfect numbers of `perfectNumbersV1.c`

The program has its own `struct node` (an `unsigned int`, an
`unsigned long long` and a link) and its own `create_node` and
`insertion_head_node`.  Unsigned values are natural numbers reduced modulo
`2 ^ 32` or `2 ^ 64` where the C arithmetic is; `int` values wrap as in
`LinkedList.wrap_int`.  The calls of `clock` and the printed execution time
are left out.
-/

namespace PerfectNumbers

/-- A `node*`: `none` is `NULL`, `some a` is the address `a` of a node. -/
abbrev Ptr := Option Nat

/-- The store of `struct node` objects of `perfectNumbersV1.c`, one map per
field, and `brk`, the address the next `malloc` returns. -/
structure Heap where
  value1 : Nat → Nat
  value2 : Nat → Nat
  next : Nat → Ptr
  brk : Nat

/-- A store in which nothing has been allocated yet. -/
def Heap.init : Heap :=
  { value1 := fun _ => 0, value2 := fun _ => 0, next := fun _ => none, brk := 0 }

/-- Conversion of an `int` to `unsigned long long`: reduction modulo
`2 ^ 64`. -/
def to_ull (z : Int) : Nat := (z % 2 ^ 64).toNat

/-- The `int` expression `1 << k`; it is `2 ^ k` for `k < 31`.  For a larger
count C leaves the shift undefined: it is taken as the machine instruction
does it, with the count modulo 32 and the bit 31 as the sign. -/
def shl_one (k : Nat) : Int := LinkedList.wrap_int (2 ^ (k % 32))

/-- Function `create_node(v1, v2)`: `malloc` hands out the address `brk`
(the allocation is taken to succeed). -/
def create_node (v1 v2 : Nat) (h : Heap) : Heap × Nat :=
  ({ value1 := fun b => if b = h.brk then v1 else h.value1 b,
     value2 := fun b => if b = h.brk then v2 else h.value2 b,
     next := fun b => if b = h.brk then none else h.next b,
     brk := h.brk + 1 }, h.brk)

/-- Function `insertion_head_node(head, n)` of `perfectNumbersV1.c`: it
writes through `n` without a test, so `n` is a node. -/
def insertion_head_node (h : Heap) (head : Ptr) (n : Nat) : Heap × Ptr :=
  ({ h with next := fun b => if b = n then head else h.next b }, some n)

/-- The loop of `print_list`; `out` collects the printed pairs
`(value1, value2)`, one per line. -/
def print_list_loop : Nat → Heap → Ptr → List (Nat × Nat) → Option (List (Nat × Nat))
  | 0, _, _, _ => none
  | fuel + 1, h, temp, out =>
    match temp with
    | none => some out
    | some t => print_list_loop fuel h (h.next t) (out ++ [(h.value1 t, h.value2 t)])

/-- Function `print_list(head)`: the lines it prints. -/
def print_list (fuel : Nat) (h : Heap) (head : Ptr) : Option (List (Nat × Nat)) :=
  print_list_loop fuel h head []

/-- Search for the integer square root: the largest `k` with `k * k ≤ n`,
counting up from `k`. -/
def sqrt_search (n : Nat) : Nat → Nat → Nat
  | 0, k => k
  | steps + 1, k => if (k + 1) * (k + 1) ≤ n then sqrt_search n steps (k + 1) else k

/-- The expression `(unsigned long long int)sqrt(n)`.  The library computes
the root in double precision, correctly rounded; for `n < 2 ^ 52` the
truncated result is the integer square root, which is what is taken here
for every `n`. -/
def sqrt_ull (n : Nat) : Nat := sqrt_search n n 0

/-- The loop `for (int i = 3; i <= limit; i+=2) if (n % i == 0) return 0;`
of `is_prime`, with `return 1` after it.  In the comparison and in the
remainder the `int` `i` is converted to `unsigned long long`. -/
def is_prime_loop (n limit : Nat) : Nat → Int → Option Int
  | 0, _ => none
  | fuel + 1, i =>
    if to_ull i ≤ limit then
      if n % to_ull i = 0 then some 0
      else is_prime_loop n limit fuel (LinkedList.wrap_int (i + 2))
    else some 1

/-- Function `is_prime(n)`. -/
def is_prime (fuel : Nat) (n : Nat) : Option Int :=
  if n % 2 = 0 ∨ n % 5 = 0 then some 0
  else is_prime_loop n (sqrt_ull n) fuel 3

/-- The loop `while (n > 0)` of `n_perfect_numbers`; `n` is an
`unsigned short`, `prime_index` an `unsigned int`. -/
def n_perfect_numbers_loop : Nat → Heap → Nat → Nat → Ptr → Option (Heap × Ptr)
  | 0, _, _, _, _ => none
  | fuel + 1, h, n, prime_index, head =>
    if n > 0 then
      let prime_index1 := (prime_index + 1) % 2 ^ 32
      let mersenne := to_ull (LinkedList.wrap_int (shl_one prime_index1 - 1))
      match is_prime fuel mersenne with
      | none => none
      | some r =>
        if r ≠ 1 then n_perfect_numbers_loop fuel h n prime_index1 head
        else
          let new_node := create_node prime_index1
            (to_ull (shl_one ((prime_index1 + 2 ^ 32 - 1) % 2 ^ 32)) * mersenne % 2 ^ 64) h
          let r2 := insertion_head_node new_node.1 head new_node.2
          n_perfect_numbers_loop fuel r2.1 ((n + 2 ^ 16 - 1) % 2 ^ 16) prime_index1 r2.2
    else some (h, head)

/-- Function `n_perfect_numbers(n)`, run in the store `h`. -/
def n_perfect_numbers (fuel : Nat) (n : Nat) (h : Heap) : Option (Heap × Ptr) :=
  n_perfect_numbers_loop fuel h n 1 none

/-- The pairs `(prime_index, perfect_number)` that the loop of
`n_perfect_numbers` passes to `create_node`, oldest first: the loop without
the store. -/
def created_pairs : Nat → Nat → Nat → Option (List (Nat × Nat))
  | 0, _, _ => none
  | fuel + 1, n, prime_index =>
    if n > 0 then
      let prime_index1 := (prime_index + 1) % 2 ^ 32
      let mersenne := to_ull (LinkedList.wrap_int (shl_one prime_index1 - 1))
      match is_prime fuel mersenne with
      | none => none
      | some r =>
        if r ≠ 1 then created_pairs fuel n prime_index1
        else
          match created_pairs fuel ((n + 2 ^ 16 - 1) % 2 ^ 16) prime_index1 with
          | none => none
          | some rest =>
            some ((prime_index1,
              to_ull (shl_one ((prime_index1 + 2 ^ 32 - 1) % 2 ^ 32)) * mersenne % 2 ^ 64) :: rest)
    else some []

/-- The pointer to the node created as number `m` (counting from 1) when
the first node has address `b0`; `NULL` for `m = 0`. -/
def node_ptr (b0 m : Nat) : Ptr := if m = 0 then none else some (b0 + m - 1)

/-- Predicate `Built h head b0 tr`: the nodes `b0`, `b0 + 1`, ... hold the
pairs `tr` in the order of their creation, each node is linked to the one
created before it (the first to `NULL`), and `head` is the last one. -/
def Built (h : Heap) (head : Ptr) (b0 : Nat) (tr : List (Nat × Nat)) : Prop :=
  h.brk = b0 + tr.length ∧ head = node_ptr b0 tr.length ∧
  ∀ j, j < tr.length →
    h.next (b0 + j) = node_ptr b0 j ∧ tr[j]? = some (h.value1 (b0 + j), h.value2 (b0 + j))

/-- The first seven perfect numbers with their Mersenne exponents, smallest
first. -/
def first_seven : List (Nat × Nat) :=
  [(2, 6), (3, 28), (5, 496), (7, 8128), (13, 33550336), (17, 8589869056),
    (19, 137438691328)]

end PerfectNumbers

namespace LinkedList

/-! # Properties -/

@[simp] theorem set_next_next (h : Heap) (a : Nat) (p : Ptr) (b : Nat) :
    (h.set_next a p).next b = if b = a then p else h.next b := rfl

@[simp] theorem set_next_value1 (h : Heap) (a : Nat) (p : Ptr) :
    (h.set_next a p).value1 = h.value1 := rfl

@[simp] theorem set_next_brk (h : Heap) (a : Nat) (p : Ptr) :
    (h.set_next a p).brk = h.brk := rfl

theorem Heap.ext_fields {h h' : Heap} (hv : h'.value1 = h.value1)
    (hn : ∀ a, h'.next a = h.next a) (hb : h'.brk = h.brk) : h' = h := by
  cases h; cases h'
  simp only at hv hb
  simp only [Heap.mk.injEq]
  exact ⟨hv, funext hn, hb⟩

@[simp] theorem chain_nil (h : Heap) (p : Ptr) : Chain h p [] ↔ p = none := Iff.rfl

@[simp] theorem chain_cons (h : Heap) (p : Ptr) (a : Nat) (ns : List Nat) :
    Chain h p (a :: ns) ↔ p = some a ∧ Chain h (h.next a) ns := Iff.rfl

@[simp] theorem chain_none (h : Heap) (ns : List Nat) : Chain h none ns ↔ ns = [] := by
  cases ns <;> simp

/-- A chain only depends on the links of its own nodes. -/
theorem Chain.frame {h h' : Heap} {ns : List Nat} :
    ∀ {p : Ptr}, (∀ a ∈ ns, h'.next a = h.next a) → Chain h p ns → Chain h' p ns := by
  induction ns with
  | nil => intro p _ hc; exact hc
  | cons a ns ih =>
    intro p hag hc
    refine ⟨hc.1, ?_⟩
    rw [hag a (List.mem_cons_self a ns)]
    exact ih (fun b hb => hag b (List.mem_cons_of_mem a hb)) hc.2

/-- The nodes visited from a pointer are determined by the store. -/
theorem Chain.unique {h : Heap} {ns : List Nat} :
    ∀ {p : Ptr} {ms : List Nat}, Chain h p ns → Chain h p ms → ns = ms := by
  induction ns with
  | nil =>
    intro p ms h1 h2
    cases ms with
    | nil => rfl
    | cons b ms => simp at h1 h2; rw [h1] at h2; simp at h2
  | cons a ns ih =>
    intro p ms h1 h2
    cases ms with
    | nil => simp at h1 h2; rw [h2] at h1; simp at h1
    | cons b ms =>
      simp at h1 h2
      obtain ⟨e1, c1⟩ := h1
      obtain ⟨e2, c2⟩ := h2
      rw [e1] at e2
      cases e2
      rw [ih c1 c2]

/-- The tail of a chain after a prefix is a chain again. -/
theorem Chain.drop_prefix {h : Heap} {l1 : List Nat} :
    ∀ {p : Ptr} {l2 : List Nat}, Chain h p (l1 ++ l2) → ∃ q, Chain h q l2 := by
  induction l1 with
  | nil => intro p l2 hc; exact ⟨p, hc⟩
  | cons a l1 ih => intro p l2 hc; exact ih hc.2

/-- A finite chain ending in `NULL` visits no node twice. -/
theorem Chain.nodup {h : Heap} {ns : List Nat} : ∀ {p : Ptr}, Chain h p ns → ns.Nodup := by
  induction ns with
  | nil => intro _ _; exact List.nodup_nil
  | cons a ns ih =>
    intro p hc
    refine List.nodup_cons.mpr ⟨?_, ih hc.2⟩
    intro hmem
    obtain ⟨l1, l2, rfl⟩ := List.append_of_mem hmem
    obtain ⟨q, hq⟩ := Chain.drop_prefix hc.2
    have hq2 : Chain h (h.next a) l2 := by
      simp at hq; exact hq.2
    have := Chain.unique hc.2 hq2
    have hl := congrArg List.length this
    simp at hl
    omega

@[simp] theorem vals_nil (h : Heap) : vals h [] = [] := rfl
@[simp] theorem vals_cons (h : Heap) (a : Nat) (ns : List Nat) :
    vals h (a :: ns) = h.value1 a :: vals h ns := rfl
@[simp] theorem vals_append (h : Heap) (l1 l2 : List Nat) :
    vals h (l1 ++ l2) = vals h l1 ++ vals h l2 := by simp [vals]
@[simp] theorem vals_length (h : Heap) (ns : List Nat) : (vals h ns).length = ns.length := by
  simp [vals]

theorem vals_congr {h h' : Heap} (hv : h'.value1 = h.value1) (ns : List Nat) :
    vals h' ns = vals h ns := by simp [vals, hv]

theorem Chain.head_eq {h : Heap} {p : Ptr} {ns : List Nat} (hc : Chain h p ns) :
    p = ns.head? := by
  cases ns with
  | nil => exact hc
  | cons a ns => exact hc.1

/-- Two stores that hold the same chain agree on the links of its nodes. -/
theorem Chain.next_eq {h h' : Heap} {ns : List Nat} :
    ∀ {p : Ptr}, Chain h p ns → Chain h' p ns → ∀ a ∈ ns, h'.next a = h.next a := by
  induction ns with
  | nil => intro _ _ _ a ha; simp at ha
  | cons b ns ih =>
    intro p h1 h2 a ha
    have e : h'.next b = h.next b := by rw [h2.2.head_eq, h1.2.head_eq]
    rcases List.mem_cons.mp ha with rfl | ha
    · exact e
    · exact ih h1.2 (e ▸ h2.2) a ha

theorem Chain.set_next_of_not_mem {h : Heap} {p : Ptr} {ns : List Nat} {a : Nat} (q : Ptr)
    (ha : a ∉ ns) (hc : Chain h p ns) : Chain (h.set_next a q) p ns := by
  refine Chain.frame (fun b hb => ?_) hc
  have : b ≠ a := fun e => ha (e ▸ hb)
  simp [this]

theorem Chain.head_not_mem_tail {h : Heap} {p : Ptr} {a : Nat} {ns : List Nat}
    (hc : Chain h p (a :: ns)) : a ∉ ns :=
  (List.nodup_cons.mp hc.nodup).1

/-! ## reverse_list -/

theorem reverse_list_loop_spec (ns : List Nat) :
    ∀ (fuel : Nat) (h : Heap) (prev current : Ptr) (ps : List Nat),
      Chain h current ns → Chain h prev ps → (∀ a ∈ ns, a ∉ ps) → ns.length < fuel →
      ∃ h' q, reverse_list_loop fuel h prev current = some (h', q) ∧
        Chain h' q (ns.reverse ++ ps) ∧ h'.value1 = h.value1 ∧
        (∀ a, a ∉ ns → h'.next a = h.next a) ∧ h'.brk = h.brk := by
  induction ns with
  | nil =>
    intro fuel h prev current ps hc hp _ hf
    obtain ⟨f, rfl⟩ : ∃ f, fuel = f + 1 := ⟨fuel - 1, by simp at hf; omega⟩
    simp at hc
    subst hc
    exact ⟨h, prev, rfl, by simpa using hp, rfl, fun _ _ => rfl, rfl⟩
  | cons a ns ih =>
    intro fuel h prev current ps hc hp hd hf
    obtain ⟨f, rfl⟩ : ∃ f, fuel = f + 1 := ⟨fuel - 1, by simp at hf; omega⟩
    have hna : a ∉ ns := hc.head_not_mem_tail
    have hap : a ∉ ps := hd a (List.mem_cons_self a ns)
    obtain ⟨rfl, hc2⟩ := hc
    have h1 : Chain (h.set_next a prev) (h.next a) ns := hc2.set_next_of_not_mem prev hna
    have h2 : Chain (h.set_next a prev) (some a) (a :: ps) :=
      ⟨rfl, by simpa using hp.set_next_of_not_mem prev hap⟩
    have h3 : ∀ b ∈ ns, b ∉ a :: ps := by
      intro b hb hmem
      rcases List.mem_cons.mp hmem with rfl | hmem
      · exact hna hb
      · exact hd b (List.mem_cons_of_mem a hb) hmem
    obtain ⟨h', q, e, c, v, n, b⟩ :=
      ih f (h.set_next a prev) (some a) (h.next a) (a :: ps) h1 h2 h3 (by simp at hf; omega)
    refine ⟨h', q, ?_, by simpa using c, by simpa using v, ?_, by simpa using b⟩
    · simpa [reverse_list_loop] using e
    · intro x hx
      have hxa : x ≠ a := fun e => hx (e ▸ List.mem_cons_self a ns)
      have hxn : x ∉ ns := fun e => hx (List.mem_cons_of_mem a e)
      rw [n x hxn]
      simp [hxa]

theorem reverse_list_spec (fuel : Nat) (h : Heap) (head : Ptr) (ns : List Nat)
    (hc : Chain h head ns) (hf : ns.length < fuel) :
    ∃ h' q, reverse_list fuel h head = some (h', q) ∧ Chain h' q ns.reverse ∧
      h'.value1 = h.value1 ∧ (∀ a, a ∉ ns → h'.next a = h.next a) ∧ h'.brk = h.brk := by
  cases head with
  | none =>
    have : ns = [] := by simpa using hc
    subst this
    exact ⟨h, none, rfl, rfl, rfl, fun _ _ => rfl, rfl⟩
  | some a =>
    obtain ⟨h', q, e, c, r⟩ := reverse_list_loop_spec ns fuel h none (some a) [] hc rfl
      (fun _ _ => List.not_mem_nil _) hf
    exact ⟨h', q, e, by simpa using c, r⟩

/-- Claim C4: reversing a list twice gives back the same head node and the
same values in the same order (indeed the same store). -/
theorem reverse_list_reverse_list (fuel : Nat) (h : Heap) (head : Ptr) (ns : List Nat)
    (hc : Chain h head ns) (hf : ns.length < fuel) :
    ∃ h1 p1 h2, reverse_list fuel h head = some (h1, p1) ∧
      reverse_list fuel h1 p1 = some (h2, head) ∧
      Chain h2 head ns ∧ vals h2 ns = vals h ns ∧ h2 = h := by
  obtain ⟨h1, p1, e1, c1, v1, n1, b1⟩ := reverse_list_spec fuel h head ns hc hf
  obtain ⟨h2, p2, e2, c2, v2, n2, b2⟩ :=
    reverse_list_spec fuel h1 p1 ns.reverse c1 (by simpa using hf)
  rw [List.reverse_reverse] at c2
  have hp : p2 = head := by rw [c2.head_eq, hc.head_eq]
  subst hp
  have hv : h2.value1 = h.value1 := v2.trans v1
  refine ⟨h1, p1, h2, e1, e2, c2, vals_congr hv ns, ?_⟩
  refine Heap.ext_fields hv (fun a => ?_) (b2.trans b1)
  by_cases ha : a ∈ ns
  · exact Chain.next_eq hc c2 a ha
  · rw [n2 a (by simpa using ha), n1 a ha]

@[simp] theorem seg_nil (h : Heap) (p q : Ptr) : Seg h p [] q ↔ p = q := Iff.rfl

@[simp] theorem seg_cons (h : Heap) (p q : Ptr) (a : Nat) (ns : List Nat) :
    Seg h p (a :: ns) q ↔ p = some a ∧ Seg h (h.next a) ns q := Iff.rfl

theorem seg_none_iff_chain (h : Heap) (ns : List Nat) :
    ∀ p, Seg h p ns none ↔ Chain h p ns := by
  induction ns with
  | nil => intro p; simp
  | cons a ns ih => intro p; simp [ih]

theorem seg_append (h : Heap) (l1 l2 : List Nat) (q : Ptr) :
    ∀ p, Seg h p (l1 ++ l2) q ↔ ∃ m, Seg h p l1 m ∧ Seg h m l2 q := by
  induction l1 with
  | nil => intro p; simp
  | cons a l1 ih =>
    intro p
    simp only [List.cons_append, seg_cons, ih]
    constructor
    · rintro ⟨e, m, s1, s2⟩; exact ⟨m, ⟨e, s1⟩, s2⟩
    · rintro ⟨m, ⟨e, s1⟩, s2⟩; exact ⟨e, m, s1, s2⟩

theorem chain_append (h : Heap) (l1 l2 : List Nat) (p : Ptr) :
    Chain h p (l1 ++ l2) ↔ ∃ m, Seg h p l1 m ∧ Chain h m l2 := by
  rw [← seg_none_iff_chain, seg_append]
  simp only [seg_none_iff_chain]

theorem Seg.frame_links {h h' : Heap} {ns : List Nat} {q : Ptr} :
    ∀ {p : Ptr}, (∀ a ∈ ns, h'.next a = h.next a) → Seg h p ns q → Seg h' p ns q := by
  induction ns with
  | nil => intro p _ hc; exact hc
  | cons a ns ih =>
    intro p hag hc
    refine ⟨hc.1, ?_⟩
    rw [hag a (List.mem_cons_self a ns)]
    exact ih (fun b hb => hag b (List.mem_cons_of_mem a hb)) hc.2

theorem Seg.set_next_outside {h : Heap} {p q : Ptr} {ns : List Nat} {a : Nat} (r : Ptr)
    (ha : a ∉ ns) (hc : Seg h p ns q) : Seg (h.set_next a r) p ns q := by
  refine Seg.frame_links (fun b hb => ?_) hc
  have : b ≠ a := fun e => ha (e ▸ hb)
  simp [this]

/-- A segment that arrives at a node starts at a node. -/
theorem Seg.start_some {h : Heap} {p : Ptr} {ns : List Nat} {z : Nat}
    (hs : Seg h p ns (some z)) : ∃ y, p = some y := by
  cases ns with
  | nil => exact ⟨z, hs⟩
  | cons a ns => exact ⟨a, hs.1⟩

/-- Writing the link of the last node of a chain appends what it points to. -/
theorem chain_snoc_set_next {h : Heap} {p q : Ptr} {l ms : List Nat} {z : Nat}
    (hc : Chain h p (l ++ [z])) (hq : Chain h q ms) (hd : ∀ x ∈ l ++ [z], x ∉ ms) :
    Chain (h.set_next z q) p (l ++ z :: ms) := by
  have hnd := hc.nodup
  obtain ⟨m, s1, c1⟩ := (chain_append h l [z] p).mp hc
  have hzl : z ∉ l := by
    intro hz
    have := List.nodup_append.mp hnd
    exact this.2.2 hz (List.mem_singleton_self z)
  refine (chain_append _ l (z :: ms) p).mpr ⟨m, s1.set_next_outside q hzl, c1.1, ?_⟩
  simp only [set_next_next, if_true]
  exact hq.set_next_of_not_mem q (hd z (by simp))

/-! ## insertion_end_node and concatenate_lists -/

theorem insertion_end_node_loop_spec (h : Heap) (z : Nat) (hz : h.next z = none)
    (l : List Nat) :
    ∀ (fuel a : Nat), Seg h (some a) l (some z) → l.length < fuel →
      insertion_end_node_loop fuel h a = some z := by
  induction l with
  | nil =>
    intro fuel a hs hf
    obtain ⟨f, rfl⟩ : ∃ f, fuel = f + 1 := ⟨fuel - 1, by simp at hf; omega⟩
    simp at hs
    subst hs
    simp [insertion_end_node_loop, hz]
  | cons x l ih =>
    intro fuel a hs hf
    obtain ⟨f, rfl⟩ : ∃ f, fuel = f + 1 := ⟨fuel - 1, by simp at hf; omega⟩
    obtain ⟨e, hs2⟩ := hs
    cases e
    obtain ⟨y, hy⟩ := hs2.start_some
    rw [hy] at hs2
    simp only [insertion_end_node_loop, hy]
    exact ih f y hs2 (by simp at hf; omega)

theorem insertion_end_node_spec (fuel : Nat) (h : Heap) (head : Ptr) (l : List Nat) (z b : Nat)
    (hc : Chain h head (l ++ [z])) (hf : l.length < fuel) :
    insertion_end_node fuel h head (some b) = some (h.set_next z (some b), head) := by
  obtain ⟨m, s1, c1⟩ := (chain_append h l [z] head).mp hc
  obtain ⟨rfl, hz⟩ := c1
  simp at hz
  obtain ⟨a, rfl⟩ := s1.start_some
  simp [insertion_end_node, insertion_end_node_loop_spec h z hz l fuel a s1 hf]

theorem set_next_self (h : Heap) (a : Nat) : h.set_next a (h.next a) = h := by
  refine Heap.ext_fields rfl (fun b => ?_) rfl
  by_cases e : b = a <;> simp [e]

theorem set_next_set_next (h : Heap) (a : Nat) (p q : Ptr) :
    (h.set_next a p).set_next a q = h.set_next a q := by
  refine Heap.ext_fields rfl (fun b => ?_) rfl
  by_cases e : b = a <;> simp [e]

theorem Seg.start_mem {h : Heap} {y z : Nat} {l : List Nat}
    (hs : Seg h (some y) l (some z)) : y ∈ l ++ [z] := by
  cases l with
  | nil => simp at hs; simp [hs]
  | cons a l => simp at hs; simp [hs.1]

/-- The first node holding `v` splits the list in the part before it, the
node, and the part after it. -/
theorem exists_first_value (h : Heap) (v : Int) :
    ∀ ns : List Nat, v ∈ vals h ns →
      ∃ l1 d l2, ns = l1 ++ d :: l2 ∧ (∀ x ∈ l1, h.value1 x ≠ v) ∧ h.value1 d = v := by
  intro ns
  induction ns with
  | nil => intro hv; simp at hv
  | cons a ns ih =>
    intro hv
    by_cases ha : h.value1 a = v
    · exact ⟨[], a, ns, rfl, by simp, ha⟩
    · have : v ∈ vals h ns := by
        simp at hv
        rcases hv with e | e
        · exact absurd e.symm ha
        · exact e
      obtain ⟨l1, d, l2, e, hl, hd⟩ := ih this
      refine ⟨a :: l1, d, l2, by simp [e], ?_, hd⟩
      intro x hx
      rcases List.mem_cons.mp hx with rfl | hx
      · exact ha
      · exact hl x hx

theorem vals_erase_first (h : Heap) (v : Int) (l1 l2 : List Nat) (d : Nat)
    (hl : ∀ x ∈ l1, h.value1 x ≠ v) (hd : h.value1 d = v) :
    (vals h (l1 ++ d :: l2)).erase v = vals h (l1 ++ l2) := by
  induction l1 with
  | nil => simp [hd]
  | cons a l1 ih =>
    have ha : h.value1 a ≠ v := hl a (List.mem_cons_self a l1)
    have := ih (fun x hx => hl x (List.mem_cons_of_mem a hx))
    simp only [List.cons_append, vals_cons]
    rw [List.erase_cons_tail (by simpa using ha), this]

/-! ## split_list_at_value -/

theorem split_list_at_value_loop_found (h : Heap) (v : Int) (d : Nat) (hd : h.value1 d = v)
    (l : List Nat) :
    ∀ (fuel : Nat) (temp : Ptr), Seg h temp l (some d) → (∀ x ∈ l, h.value1 x ≠ v) →
      l.length < fuel → split_list_at_value_loop fuel h temp v = some (some d) := by
  induction l with
  | nil =>
    intro fuel temp hs _ hf
    obtain ⟨f, rfl⟩ : ∃ f, fuel = f + 1 := ⟨fuel - 1, by simp at hf; omega⟩
    simp at hs
    subst hs
    simp [split_list_at_value_loop, hd]
  | cons x l ih =>
    intro fuel temp hs hl hf
    obtain ⟨f, rfl⟩ : ∃ f, fuel = f + 1 := ⟨fuel - 1, by simp at hf; omega⟩
    obtain ⟨rfl, hs2⟩ := hs
    have hx : h.value1 x ≠ v := hl x (List.mem_cons_self x l)
    simp only [split_list_at_value_loop, hx, if_false]
    exact ih f _ hs2 (fun y hy => hl y (List.mem_cons_of_mem x hy)) (by simp at hf; omega)

theorem split_list_at_value_loop_not_found (h : Heap) (v : Int) (ns : List Nat) :
    ∀ (fuel : Nat) (temp : Ptr), Chain h temp ns → (∀ x ∈ ns, h.value1 x ≠ v) →
      ns.length < fuel → split_list_at_value_loop fuel h temp v = some none := by
  induction ns with
  | nil =>
    intro fuel temp hs _ hf
    obtain ⟨f, rfl⟩ : ∃ f, fuel = f + 1 := ⟨fuel - 1, by simp at hf; omega⟩
    simp at hs
    subst hs
    simp [split_list_at_value_loop]
  | cons x l ih =>
    intro fuel temp hs hl hf
    obtain ⟨f, rfl⟩ : ∃ f, fuel = f + 1 := ⟨fuel - 1, by simp at hf; omega⟩
    obtain ⟨rfl, hs2⟩ := hs
    have hx : h.value1 x ≠ v := hl x (List.mem_cons_self x l)
    simp only [split_list_at_value_loop, hx, if_false]
    exact ih f _ hs2 (fun y hy => hl y (List.mem_cons_of_mem x hy)) (by simp at hf; omega)

theorem split_list_at_value_found (fuel : Nat) (h : Heap) (head : Ptr) (v : Int)
    (l1 l2 : List Nat) (d : Nat) (hc : Chain h head (l1 ++ d :: l2))
    (hl : ∀ x ∈ l1, h.value1 x ≠ v) (hd : h.value1 d = v) (hf : l1.length < fuel) :
    split_list_at_value fuel h head v = some (h.set_next d none, ⟨head, h.next d⟩) := by
  obtain ⟨m, s1, c1⟩ := (chain_append h l1 (d :: l2) head).mp hc
  obtain ⟨rfl, -⟩ := c1
  cases l1 with
  | nil =>
    simp at s1
    subst s1
    simp [split_list_at_value, hd]
  | cons x l1 =>
    have hx : h.value1 x ≠ v := hl x (List.mem_cons_self x l1)
    have e := split_list_at_value_loop_found h v d hd (x :: l1) fuel head s1 hl hf
    obtain ⟨rfl, -⟩ := s1
    simp [split_list_at_value, hx, e]

/-- After cutting the link of a node of a chain, the part up to the node
and the part after it are chains. -/
theorem chain_cut {h : Heap} {p : Ptr} {l1 l2 : List Nat} {d : Nat}
    (hc : Chain h p (l1 ++ d :: l2)) :
    Chain (h.set_next d none) p (l1 ++ [d]) ∧ Chain (h.set_next d none) (h.next d) l2 := by
  have hnd := hc.nodup
  obtain ⟨m, s1, c1⟩ := (chain_append h l1 (d :: l2) p).mp hc
  obtain ⟨rfl, c2⟩ := c1
  have hd1 : d ∉ l1 := by
    intro hm
    exact (List.nodup_append.mp hnd).2.2 hm (List.mem_cons_self d l2)
  have hd2 : d ∉ l2 := (List.nodup_cons.mp (List.nodup_append.mp hnd).2.1).1
  refine ⟨(chain_append _ l1 [d] p).mpr ⟨some d, s1.set_next_outside none hd1, rfl, ?_⟩,
    c2.set_next_of_not_mem none hd2⟩
  simp

/-- Claim C5: when `key` occurs exactly once in `L`, splitting `L` at `key`
and concatenating the two parts gives a list with the values of `L` in the
same order (the head and the store are those before the split). -/
theorem split_list_at_value_concatenate_lists (fuel : Nat) (h : Heap) (head : Ptr)
    (ns : List Nat) (key : Int) (hc : Chain h head ns)
    (hk : (vals h ns).count key = 1) (hf : ns.length < fuel) :
    ∃ h1 a b h2, split_list_at_value fuel h head key = some (h1, ⟨a, b⟩) ∧
      concatenate_lists fuel h1 a b = some (h2, head) ∧
      Chain h2 head ns ∧ vals h2 ns = vals h ns := by
  have hmem : key ∈ vals h ns := List.count_pos_iff.mp (by omega)
  obtain ⟨l1, d, l2, rfl, hl, hd⟩ := exists_first_value h key ns hmem
  have hf1 : l1.length < fuel := by simp at hf; omega
  have e1 := split_list_at_value_found fuel h head key l1 l2 d hc hl hd hf1
  obtain ⟨c1, c2⟩ := chain_cut hc
  have hhead : ∃ a, head = some a := by
    cases l1 with
    | nil => exact ⟨d, hc.1⟩
    | cons x l1 => exact ⟨x, hc.1⟩
  obtain ⟨a, rfl⟩ := hhead
  refine ⟨h.set_next d none, some a, h.next d, h, e1, ?_, hc, rfl⟩
  cases hb : h.next d with
  | none =>
    have : h.set_next d none = h := by rw [← hb]; exact set_next_self h d
    simp [concatenate_lists, this]
  | some b =>
    have e2 := insertion_end_node_spec fuel (h.set_next d none) (some a) l1 d b c1 hf1
    rw [set_next_set_next, ← hb, set_next_self] at e2
    simp only [concatenate_lists]
    rw [← hb]
    exact e2

/-! ## insertion_head_node followed by remove_node -/

/-- Claim C6: inserting a single node `n` (no successor) at the head of `L`
and removing `n` again returns the pair (head of `L`, `n`); `L` has its
values back in the same order and `n` has no successor. -/
theorem insertion_head_node_remove_node (fuel : Nat) (h : Heap) (head : Ptr) (ns : List Nat)
    (n : Nat) (hc : Chain h head ns) (hs : h.next n = none) :
    ∃ h2, remove_node fuel (insertion_head_node h head (some n)).1
        (insertion_head_node h head (some n)).2 (some n) = some (h2, ⟨head, some n⟩) ∧
      Chain h2 head ns ∧ vals h2 ns = vals h ns ∧ h2.next n = none := by
  have hh : h.set_next n none = h := by rw [← hs]; exact set_next_self h n
  refine ⟨h, ?_, hc, rfl, hs⟩
  cases head with
  | none => simp [insertion_head_node, remove_node, hs, hh]
  | some a => simp [insertion_head_node, remove_node, set_next_set_next, hh]

/-! ## remove_node_with_value -/

/-- The loop of `remove_node_with_value` stops at the node `z` whose
successor holds `value`, or at the last node when no successor does. -/
theorem remove_node_with_value_loop_spec (h : Heap) (v : Int) (z : Nat)
    (hz : h.next z = none ∨ ∃ d, h.next z = some d ∧ h.value1 d = v) (l : List Nat) :
    ∀ (fuel a : Nat), Seg h (some a) l (some z) → (∀ x ∈ l ++ [z], h.value1 x ≠ v) →
      l.length < fuel → remove_node_with_value_loop fuel h a v = some z := by
  induction l with
  | nil =>
    intro fuel a hs _ hf
    obtain ⟨f, rfl⟩ : ∃ f, fuel = f + 1 := ⟨fuel - 1, by simp at hf; omega⟩
    simp at hs
    subst hs
    rcases hz with hz | ⟨d, hz, hd⟩
    · simp [remove_node_with_value_loop, hz]
    · simp [remove_node_with_value_loop, hz, hd]
  | cons x l ih =>
    intro fuel a hs hl hf
    obtain ⟨f, rfl⟩ : ∃ f, fuel = f + 1 := ⟨fuel - 1, by simp at hf; omega⟩
    obtain ⟨e, hs2⟩ := hs
    cases e
    obtain ⟨y, hy⟩ := hs2.start_some
    rw [hy] at hs2
    have hyv : h.value1 y ≠ v := hl y (List.mem_cons_of_mem _ hs2.start_mem)
    simp only [remove_node_with_value_loop, hy, hyv, if_false]
    exact ih f y hs2 (fun w hw => hl w (List.mem_cons_of_mem _ hw)) (by simp at hf; omega)

theorem remove_node_with_value_found (fuel : Nat) (h : Heap) (head : Ptr) (v : Int)
    (l1 l2 : List Nat) (d : Nat) (hc : Chain h head (l1 ++ d :: l2))
    (hl : ∀ x ∈ l1, h.value1 x ≠ v) (hd : h.value1 d = v) (hf : l1.length < fuel) :
    ∃ h' p', remove_node_with_value fuel h head v = some (h', ⟨p', some d⟩) ∧
      Chain h' p' (l1 ++ l2) ∧ h'.value1 = h.value1 ∧ h'.next d = none ∧
      (∀ a, a ∉ l1 ++ d :: l2 → h'.next a = h.next a) ∧ h'.brk = h.brk := by
  have hnd := hc.nodup
  rcases List.eq_nil_or_concat l1 with rfl | ⟨l, z, rfl⟩
  · obtain ⟨rfl, c2⟩ := hc
    have hd2 : d ∉ l2 := (List.nodup_cons.mp hnd).1
    refine ⟨h.set_next d none, h.next d, by simp [remove_node_with_value, hd],
      by simpa using c2.set_next_of_not_mem none hd2, rfl, by simp, ?_, rfl⟩
    intro a ha
    have : a ≠ d := fun e => ha (by simp [e])
    simp [this]
  · simp only [List.concat_eq_append, List.append_assoc, List.singleton_append] at hc hnd hl
    obtain ⟨m, s1, c1⟩ := (chain_append h l (z :: d :: l2) head).mp hc
    obtain ⟨rfl, c2⟩ := c1
    obtain ⟨hzd, c3⟩ := c2
    obtain ⟨a, rfl⟩ := s1.start_some
    have hav : h.value1 a ≠ v := by
      have := s1.start_mem
      exact hl a (by simpa using this)
    have hloop := remove_node_with_value_loop_spec h v z (Or.inr ⟨d, hzd, hd⟩) l fuel a s1
      (fun x hx => hl x (by simpa using hx)) (by simp at hf; omega)
    simp only [List.nodup_append, List.nodup_cons, List.mem_cons, not_or] at hnd
    obtain ⟨hl_nd, ⟨⟨hzd', hzl2⟩, ⟨hdl2, hl2_nd⟩⟩, hdisj⟩ := hnd
    have hzl : z ∉ l := fun hm => hdisj hm (by simp)
    have hdl : d ∉ l := fun hm => hdisj hm (by simp)
    refine ⟨(h.set_next z (h.next d)).set_next d none, some a, ?_, ?_, rfl, by simp, ?_, rfl⟩
    · simp [remove_node_with_value, hav, hloop, hzd]
    · simp only [List.concat_eq_append, List.append_assoc, List.singleton_append]
      refine (chain_append _ l (z :: l2) (some a)).mpr ⟨some z, ?_, rfl, ?_⟩
      · exact (s1.set_next_outside _ hzl).set_next_outside _ hdl
      · simp only [set_next_next, hzd', if_false, if_true]
        exact (c3.set_next_of_not_mem _ hzl2).set_next_of_not_mem _ hdl2
    · intro x hx
      simp only [List.concat_eq_append, List.append_assoc, List.singleton_append,
        List.mem_append, List.mem_cons, not_or] at hx
      simp [hx.2.1, hx.2.2.1]

/-- Claim C7: when `v` occurs in `L`, `remove_node_with_value(L, v)` returns
the list without the first occurrence of `v` (every other value kept, in
order) and the node `d` that held it, which carries `v` and has no
successor. -/
theorem remove_node_with_value_first (fuel : Nat) (h : Heap) (head : Ptr) (ns : List Nat)
    (v : Int) (hc : Chain h head ns) (hv : v ∈ vals h ns) (hf : ns.length < fuel) :
    ∃ h' p' d ns' l1 l2, remove_node_with_value fuel h head v = some (h', ⟨p', some d⟩) ∧
      Chain h' p' ns' ∧ vals h' ns' = (vals h ns).erase v ∧
      ns = l1 ++ d :: l2 ∧ ns' = l1 ++ l2 ∧ v ∉ vals h l1 ∧
      h'.value1 d = v ∧ h'.next d = none := by
  obtain ⟨l1, d, l2, rfl, hl, hd⟩ := exists_first_value h v ns hv
  obtain ⟨h', p', e, c, hval, hnx, -, -⟩ :=
    remove_node_with_value_found fuel h head v l1 l2 d hc hl hd (by simp at hf; omega)
  refine ⟨h', p', d, l1 ++ l2, l1, l2, e, c, ?_, rfl, rfl, ?_, by rw [hval]; exact hd, hnx⟩
  · rw [vals_congr hval, vals_erase_first h v l1 l2 d hl hd]
  · intro hm
    simp only [vals, List.mem_map] at hm
    obtain ⟨x, hx, hxv⟩ := hm
    exact hl x hx hxv

/-! ## Searches that find nothing -/

theorem value_in_list_loop_not_found (h : Heap) (v : Int) (ns : List Nat) :
    ∀ (fuel : Nat) (temp : Ptr), Chain h temp ns → (∀ x ∈ ns, h.value1 x ≠ v) →
      ns.length < fuel → value_in_list_loop fuel h temp v = some none := by
  induction ns with
  | nil =>
    intro fuel temp hs _ hf
    obtain ⟨f, rfl⟩ : ∃ f, fuel = f + 1 := ⟨fuel - 1, by simp at hf; omega⟩
    simp at hs
    subst hs
    simp [value_in_list_loop]
  | cons x l ih =>
    intro fuel temp hs hl hf
    obtain ⟨f, rfl⟩ : ∃ f, fuel = f + 1 := ⟨fuel - 1, by simp at hf; omega⟩
    obtain ⟨rfl, hs2⟩ := hs
    have hx : h.value1 x ≠ v := hl x (List.mem_cons_self x l)
    simp only [value_in_list_loop, hx, if_false]
    exact ih f _ hs2 (fun y hy => hl y (List.mem_cons_of_mem x hy)) (by simp at hf; omega)

theorem split_list_at_node_loop_not_found (h : Heap) (n : Ptr) (ns : List Nat) :
    ∀ (fuel : Nat) (temp : Ptr), Chain h temp ns → (∀ x ∈ ns, some x ≠ n) →
      ns.length < fuel → split_list_at_node_loop fuel h temp n = some none := by
  induction ns with
  | nil =>
    intro fuel temp hs _ hf
    obtain ⟨f, rfl⟩ : ∃ f, fuel = f + 1 := ⟨fuel - 1, by simp at hf; omega⟩
    simp at hs
    subst hs
    simp [split_list_at_node_loop]
  | cons x l ih =>
    intro fuel temp hs hl hf
    obtain ⟨f, rfl⟩ : ∃ f, fuel = f + 1 := ⟨fuel - 1, by simp at hf; omega⟩
    obtain ⟨rfl, hs2⟩ := hs
    have hx : some x ≠ n := hl x (List.mem_cons_self x l)
    simp only [split_list_at_node_loop, hx, if_false]
    exact ih f _ hs2 (fun y hy => hl y (List.mem_cons_of_mem x hy)) (by simp at hf; omega)

theorem insertion_after_node_loop_not_found (h : Heap) (n : Ptr) (ns : List Nat) :
    ∀ (fuel : Nat) (temp : Ptr), Chain h temp ns → (∀ x ∈ ns, some x ≠ n) →
      ns.length < fuel → insertion_after_node_loop fuel h temp n = some none := by
  induction ns with
  | nil =>
    intro fuel temp hs _ hf
    obtain ⟨f, rfl⟩ : ∃ f, fuel = f + 1 := ⟨fuel - 1, by simp at hf; omega⟩
    simp at hs
    subst hs
    simp [insertion_after_node_loop]
  | cons x l ih =>
    intro fuel temp hs hl hf
    obtain ⟨f, rfl⟩ : ∃ f, fuel = f + 1 := ⟨fuel - 1, by simp at hf; omega⟩
    obtain ⟨rfl, hs2⟩ := hs
    have hx : some x ≠ n := hl x (List.mem_cons_self x l)
    simp only [insertion_after_node_loop, hx, if_false]
    exact ih f _ hs2 (fun y hy => hl y (List.mem_cons_of_mem x hy)) (by simp at hf; omega)

theorem node_in_list_loop_not_found (h : Heap) (n : Nat) (ns : List Nat) :
    ∀ (fuel : Nat) (temp : Ptr), Chain h temp ns → n ∉ ns →
      ns.length < fuel → node_in_list_loop fuel h temp n = some (h, none) := by
  induction ns with
  | nil =>
    intro fuel temp hs _ hf
    obtain ⟨f, rfl⟩ : ∃ f, fuel = f + 1 := ⟨fuel - 1, by simp at hf; omega⟩
    simp at hs
    subst hs
    simp [node_in_list_loop]
  | cons x l ih =>
    intro fuel temp hs hl hf
    obtain ⟨f, rfl⟩ : ∃ f, fuel = f + 1 := ⟨fuel - 1, by simp at hf; omega⟩
    obtain ⟨rfl, hs2⟩ := hs
    have hx : x ≠ n := fun e => hl (by simp [e])
    simp only [node_in_list_loop, hx, if_false]
    exact ih f _ hs2 (fun hy => hl (List.mem_cons_of_mem x hy)) (by simp at hf; omega)

/-- Inside a segment every node has a successor, which lies further on. -/
theorem Seg.next_mem_tail {h : Heap} {z : Nat} {l : List Nat} :
    ∀ {p : Ptr}, Seg h p l (some z) →
      ∀ x ∈ l, ∃ y, h.next x = some y ∧ y ∈ (l ++ [z]).tail := by
  induction l with
  | nil => intro _ _ x hx; simp at hx
  | cons x0 l ih =>
    intro p hs x hx
    obtain ⟨-, hs2⟩ := hs
    rcases List.mem_cons.mp hx with rfl | hx
    · obtain ⟨y, hy⟩ := hs2.start_some
      rw [hy] at hs2
      exact ⟨y, hy, by simpa using hs2.start_mem⟩
    · obtain ⟨y, hy, hm⟩ := ih hs2 x hx
      exact ⟨y, hy, by simpa using List.mem_of_mem_tail hm⟩

/-- The loop of `remove_node` stops at the first node `z` whose link is
`NULL` or `n`. -/
theorem remove_node_loop_spec (h : Heap) (n : Ptr) (z : Nat)
    (hz : h.next z = none ∨ h.next z = n) (l : List Nat) :
    ∀ (fuel a : Nat), Seg h (some a) l (some z) → (∀ x ∈ l, h.next x ≠ n) →
      l.length < fuel → remove_node_loop fuel h a n = some z := by
  induction l with
  | nil =>
    intro fuel a hs _ hf
    obtain ⟨f, rfl⟩ : ∃ f, fuel = f + 1 := ⟨fuel - 1, by simp at hf; omega⟩
    simp at hs
    subst hs
    rcases hz with hz | hz
    · simp [remove_node_loop, hz]
    · cases hn : h.next a with
      | none => simp [remove_node_loop, hn]
      | some t => simp [remove_node_loop, hn, ← hz]
  | cons x l ih =>
    intro fuel a hs hl hf
    obtain ⟨f, rfl⟩ : ∃ f, fuel = f + 1 := ⟨fuel - 1, by simp at hf; omega⟩
    obtain ⟨e, hs2⟩ := hs
    cases e
    obtain ⟨y, hy⟩ := hs2.start_some
    rw [hy] at hs2
    have hyv : some y ≠ n := by
      have := hl x (List.mem_cons_self x l)
      rwa [hy] at this
    simp only [remove_node_loop, hy, hyv, if_false]
    exact ih f y hs2 (fun w hw => hl w (List.mem_cons_of_mem _ hw)) (by simp at hf; omega)

/-- The loop of `remove_node` runs past every node whose successor is not
`n`: only the nodes after the first are compared with `n`. -/
theorem remove_node_loop_tail (h : Heap) (n : Ptr) (z : Nat)
    (hz : h.next z = none ∨ h.next z = n) (l : List Nat) (fuel a : Nat)
    (hs : Seg h (some a) l (some z)) (hl : ∀ x ∈ (l ++ [z]).tail, some x ≠ n)
    (hf : l.length < fuel) : remove_node_loop fuel h a n = some z := by
  refine remove_node_loop_spec h n z hz l fuel a hs (fun x hx e => ?_) hf
  obtain ⟨y, hy, hm⟩ := hs.next_mem_tail x hx
  rw [hy] at e
  exact hl y hm e

/-- The loop of `insertion_before_node` is the one of `remove_node`. -/
theorem insertion_before_node_loop_eq (fuel : Nat) (h : Heap) (a : Nat) (n : Ptr) :
    insertion_before_node_loop fuel h a n = remove_node_loop fuel h a n := by
  induction fuel generalizing a with
  | zero => rfl
  | succ f ih =>
    simp only [insertion_before_node_loop, remove_node_loop]
    cases h.next a with
    | none => rfl
    | some t => simp only [ih]

/-- A non-empty chain ends in a node without successor. -/
theorem Chain.exists_last {h : Heap} {a : Nat} {ns : List Nat} (hc : Chain h (some a) ns) :
    ∃ l z, ns = l ++ [z] ∧ Seg h (some a) l (some z) ∧ h.next z = none := by
  rcases List.eq_nil_or_concat ns with rfl | ⟨l, z, rfl⟩
  · simp at hc
  · simp only [List.concat_eq_append] at hc ⊢
    obtain ⟨m, s1, c1⟩ := (chain_append h l [z] (some a)).mp hc
    obtain ⟨rfl, hz⟩ := c1
    exact ⟨l, z, rfl, s1, by simpa using hz⟩

theorem remove_node_not_found (fuel : Nat) (h : Heap) (head n : Ptr) (ns : List Nat)
    (hc : Chain h head ns) (hn : ∀ x ∈ ns, some x ≠ n) (hf : ns.length < fuel) :
    remove_node fuel h head n = some (h, ⟨head, none⟩) := by
  cases head with
  | none => simp [remove_node]
  | some a =>
    cases n with
    | none => simp [remove_node]
    | some b =>
      obtain ⟨l, z, rfl, s1, hz⟩ := hc.exists_last
      have hab : some b ≠ some a := fun e => hn a (by simpa using s1.start_mem) e.symm
      have hloop := remove_node_loop_tail h (some b) z (Or.inl hz) l fuel a s1
        (fun x hx => hn x (List.mem_of_mem_tail hx)) (by simp at hf; omega)
      simp [remove_node, hab, hloop, hz]

/-- Claim C8: when `v` does not occur in `L`, `split_list_at_value`,
`remove_node_with_value` and `value_in_list` return (head of `L`, `NULL`)
and leave the store as it was; when `n` is `NULL` or not a node of `L`,
so do `split_list_at_node`, `remove_node` and `node_in_list`. -/
theorem not_found_unchanged (fuel : Nat) (h : Heap) (head n : Ptr) (ns : List Nat) (v : Int)
    (hc : Chain h head ns) (hv : v ∉ vals h ns) (hn : n ∉ ns.map some)
    (hf : ns.length < fuel) :
    split_list_at_value fuel h head v = some (h, ⟨head, none⟩) ∧
    remove_node_with_value fuel h head v = some (h, ⟨head, none⟩) ∧
    value_in_list fuel h head v = some (h, ⟨head, none⟩) ∧
    split_list_at_node fuel h head n = some (h, ⟨head, none⟩) ∧
    remove_node fuel h head n = some (h, ⟨head, none⟩) ∧
    node_in_list fuel h head n = some (h, ⟨head, none⟩) := by
  have hv' : ∀ x ∈ ns, h.value1 x ≠ v := by
    intro x hx e
    exact hv (by simp only [vals, List.mem_map]; exact ⟨x, hx, e⟩)
  have hn' : ∀ x ∈ ns, some x ≠ n := fun x hx e => hn (List.mem_map.mpr ⟨x, hx, e⟩)
  refine ⟨?_, ?_, ?_, ?_, remove_node_not_found fuel h head n ns hc hn' hf, ?_⟩
  · cases head with
    | none => simp [split_list_at_value]
    | some a =>
      have ha : h.value1 a ≠ v := by
        cases ns with
        | nil => simp at hc
        | cons x ns => obtain ⟨e, -⟩ := hc; cases e; exact hv' _ (List.mem_cons_self _ _)
      simp [split_list_at_value, ha, split_list_at_value_loop_not_found h v ns fuel _ hc hv' hf]
  · cases head with
    | none => simp [remove_node_with_value]
    | some a =>
      obtain ⟨l, z, rfl, s1, hz⟩ := hc.exists_last
      have ha : h.value1 a ≠ v := hv' a (by simpa using s1.start_mem)
      have hloop := remove_node_with_value_loop_spec h v z (Or.inl hz) l fuel a s1 hv'
        (by simp at hf; omega)
      simp [remove_node_with_value, ha, hloop, hz]
  · cases head with
    | none => simp [value_in_list]
    | some a =>
      simp [value_in_list, value_in_list_loop_not_found h v ns fuel _ hc hv' hf]
  · cases head with
    | none => simp [split_list_at_node]
    | some a =>
      have ha : n ≠ some a := by
        cases ns with
        | nil => simp at hc
        | cons x ns =>
          obtain ⟨e, -⟩ := hc; cases e
          exact fun e => hn' _ (List.mem_cons_self _ _) e.symm
      simp [split_list_at_node, ha, split_list_at_node_loop_not_found h n ns fuel _ hc hn' hf]
  · cases head with
    | none => simp [node_in_list]
    | some a =>
      cases n with
      | none => simp [node_in_list]
      | some b =>
        simp [node_in_list,
          node_in_list_loop_not_found h b ns fuel _ hc (fun hb => hn' b hb rfl) hf]

/-! ## insertion_after_node without a match -/

/-- Claim C9, as the code has it: on a non-empty list, when the anchor `n`
is `NULL` or not a node of the list, `insertion_after_node` returns the
original head and leaves the store as it was, whatever the node to insert;
on the empty list it returns the node to insert, `after_n`. -/
theorem insertion_after_node_not_found (fuel : Nat) (h : Heap) (head n after_n : Ptr)
    (ns : List Nat) (hc : Chain h head ns) (hn : n ∉ ns.map some)
    (hf : ns.length < fuel) :
    (head ≠ none → insertion_after_node fuel h head n after_n = some (h, head)) ∧
    (head = none → insertion_after_node fuel h head n after_n = some (h, after_n)) := by
  have hn' : ∀ x ∈ ns, some x ≠ n := fun x hx e => hn (List.mem_map.mpr ⟨x, hx, e⟩)
  constructor
  · intro hne
    cases head with
    | none => exact absurd rfl hne
    | some a =>
      cases after_n with
      | none => simp [insertion_after_node]
      | some b =>
        cases n with
        | none => simp [insertion_after_node]
        | some c =>
          simp [insertion_after_node,
            insertion_after_node_loop_not_found h (some c) ns fuel _ hc hn' hf]
  · rintro rfl
    cases after_n <;> simp [insertion_after_node]

/-! ## insertion_before_node -/

/-- When the anchor is the head of the list, `insertion_before_node` finds
no predecessor and returns the list as it was: nothing is inserted. -/
theorem insertion_before_node_at_head (fuel : Nat) (h : Heap) (a b : Nat) (ns : List Nat)
    (hc : Chain h (some a) ns) (hf : ns.length < fuel) :
    insertion_before_node fuel h (some a) (some a) (some b) = some (h, some a) := by
  have hnd := hc.nodup
  obtain ⟨l, z, rfl, s1, hz⟩ := hc.exists_last
  have htail : ∀ x ∈ (l ++ [z]).tail, some x ≠ some a := by
    intro x hx e
    cases e
    cases l with
    | nil => simp at hx
    | cons y l =>
      obtain ⟨e, -⟩ := s1
      cases e
      simp only [List.cons_append, List.tail_cons] at hx
      exact (List.nodup_cons.mp hnd).1 hx
  have hloop := remove_node_loop_tail h (some a) z (Or.inl hz) l fuel a s1 htail
    (by simp at hf; omega)
  simp [insertion_before_node, insertion_before_node_loop_eq, hloop, hz]

/-- When the anchor `d` has a predecessor `z` in the list,
`insertion_before_node` links the new node `b` between `z` and `d`. -/
theorem insertion_before_node_inner (fuel : Nat) (h : Heap) (head : Ptr) (l l2 : List Nat)
    (z d b : Nat) (hc : Chain h head (l ++ z :: d :: l2)) (hb : b ∉ l ++ z :: d :: l2)
    (hf : l.length < fuel) :
    ∃ h', insertion_before_node fuel h head (some d) (some b) = some (h', head) ∧
      Chain h' head (l ++ z :: b :: d :: l2) ∧ h'.value1 = h.value1 := by
  have hnd := hc.nodup
  obtain ⟨m, s1, c1⟩ := (chain_append h l (z :: d :: l2) head).mp hc
  obtain ⟨rfl, hzd, c3⟩ := c1
  obtain ⟨a, rfl⟩ := s1.start_some
  simp only [List.nodup_append, List.nodup_cons, List.mem_cons, not_or] at hnd
  obtain ⟨hl_nd, ⟨⟨hzd', hzl2⟩, ⟨hdl2, hl2_nd⟩⟩, hdisj⟩ := hnd
  have hzl : z ∉ l := fun hm => hdisj hm (by simp)
  have hdl : d ∉ l := fun hm => hdisj hm (by simp)
  simp only [List.mem_append, List.mem_cons, not_or] at hb
  obtain ⟨hbl, hbz, hbd, hbl2⟩ := hb
  have hne : ∀ x ∈ (l ++ [z]).tail, some x ≠ some d := by
    intro x hx e
    cases e
    rcases List.mem_append.mp (List.mem_of_mem_tail hx) with hx | hx
    · exact hdl hx
    · exact hzd' (List.mem_singleton.mp hx).symm
  have hloop := remove_node_loop_tail h (some d) z (Or.inr hzd) l fuel a s1 hne hf
  refine ⟨(h.set_next b (some d)).set_next z (some b), ?_, ?_, rfl⟩
  · simp [insertion_before_node, insertion_before_node_loop_eq, hloop, hzd]
  · refine (chain_append _ l (z :: b :: d :: l2) (some a)).mpr ⟨some z, ?_, rfl, ?_⟩
    · exact (s1.set_next_outside _ hbl).set_next_outside _ hzl
    · have hbz' : b ≠ z := hbz
      have hdz : d ≠ z := fun e => hzd' e.symm
      have hdb : d ≠ b := fun e => hbd e.symm
      simp only [set_next_next, if_true, chain_cons, hbz', hdz, hdb, if_false, true_and]
      rw [hzd] at *
      exact (c3.set_next_of_not_mem _ hbl2).set_next_of_not_mem _ hzl2

/-! ## insertion_end_node on two chains -/

theorem insertion_end_node_chain (fuel : Nat) (h : Heap) (p q : Ptr) (ns ms : List Nat)
    (hp : Chain h p ns) (hq : Chain h q ms) (hd : ∀ x ∈ ns, x ∉ ms) (hf : ns.length ≤ fuel) :
    ∃ h' r, insertion_end_node fuel h p q = some (h', r) ∧ Chain h' r (ns ++ ms) ∧
      h'.value1 = h.value1 ∧ (∀ a, a ∉ ns → h'.next a = h.next a) ∧ h'.brk = h.brk := by
  cases p with
  | none =>
    have : ns = [] := by simpa using hp
    subst this
    refine ⟨h, q, ?_, by simpa using hq, rfl, fun _ _ => rfl, rfl⟩
    cases q <;> rfl
  | some a =>
    cases q with
    | none =>
      have : ms = [] := by simpa using hq
      subst this
      exact ⟨h, some a, rfl, by simpa using hp, rfl, fun _ _ => rfl, rfl⟩
    | some b =>
      obtain ⟨l, z, rfl, -, -⟩ := hp.exists_last
      have e := insertion_end_node_spec fuel h (some a) l z b hp (by simp at hf; omega)
      refine ⟨h.set_next z (some b), some a, e, ?_, rfl, ?_, rfl⟩
      · simpa using chain_snoc_set_next hp hq hd
      · intro x hx
        have : x ≠ z := fun e => hx (by simp [e])
        simp [this]

/-! ## sort_list -/

/-- Putting a cut-off node at the head of a bucket. -/
theorem insertion_head_node_bucket (h : Heap) (q : Ptr) (ls : List Nat) (a : Nat)
    (hq : Chain h q ls) (ha : a ∉ ls) :
    Chain (insertion_head_node (h.set_next a none) q (some a)).1
        (insertion_head_node (h.set_next a none) q (some a)).2 (a :: ls) ∧
      (insertion_head_node (h.set_next a none) q (some a)).1.value1 = h.value1 ∧
      (∀ b, b ≠ a → (insertion_head_node (h.set_next a none) q (some a)).1.next b = h.next b) ∧
      (insertion_head_node (h.set_next a none) q (some a)).1.brk = h.brk := by
  cases q with
  | none =>
    have : ls = [] := by simpa using hq
    subst this
    refine ⟨by simp [insertion_head_node], rfl, ?_, rfl⟩
    intro b hb
    simp [insertion_head_node, hb]
  | some c =>
    refine ⟨?_, rfl, ?_, rfl⟩
    · simp only [insertion_head_node, set_next_set_next, chain_cons, set_next_next, if_true,
        true_and]
      exact hq.set_next_of_not_mem _ ha
    · intro b hb
      simp [insertion_head_node, hb]

theorem sort_list_loop_spec (pivot : Int) (ns : List Nat) :
    ∀ (fuel : Nat) (h : Heap) (left middle right temp : Ptr) (ls ms rs : List Nat),
      Chain h temp ns → Chain h left ls → Chain h middle ms → Chain h right rs →
      (∀ a ∈ ns, a ∉ ls ∧ a ∉ ms ∧ a ∉ rs) → ns.length < fuel →
      ∃ h' l' m' r',
        sort_list_loop pivot fuel h left middle right temp = some (h', l', m', r') ∧
        Chain h' l' ((ns.filter (fun a => h.value1 a < pivot)).reverse ++ ls) ∧
        Chain h' m' ((ns.filter (fun a => h.value1 a = pivot)).reverse ++ ms) ∧
        Chain h' r' ((ns.filter (fun a => pivot < h.value1 a)).reverse ++ rs) ∧
        h'.value1 = h.value1 ∧ (∀ a, a ∉ ns → h'.next a = h.next a) ∧ h'.brk = h.brk := by
  induction ns with
  | nil =>
    intro fuel h left middle right temp ls ms rs hc hl hm hr _ hf
    obtain ⟨f, rfl⟩ : ∃ f, fuel = f + 1 := ⟨fuel - 1, by simp at hf; omega⟩
    simp at hc
    subst hc
    exact ⟨h, left, middle, right, rfl, by simpa using hl, by simpa using hm,
      by simpa using hr, rfl, fun _ _ => rfl, rfl⟩
  | cons a ns ih =>
    intro fuel h left middle right temp ls ms rs hc hl hm hr hd hf
    obtain ⟨f, rfl⟩ : ∃ f, fuel = f + 1 := ⟨fuel - 1, by simp at hf; omega⟩
    have hna : a ∉ ns := hc.head_not_mem_tail
    obtain ⟨hal, ham, har⟩ := hd a (List.mem_cons_self a ns)
    obtain ⟨rfl, hc2⟩ := hc
    have hf' : ns.length < f := by simp at hf; omega
    have hrest : ∀ (h2 : Heap), (∀ b, b ≠ a → h2.next b = h.next b) →
        ∀ (q : Ptr) (xs : List Nat), a ∉ xs → Chain h q xs → Chain h2 q xs := by
      intro h2 hag q xs hx hq
      exact Chain.frame (fun b hb => hag b (fun e => hx (e ▸ hb))) hq
    have hdis : ∀ (xs : List Nat), (∀ b ∈ a :: ns, b ∉ xs) → ∀ b ∈ ns, b ∉ a :: xs := by
      intro xs hxs b hb hmem
      rcases List.mem_cons.mp hmem with rfl | hmem
      · exact hna hb
      · exact hxs b (List.mem_cons_of_mem a hb) hmem
    have hdl := hdis ls (fun b hb => (hd b hb).1)
    have hdm := hdis ms (fun b hb => (hd b hb).2.1)
    have hdr := hdis rs (fun b hb => (hd b hb).2.2)
    have hd0 : ∀ b ∈ ns, b ∉ ls ∧ b ∉ ms ∧ b ∉ rs :=
      fun b hb => hd b (List.mem_cons_of_mem a hb)
    by_cases h1 : h.value1 a < pivot
    · obtain ⟨cb, vb, nb, bb⟩ := insertion_head_node_bucket h left ls a hl hal
      obtain ⟨h', l', m', r', e, c1, c2, c3, v, n, b⟩ :=
        ih f _ _ middle right (h.next a) (a :: ls) ms rs (hrest _ nb _ _ hna hc2) cb
          (hrest _ nb _ _ ham hm) (hrest _ nb _ _ har hr)
          (fun x hx => ⟨hdl x hx, (hd0 x hx).2⟩) hf'
      have h2 : ¬ h.value1 a = pivot := by omega
      have h3 : ¬ pivot < h.value1 a := by omega
      rw [vb] at c1 c2 c3 v
      refine ⟨h', l', m', r', ?_, ?_, ?_, ?_, v, ?_, b.trans bb⟩
      · simpa [sort_list_loop, h1] using e
      · simpa [List.filter_cons, h1] using c1
      · simpa [List.filter_cons, h2] using c2
      · simpa [List.filter_cons, h3] using c3
      · intro x hx
        have hxa : x ≠ a := fun e => hx (e ▸ List.mem_cons_self a ns)
        rw [n x (fun e => hx (List.mem_cons_of_mem a e)), nb x hxa]
    · by_cases h2 : h.value1 a = pivot
      · obtain ⟨cb, vb, nb, bb⟩ := insertion_head_node_bucket h middle ms a hm ham
        obtain ⟨h', l', m', r', e, c1, c2, c3, v, n, b⟩ :=
          ih f _ left _ right (h.next a) ls (a :: ms) rs (hrest _ nb _ _ hna hc2)
            (hrest _ nb _ _ hal hl) cb (hrest _ nb _ _ har hr)
            (fun x hx => ⟨(hd0 x hx).1, hdm x hx, (hd0 x hx).2.2⟩) hf'
        have h3 : ¬ pivot < h.value1 a := by omega
        rw [vb] at c1 c2 c3 v
        refine ⟨h', l', m', r', ?_, ?_, ?_, ?_, v, ?_, b.trans bb⟩
        · simpa [sort_list_loop, h1, h2] using e
        · simpa [List.filter_cons, h1] using c1
        · simpa [List.filter_cons, h2] using c2
        · simpa [List.filter_cons, h3] using c3
        · intro x hx
          have hxa : x ≠ a := fun e => hx (e ▸ List.mem_cons_self a ns)
          rw [n x (fun e => hx (List.mem_cons_of_mem a e)), nb x hxa]
      · obtain ⟨cb, vb, nb, bb⟩ := insertion_head_node_bucket h right rs a hr har
        obtain ⟨h', l', m', r', e, c1, c2, c3, v, n, b⟩ :=
          ih f _ left middle _ (h.next a) ls ms (a :: rs) (hrest _ nb _ _ hna hc2)
            (hrest _ nb _ _ hal hl) (hrest _ nb _ _ ham hm) cb
            (fun x hx => ⟨(hd0 x hx).1, (hd0 x hx).2.1, hdr x hx⟩) hf'
        have h3 : pivot < h.value1 a := by omega
        rw [vb] at c1 c2 c3 v
        refine ⟨h', l', m', r', ?_, ?_, ?_, ?_, v, ?_, b.trans bb⟩
        · simpa [sort_list_loop, h1, h2] using e
        · simpa [List.filter_cons, h1] using c1
        · simpa [List.filter_cons, h2] using c2
        · simpa [List.filter_cons, h3] using c3
        · intro x hx
          have hxa : x ≠ a := fun e => hx (e ▸ List.mem_cons_self a ns)
          rw [n x (fun e => hx (List.mem_cons_of_mem a e)), nb x hxa]

/-- The three buckets together hold exactly the nodes of the list. -/
theorem three_way_perm (val : Nat → Int) (pivot : Int) (ns : List Nat) :
    ((ns.filter (fun a => val a < pivot)) ++ ((ns.filter (fun a => val a = pivot)) ++
      (ns.filter (fun a => pivot < val a)))).Perm ns := by
  induction ns with
  | nil => simp
  | cons a ns ih =>
    by_cases h1 : val a < pivot
    · have h2 : ¬ val a = pivot := by omega
      have h3 : ¬ pivot < val a := by omega
      simpa [List.filter_cons, h1, h2, h3] using ih
    · by_cases h2 : val a = pivot
      · have h3 : ¬ pivot < val a := by omega
        simp only [List.filter_cons, h1, h2, h3, decide_True, decide_False, if_true]
        simp only [lt_self_iff_false, decide_False, Bool.false_eq_true, if_false]
        refine List.Perm.trans List.perm_middle (List.Perm.cons a ?_)
        simpa [h2] using ih
      · have h3 : pivot < val a := by omega
        simp only [List.filter_cons, h1, h2, h3, decide_True, decide_False, if_true]
        simp only [Bool.false_eq_true, if_false]
        rw [← List.append_assoc]
        refine List.Perm.trans List.perm_middle (List.Perm.cons a ?_)
        simpa using ih

theorem sort_list_spec :
    ∀ (fuel : Nat) (h : Heap) (head : Ptr) (ns : List Nat),
      Chain h head ns → ns.length + 1 < fuel →
      ∃ h' p' ns', sort_list fuel h head = some (h', p') ∧ Chain h' p' ns' ∧
        ns'.Perm ns ∧ (vals h ns').Sorted (· ≤ ·) ∧ h'.value1 = h.value1 ∧
        (∀ a, a ∉ ns → h'.next a = h.next a) ∧ h'.brk = h.brk := by
  intro fuel
  induction fuel with
  | zero => intro h head ns _ hf; omega
  | succ f ih =>
    intro h head ns hc hf
    cases head with
    | none =>
      have : ns = [] := by simpa using hc
      subst this
      exact ⟨h, none, [], rfl, rfl, List.Perm.refl _, by simp [vals], rfl, fun _ _ => rfl, rfl⟩
    | some a =>
      cases hnext : h.next a with
      | none =>
        have hns : ns = [a] := by
          cases ns with
          | nil => simp at hc
          | cons x xs =>
            obtain ⟨e, hc2⟩ := hc
            cases e
            rw [hnext] at hc2
            simp at hc2
            rw [hc2]
        subst hns
        refine ⟨h, some a, [a], ?_, hc, List.Perm.refl _, by simp [vals], rfl,
          fun _ _ => rfl, rfl⟩
        simp [sort_list, hnext]
      | some b =>
        -- the partition
        have hlen : ns.length < f := by omega
        obtain ⟨h1, pl, pm, pr, e1, cl, cm, cr, v1, n1, b1⟩ :=
          sort_list_loop_spec (h.value1 a) ns f h none none none (some a) [] [] [] hc rfl rfl rfl
            (fun _ _ => ⟨List.not_mem_nil _, List.not_mem_nil _, List.not_mem_nil _⟩) hlen
        simp only [List.append_nil] at cl cm cr
        have hhead : ∃ t, ns = a :: t := by
          cases ns with
          | nil => simp at hc
          | cons x xs => obtain ⟨e, -⟩ := hc; cases e; exact ⟨xs, rfl⟩
        obtain ⟨t, rfl⟩ := hhead
        set L := ((a :: t).filter (fun x => h.value1 x < h.value1 a)).reverse with hL
        set M := ((a :: t).filter (fun x => h.value1 x = h.value1 a)).reverse with hM
        set R := ((a :: t).filter (fun x => h.value1 a < h.value1 x)).reverse with hR
        have memL : ∀ x, x ∈ L → x ∈ a :: t ∧ h.value1 x < h.value1 a := by
          intro x hx
          rw [hL] at hx
          simpa only [List.mem_reverse, List.mem_filter, decide_eq_true_eq] using hx
        have memM : ∀ x, x ∈ M → x ∈ a :: t ∧ h.value1 x = h.value1 a := by
          intro x hx
          rw [hM] at hx
          simpa only [List.mem_reverse, List.mem_filter, decide_eq_true_eq] using hx
        have memR : ∀ x, x ∈ R → x ∈ a :: t ∧ h.value1 a < h.value1 x := by
          intro x hx
          rw [hR] at hx
          simpa only [List.mem_reverse, List.mem_filter, decide_eq_true_eq] using hx
        have lenL : L.length + 1 < f := by
          have : L.length ≤ t.length := by
            simp only [hL, List.length_reverse, List.filter_cons, lt_self_iff_false,
              decide_False, Bool.false_eq_true, if_false]
            exact List.length_filter_le _ _
          simp at hlen
          omega
        have lenR : R.length + 1 < f := by
          have : R.length ≤ t.length := by
            simp only [hR, List.length_reverse, List.filter_cons, lt_self_iff_false,
              decide_False, Bool.false_eq_true, if_false]
            exact List.length_filter_le _ _
          simp at hlen
          omega
        have lenM : M.length ≤ f := by
          have : M.length ≤ (a :: t).length := by
            simp only [hM, List.length_reverse]
            exact List.length_filter_le _ _
          omega
        -- sorting the left bucket
        obtain ⟨h2, pl', L', e2, cl', permL, sortL, v2, n2, b2⟩ := ih h1 pl L cl lenL
        have cm2 : Chain h2 pm M :=
          Chain.frame (fun x hx => n2 x (fun hxl => by
            have := (memL x hxl).2; have := (memM x hx).2; omega)) cm
        have cr2 : Chain h2 pr R :=
          Chain.frame (fun x hx => n2 x (fun hxl => by
            have := (memL x hxl).2; have := (memR x hx).2; omega)) cr
        -- sorting the right bucket
        obtain ⟨h3, pr', R', e3, cr', permR, sortR, v3, n3, b3⟩ := ih h2 pr R cr2 lenR
        have memL' : ∀ x, x ∈ L' → x ∈ a :: t ∧ h.value1 x < h.value1 a :=
          fun x hx => memL x (permL.mem_iff.mp hx)
        have memR' : ∀ x, x ∈ R' → x ∈ a :: t ∧ h.value1 a < h.value1 x :=
          fun x hx => memR x (permR.mem_iff.mp hx)
        have cl3 : Chain h3 pl' L' :=
          Chain.frame (fun x hx => n3 x (fun hxr => by
            have := (memL' x hx).2; have := (memR x hxr).2; omega)) cl'
        have cm3 : Chain h3 pm M :=
          Chain.frame (fun x hx => n3 x (fun hxr => by
            have := (memM x hx).2; have := (memR x hxr).2; omega)) cm2
        -- middle ++ right
        obtain ⟨h4, pm', e4, cmr, v4, n4, b4⟩ :=
          insertion_end_node_chain f h3 pm pr' M R' cm3 cr'
            (fun x hx hxr => by
              have := (memM x hx).2; have := (memR' x hxr).2; omega) lenM
        have cl4 : Chain h4 pl' L' :=
          Chain.frame (fun x hx => n4 x (fun hxm => by
            have := (memL' x hx).2; have := (memM x hxm).2; omega)) cl3
        -- left ++ (middle ++ right)
        have lenL' : L'.length ≤ f := by
          have := permL.length_eq
          omega
        obtain ⟨h5, p5, e5, call, v5, n5, b5⟩ :=
          insertion_end_node_chain f h4 pl' pm' L' (M ++ R') cl4 cmr
            (fun x hx hxr => by
              have := (memL' x hx).2
              rcases List.mem_append.mp hxr with hm | hr
              · have := (memM x hm).2; omega
              · have := (memR' x hr).2; omega) lenL'
        have hv21 : vals h1 L' = vals h L' := vals_congr v1 L'
        have hv2 : vals h2 R' = vals h R' := vals_congr (v2.trans v1) R'
        refine ⟨h5, p5, L' ++ (M ++ R'), ?_, call, ?_, ?_, ?_, ?_, ?_⟩
        · simp [sort_list, hnext, e1, e2, e3, e4, e5]
        · have h3w := three_way_perm h.value1 (h.value1 a) (a :: t)
          refine List.Perm.trans ?_ h3w
          refine List.Perm.append (permL.trans (List.reverse_perm _)) ?_
          exact List.Perm.append (List.reverse_perm _) (permR.trans (List.reverse_perm _))
        · rw [hv21] at sortL
          rw [hv2] at sortR
          simp only [vals_append, List.Sorted, List.pairwise_append]
          refine ⟨sortL, ⟨?_, sortR, ?_⟩, ?_⟩
          · simp only [vals, List.pairwise_map]
            refine List.Pairwise.imp_of_mem ?_ (List.pairwise_of_forall (R := fun _ _ => True)
              (fun _ _ => trivial))
            intro x y hx hy _
            have := (memM x hx).2; have := (memM y hy).2; omega
          · intro x hx y hy
            simp only [vals, List.mem_map] at hx hy
            obtain ⟨x, hx, rfl⟩ := hx
            obtain ⟨y, hy, rfl⟩ := hy
            have := (memM x hx).2; have := (memR' y hy).2; omega
          · intro x hx y hy
            simp only [vals, List.mem_map] at hx
            obtain ⟨x, hx, rfl⟩ := hx
            have := (memL' x hx).2
            rcases List.mem_append.mp hy with hm | hr
            · simp only [vals, List.mem_map] at hm
              obtain ⟨w, hw, rfl⟩ := hm
              have := (memM w hw).2; omega
            · simp only [vals, List.mem_map] at hr
              obtain ⟨w, hw, rfl⟩ := hr
              have := (memR' w hw).2; omega
        · rw [v5, v4, v3, v2, v1]
        · intro x hx
          have hxL : x ∉ L := fun e => hx (memL x e).1
          have hxM : x ∉ M := fun e => hx (memM x e).1
          have hxR : x ∉ R := fun e => hx (memR x e).1
          have hxL' : x ∉ L' := fun e => hx (memL' x e).1
          rw [n5 x hxL', n4 x hxM, n3 x hxR, n2 x hxL, n1 x hx]
        · rw [b5, b4, b3, b2, b1]

/-! ## create_list -/

@[simp] theorem create_node_brk (v : Int) (h : Heap) : (create_node v h).1.brk = h.brk + 1 := rfl

@[simp] theorem create_node_addr (v : Int) (h : Heap) : (create_node v h).2 = h.brk := rfl

@[simp] theorem create_node_next (v : Int) (h : Heap) (b : Nat) :
    (create_node v h).1.next b = if b = h.brk then none else h.next b := rfl

@[simp] theorem create_node_value1 (v : Int) (h : Heap) (b : Nat) :
    (create_node v h).1.value1 b = if b = h.brk then v else h.value1 b := rfl

theorem create_list_loop_spec (vs : List Int) :
    ∀ (todo i : Nat) (h : Heap) (temp : Nat), temp < h.brk → h.next temp = none →
      i + todo ≤ vs.length →
      ∃ h', create_list_loop vs todo i h temp = some h' ∧ h'.brk = h.brk + todo ∧
        Chain h' (h'.next temp) (List.range' h.brk todo) ∧
        vals h' (List.range' h.brk todo) = (vs.drop i).take todo ∧
        (∀ a, a < h.brk → h'.value1 a = h.value1 a) ∧
        (∀ a, a < h.brk → a ≠ temp → h'.next a = h.next a) := by
  intro todo
  induction todo with
  | zero =>
    intro i h temp _ hn _
    exact ⟨h, rfl, rfl, by simpa using hn, by simp, fun _ _ => rfl, fun _ _ _ => rfl⟩
  | succ todo ih =>
    intro i h temp ht hn hi
    have hi' : i < vs.length := by omega
    have hget : vs[i]? = some vs[i] := List.getElem?_eq_getElem hi'
    have htn : temp ≠ h.brk := by omega
    have hnt : h.brk ≠ temp := fun e => htn e.symm
    obtain ⟨h', e, b, c, v, fv, fn⟩ :=
      ih (i + 1) ((create_node vs[i] h).1.set_next temp (some (create_node vs[i] h).2))
        (create_node vs[i] h).2 (by simp) (by simp [hnt]) (by omega)
    simp only [set_next_brk, create_node_brk, create_node_addr, set_next_value1,
      set_next_next, create_node_next, create_node_value1] at b c v fv fn
    refine ⟨h', ?_, by omega, ?_, ?_, ?_, ?_⟩
    · simp only [create_list_loop, hget]
      exact e
    · have h1 : h'.next temp = some h.brk := by
        rw [fn temp (by omega) htn]
        simp
      rw [h1, List.range'_succ]
      exact ⟨rfl, c⟩
    · have h1 : h'.value1 h.brk = vs[i] := by
        rw [fv h.brk (by omega)]
        simp
      rw [List.range'_succ, vals_cons, v, h1, List.drop_eq_getElem_cons hi', List.take_succ_cons]
    · intro a ha
      rw [fv a (by omega)]
      have : a ≠ h.brk := by omega
      simp [this]
    · intro a ha hat
      have hab : a ≠ h.brk := by omega
      rw [fn a (by omega) hab]
      simp [hab, hat]

theorem create_list_spec (vs : List Int) (h : Heap) (hne : vs ≠ []) :
    ∃ h', create_list (some vs) vs.length h = some (h', some h.brk) ∧
      Chain h' (some h.brk) (List.range' h.brk vs.length) ∧
      vals h' (List.range' h.brk vs.length) = vs := by
  cases vs with
  | nil => exact absurd rfl hne
  | cons x xs =>
    obtain ⟨h', e, -, c, v, fv, -⟩ :=
      create_list_loop_spec (x :: xs) xs.length 1 (create_node x h).1 (create_node x h).2
        (by simp) (by simp) (by simp; omega)
    simp only [create_node_brk, create_node_addr, create_node_value1] at c v fv
    refine ⟨h', ?_, ?_, ?_⟩
    · simp only [create_node_addr] at e
      simp only [create_list, List.length_cons, Nat.add_one_ne_zero, if_false,
        List.getElem?_cons_zero, Nat.add_sub_cancel, e, create_node_addr]
    · rw [List.length_cons, List.range'_succ]
      exact ⟨rfl, c⟩
    · rw [List.length_cons, List.range'_succ, vals_cons, v, fv h.brk (by omega)]
      simp

/-! ## list_length and list_values -/

theorem wrap_int_of_range (z : Int) (h1 : -2 ^ 31 ≤ z) (h2 : z < 2 ^ 31) : wrap_int z = z := by
  unfold wrap_int
  omega

theorem wrap_int_add (x y : Int) : wrap_int (wrap_int x + y) = wrap_int (x + y) := by
  unfold wrap_int
  omega

theorem list_length_loop_spec (h : Heap) (ns : List Nat) :
    ∀ (fuel : Nat) (temp : Ptr) (acc : Int), Chain h temp ns → ns.length < fuel →
      list_length_loop fuel h temp (wrap_int acc) = some (wrap_int (acc + ns.length)) := by
  induction ns with
  | nil =>
    intro fuel temp acc hc hf
    obtain ⟨f, rfl⟩ : ∃ f, fuel = f + 1 := ⟨fuel - 1, by simp at hf; omega⟩
    simp at hc
    subst hc
    simp [list_length_loop]
  | cons a ns ih =>
    intro fuel temp acc hc hf
    obtain ⟨f, rfl⟩ : ∃ f, fuel = f + 1 := ⟨fuel - 1, by simp at hf; omega⟩
    obtain ⟨rfl, hc2⟩ := hc
    simp only [list_length_loop, wrap_int_add]
    rw [ih f _ (acc + 1) hc2 (by simp at hf; omega)]
    simp only [List.length_cons, Nat.cast_add, Nat.cast_one]
    congr 2
    ring

theorem list_length_loop_none (h : Heap) (ns : List Nat) :
    ∀ (fuel : Nat) (temp : Ptr) (acc : Int), Chain h temp ns → fuel ≤ ns.length →
      list_length_loop fuel h temp acc = none := by
  induction ns with
  | nil =>
    intro fuel temp acc _ hf
    have : fuel = 0 := by simpa using hf
    subst this
    rfl
  | cons a ns ih =>
    intro fuel temp acc hc hf
    cases fuel with
    | zero => rfl
    | succ f =>
      obtain ⟨rfl, hc2⟩ := hc
      simp only [list_length_loop]
      exact ih f _ _ hc2 (by simp at hf; omega)

theorem list_length_spec (fuel : Nat) (h : Heap) (head : Ptr) (ns : List Nat)
    (hc : Chain h head ns) (hf : ns.length < fuel) :
    list_length fuel h head = some (wrap_int ns.length) := by
  have := list_length_loop_spec h ns fuel head 0 hc hf
  rw [wrap_int_of_range 0 (by norm_num) (by norm_num)] at this
  simpa [list_length] using this

theorem set_length_append (pre rest : List Int) (x v : Int) :
    (pre ++ x :: rest).set pre.length v = pre ++ v :: rest := by
  induction pre with
  | nil => rfl
  | cons p pre ih => simp [ih]

theorem list_values_loop_spec (h : Heap) (ns : List Nat) :
    ∀ (fuel : Nat) (temp : Ptr) (pre rest : List Int), Chain h temp ns →
      ns.length ≤ rest.length → ns.length < fuel →
      list_values_loop fuel h temp pre.length (pre ++ rest) =
        some (values_result.array (pre ++ vals h ns ++ rest.drop ns.length)) := by
  induction ns with
  | nil =>
    intro fuel temp pre rest hc _ hf
    obtain ⟨f, rfl⟩ : ∃ f, fuel = f + 1 := ⟨fuel - 1, by simp at hf; omega⟩
    simp at hc
    subst hc
    simp [list_values_loop]
  | cons a ns ih =>
    intro fuel temp pre rest hc hr hf
    obtain ⟨f, rfl⟩ : ∃ f, fuel = f + 1 := ⟨fuel - 1, by simp at hf; omega⟩
    obtain ⟨rfl, hc2⟩ := hc
    cases rest with
    | nil => simp at hr
    | cons x rest =>
      have hlt : pre.length < (pre ++ x :: rest).length := by simp
      simp only [list_values_loop, hlt, if_true, set_length_append]
      have := ih f (h.next a) (pre ++ [h.value1 a]) rest hc2 (by simp at hr; omega)
        (by simp at hf; omega)
      simp only [List.length_append, List.length_singleton, List.append_assoc,
        List.singleton_append] at this
      rw [this]
      simp

theorem list_values_spec (fuel : Nat) (h : Heap) (a : Nat) (ns : List Nat)
    (hc : Chain h (some a) ns) (hlen : ns.length < 2 ^ 31) (hf : ns.length < fuel) :
    list_values fuel h (some a) = some (values_result.array (vals h ns)) := by
  have hl := list_length_spec fuel h (some a) ns hc hf
  rw [wrap_int_of_range _ (by omega) (by exact_mod_cast hlen)] at hl
  have := list_values_loop_spec h ns fuel (some a) [] (List.replicate ns.length 0) hc
    (by simp) hf
  simp only [List.length_nil, List.nil_append] at this
  simp [list_values, hl, this]

/-- Claim C3, as the code has it: for a sequence `S` of fewer than `2 ^ 31`
integers, `list_values(create_list(S, n))` holds exactly the elements of `S`
in the same order; when `S` is empty, `create_list` returns the empty list
and `list_values` returns `NULL`. -/
theorem list_values_create_list (fuel : Nat) (h : Heap) (S : List Int)
    (hlen : S.length < 2 ^ 31) (hf : S.length < fuel) :
    ∃ h' p', create_list (some S) S.length h = some (h', p') ∧
      (S = [] → p' = none ∧ list_values fuel h' p' = some values_result.null) ∧
      (S ≠ [] → list_values fuel h' p' = some (values_result.array S)) := by
  by_cases hS : S = []
  · subst hS
    exact ⟨h, none, rfl, fun _ => ⟨rfl, rfl⟩, fun hne => absurd rfl hne⟩
  · obtain ⟨h', e, c, v⟩ := create_list_spec S h hS
    refine ⟨h', some h.brk, e, fun e => absurd e hS, fun _ => ?_⟩
    have := list_values_spec fuel h' h.brk _ c (by simpa using hlen) (by simpa using hf)
    rw [this, v]

/-- A list of `2 ^ 31` or more nodes is too long for the `int` counter of
`list_length`: the count wraps to a negative number and `list_values`, when
it returns at all, ends in `exit`. -/
theorem list_values_too_long (n : Nat) (h : Heap) (h1 : 2 ^ 31 ≤ n) (h2 : n < 2 ^ 32) :
    ∃ h' p', create_list (some (List.replicate n 0)) (List.replicate n (0 : Int)).length h =
        some (h', p') ∧
      ∀ fuel, list_values fuel h' p' = none ∨
        list_values fuel h' p' = some values_result.exit := by
  have hne : List.replicate n (0 : Int) ≠ [] := by
    intro e
    have := congrArg List.length e
    simp at this
    omega
  obtain ⟨h', e, c, -⟩ := create_list_spec (List.replicate n (0 : Int)) h hne
  refine ⟨h', some h.brk, e, fun fuel => ?_⟩
  rw [List.length_replicate] at c
  by_cases hf : fuel ≤ n
  · left
    have := list_length_loop_none h' _ fuel (some h.brk) 0 c (by simpa using hf)
    simp [list_values, list_length, this]
  · right
    have := list_length_spec fuel h' (some h.brk) _ c (by simp; omega)
    rw [List.length_range'] at this
    have hw : wrap_int (n : Int) < 0 := by
      unfold wrap_int
      omega
    simp [list_values, this, hw]

/-- Claim C3 fails for a sequence of `2 ^ 31` integers: the list is built,
but `list_values` never returns its values. -/
theorem list_values_int_overflow :
    ∃ h' p', create_list (some (List.replicate (2 ^ 31) 0))
        (List.replicate (2 ^ 31) (0 : Int)).length Heap.init = some (h', p') ∧
      ∀ fuel, list_values fuel h' p' = none ∨
        list_values fuel h' p' = some values_result.exit :=
  list_values_too_long (2 ^ 31) Heap.init (Nat.le_refl _) (by norm_num)

/-! ## The claims about sort_list -/

/-- Claim C1: for every finite list, `sort_list` returns a list whose value
sequence is non-decreasing: each value is less than or equal to the value
that follows it (and to every later value). -/
theorem sort_list_sorted (fuel : Nat) (h : Heap) (head : Ptr) (ns : List Nat)
    (hc : Chain h head ns) (hf : ns.length + 1 < fuel) :
    ∃ h' p' ns', sort_list fuel h head = some (h', p') ∧ Chain h' p' ns' ∧
      (vals h' ns').Chain' (· ≤ ·) ∧ (vals h' ns').Sorted (· ≤ ·) := by
  obtain ⟨h', p', ns', e, c, -, s, v, -, -⟩ := sort_list_spec fuel h head ns hc hf
  rw [← vals_congr v ns'] at s
  exact ⟨h', p', ns', e, c, List.Pairwise.chain' s, s⟩

theorem sort_list_sorted_witness :
    Chain sample_store (some 0) [0, 1, 2, 3, 4] ∧
    ∃ h' p' ns', sort_list 7 sample_store (some 0) = some (h', p') ∧ Chain h' p' ns' ∧
      (vals h' ns').Chain' (· ≤ ·) ∧ (vals h' ns').Sorted (· ≤ ·) :=
  ⟨by decide, sort_list_sorted 7 sample_store (some 0) [0, 1, 2, 3, 4] (by decide) (by decide)⟩

/-- Claim C2: for every finite list, the list returned by `sort_list` has
the nodes of the input in some order, with their values untouched: every
value occurs as often as before and the length is the same. -/
theorem sort_list_permutation (fuel : Nat) (h : Heap) (head : Ptr) (ns : List Nat)
    (hc : Chain h head ns) (hf : ns.length + 1 < fuel) :
    ∃ h' p' ns', sort_list fuel h head = some (h', p') ∧ Chain h' p' ns' ∧
      ns'.Perm ns ∧ (vals h' ns').Perm (vals h ns) ∧
      (∀ v, (vals h' ns').count v = (vals h ns).count v) ∧
      (vals h' ns').length = (vals h ns).length := by
  obtain ⟨h', p', ns', e, c, p, -, v, -, -⟩ := sort_list_spec fuel h head ns hc hf
  have hp : (vals h' ns').Perm (vals h ns) := by
    rw [vals_congr v ns']
    exact p.map _
  exact ⟨h', p', ns', e, c, p, hp, fun w => hp.count_eq w, hp.length_eq⟩

theorem sort_list_permutation_witness :
    Chain sample_store (some 0) [0, 1, 2, 3, 4] ∧
    ∃ h' p' ns', sort_list 7 sample_store (some 0) = some (h', p') ∧ Chain h' p' ns' ∧
      ns'.Perm [0, 1, 2, 3, 4] ∧ (vals h' ns').Perm (vals sample_store [0, 1, 2, 3, 4]) ∧
      (∀ v, (vals h' ns').count v = (vals sample_store [0, 1, 2, 3, 4]).count v) ∧
      (vals h' ns').length = (vals sample_store [0, 1, 2, 3, 4]).length :=
  ⟨by decide,
    sort_list_permutation 7 sample_store (some 0) [0, 1, 2, 3, 4] (by decide) (by decide)⟩

theorem list_values_create_list_witness :
    [5, 3, 5, 1, 4].length < 2 ^ 31 ∧
    ∃ h' p', create_list (some [5, 3, 5, 1, 4]) [5, 3, 5, 1, 4].length Heap.init =
        some (h', p') ∧
      ([5, 3, 5, 1, 4] = ([] : List Int) →
        p' = none ∧ list_values 6 h' p' = some values_result.null) ∧
      ([5, 3, 5, 1, 4] ≠ ([] : List Int) →
        list_values 6 h' p' = some (values_result.array [5, 3, 5, 1, 4])) :=
  ⟨by decide, list_values_create_list 6 Heap.init [5, 3, 5, 1, 4] (by decide) (by decide)⟩

theorem split_list_at_value_concatenate_lists_witness :
    Chain sample_store (some 0) [0, 1, 2, 3, 4] ∧
    (vals sample_store [0, 1, 2, 3, 4]).count 3 = 1 ∧
    ∃ h1 a b h2, split_list_at_value 6 sample_store (some 0) 3 = some (h1, ⟨a, b⟩) ∧
      concatenate_lists 6 h1 a b = some (h2, some 0) ∧
      Chain h2 (some 0) [0, 1, 2, 3, 4] ∧
      vals h2 [0, 1, 2, 3, 4] = vals sample_store [0, 1, 2, 3, 4] :=
  ⟨by decide, by decide,
    split_list_at_value_concatenate_lists 6 sample_store (some 0) [0, 1, 2, 3, 4] 3
      (by decide) (by decide) (by decide)⟩

theorem insertion_head_node_remove_node_witness :
    Chain sample_store_node (some 0) [0, 1, 2, 3, 4] ∧ sample_store_node.next 5 = none ∧
    ∃ h2, remove_node 1 (insertion_head_node sample_store_node (some 0) (some 5)).1
        (insertion_head_node sample_store_node (some 0) (some 5)).2 (some 5) =
          some (h2, ⟨some 0, some 5⟩) ∧
      Chain h2 (some 0) [0, 1, 2, 3, 4] ∧
      vals h2 [0, 1, 2, 3, 4] = vals sample_store_node [0, 1, 2, 3, 4] ∧ h2.next 5 = none :=
  ⟨by decide, by decide,
    insertion_head_node_remove_node 1 sample_store_node (some 0) [0, 1, 2, 3, 4] 5
      (by decide) (by decide)⟩

theorem remove_node_with_value_first_witness :
    Chain sample_store (some 0) [0, 1, 2, 3, 4] ∧ (5 : Int) ∈ vals sample_store [0, 1, 2, 3, 4] ∧
    ∃ h' p' d ns' l1 l2, remove_node_with_value 6 sample_store (some 0) 5 =
        some (h', ⟨p', some d⟩) ∧
      Chain h' p' ns' ∧ vals h' ns' = (vals sample_store [0, 1, 2, 3, 4]).erase 5 ∧
      [0, 1, 2, 3, 4] = l1 ++ d :: l2 ∧ ns' = l1 ++ l2 ∧ (5 : Int) ∉ vals sample_store l1 ∧
      h'.value1 d = 5 ∧ h'.next d = none :=
  ⟨by decide, by decide,
    remove_node_with_value_first 6 sample_store (some 0) [0, 1, 2, 3, 4] 5
      (by decide) (by decide) (by decide)⟩

/-- Claim C9 fails on the empty list: with a node to insert, the result is
that node, not the (empty) original list. -/
theorem insertion_after_node_empty_list :
    Chain sample_store_node none [] ∧ (some 0 : Ptr) ∉ ([] : List Nat).map some ∧
    insertion_after_node 1 sample_store_node none (some 0) (some 5) =
      some (sample_store_node, some 5) ∧
    (some 5 : Ptr) ≠ none :=
  ⟨rfl, by decide, rfl, by decide⟩

/-- Claim C10 fails when the anchor is the head: on the list 5, 3, 5, 1, 4
with the head as anchor and the fresh node 5 (value 9) to insert,
`insertion_before_node` returns the list as it was, the new node is not
linked in and the values are still 5, 3, 5, 1, 4. -/
theorem insertion_before_node_head_example :
    insertion_before_node 6 sample_store_node (some 0) (some 0) (some 5) =
      some (sample_store_node, some 0) ∧
    list_values 6 sample_store_node (some 0) = some (values_result.array [5, 3, 5, 1, 4]) ∧
    sample_store_node.value1 5 = 9 :=
  ⟨rfl, by decide, by decide⟩

theorem reverse_list_reverse_list_witness :
    Chain sample_store (some 0) [0, 1, 2, 3, 4] ∧
    ∃ h1 p1 h2, reverse_list 6 sample_store (some 0) = some (h1, p1) ∧
      reverse_list 6 h1 p1 = some (h2, some 0) ∧
      Chain h2 (some 0) [0, 1, 2, 3, 4] ∧
      vals h2 [0, 1, 2, 3, 4] = vals sample_store [0, 1, 2, 3, 4] ∧ h2 = sample_store :=
  ⟨by decide,
    reverse_list_reverse_list 6 sample_store (some 0) [0, 1, 2, 3, 4] (by decide) (by decide)⟩

theorem not_found_unchanged_witness :
    Chain sample_store (some 0) [0, 1, 2, 3, 4] ∧
    (7 : Int) ∉ vals sample_store [0, 1, 2, 3, 4] ∧
    (some 9 : Ptr) ∉ [0, 1, 2, 3, 4].map some ∧
    (split_list_at_value 6 sample_store (some 0) 7 = some (sample_store, ⟨some 0, none⟩) ∧
      remove_node_with_value 6 sample_store (some 0) 7 =
        some (sample_store, ⟨some 0, none⟩) ∧
      value_in_list 6 sample_store (some 0) 7 = some (sample_store, ⟨some 0, none⟩) ∧
      split_list_at_node 6 sample_store (some 0) (some 9) =
        some (sample_store, ⟨some 0, none⟩) ∧
      remove_node 6 sample_store (some 0) (some 9) = some (sample_store, ⟨some 0, none⟩) ∧
      node_in_list 6 sample_store (some 0) (some 9) =
        some (sample_store, ⟨some 0, none⟩)) :=
  ⟨by decide, by decide, by decide,
    not_found_unchanged 6 sample_store (some 0) (some 9) [0, 1, 2, 3, 4] 7
      (by decide) (by decide) (by decide) (by decide)⟩

theorem insertion_after_node_not_found_witness :
    Chain sample_store_node (some 0) [0, 1, 2, 3, 4] ∧
    (some 9 : Ptr) ∉ [0, 1, 2, 3, 4].map some ∧
    (((some 0 : Ptr) ≠ none →
        insertion_after_node 6 sample_store_node (some 0) (some 9) (some 5) =
          some (sample_store_node, some 0)) ∧
      ((some 0 : Ptr) = none →
        insertion_after_node 6 sample_store_node (some 0) (some 9) (some 5) =
          some (sample_store_node, some 5))) :=
  ⟨by decide, by decide,
    insertion_after_node_not_found 6 sample_store_node (some 0) (some 9) (some 5)
      [0, 1, 2, 3, 4] (by decide) (by decide) (by decide)⟩

/-! ## insertion_after_node with a match -/

theorem insertion_after_node_loop_found (h : Heap) (d : Nat) (l : List Nat) :
    ∀ (fuel : Nat) (temp : Ptr), Seg h temp l (some d) → d ∉ l →
      l.length < fuel → insertion_after_node_loop fuel h temp (some d) = some (some d) := by
  induction l with
  | nil =>
    intro fuel temp hs _ hf
    obtain ⟨f, rfl⟩ : ∃ f, fuel = f + 1 := ⟨fuel - 1, by simp at hf; omega⟩
    simp at hs
    subst hs
    simp [insertion_after_node_loop]
  | cons x l ih =>
    intro fuel temp hs hl hf
    obtain ⟨f, rfl⟩ : ∃ f, fuel = f + 1 := ⟨fuel - 1, by simp at hf; omega⟩
    obtain ⟨rfl, hs2⟩ := hs
    have hx : x ≠ d := fun e => hl (by simp [e])
    simp only [insertion_after_node_loop, Option.some.injEq, hx, if_false]
    exact ih f _ hs2 (fun hy => hl (List.mem_cons_of_mem x hy)) (by simp at hf; omega)

theorem insertion_after_node_inner (fuel : Nat) (h : Heap) (head : Ptr) (l1 l2 : List Nat)
    (d b : Nat) (hc : Chain h head (l1 ++ d :: l2)) (hb : b ∉ l1 ++ d :: l2)
    (hf : l1.length < fuel) :
    ∃ h', insertion_after_node fuel h head (some d) (some b) = some (h', head) ∧
      Chain h' head (l1 ++ d :: b :: l2) ∧ h'.value1 = h.value1 ∧
      (∀ a, a ≠ d → a ≠ b → h'.next a = h.next a) ∧ h'.brk = h.brk := by
  have hnd := hc.nodup
  obtain ⟨m, s1, c1⟩ := (chain_append h l1 (d :: l2) head).mp hc
  obtain ⟨rfl, c3⟩ := c1
  simp only [List.nodup_append, List.nodup_cons, List.mem_cons, not_or] at hnd
  obtain ⟨-, ⟨hdl2, -⟩, hdisj⟩ := hnd
  have hdl : d ∉ l1 := fun hm => hdisj hm (by simp)
  simp only [List.mem_append, List.mem_cons, not_or] at hb
  obtain ⟨hbl, hbd, hbl2⟩ := hb
  have hloop := insertion_after_node_loop_found h d l1 fuel head s1 hdl hf
  have hhead : ∃ a, head = some a := by
    cases l1 with
    | nil => exact ⟨d, s1⟩
    | cons x l1 => exact ⟨x, s1.1⟩
  obtain ⟨a, rfl⟩ := hhead
  refine ⟨(h.set_next b (h.next d)).set_next d (some b), ?_, ?_, rfl, ?_, rfl⟩
  · simp [insertion_after_node, hloop]
  · refine (chain_append _ l1 (d :: b :: l2) (some a)).mpr ⟨some d, ?_, rfl, ?_⟩
    · exact (s1.set_next_outside _ hbl).set_next_outside _ hdl
    · have hbd' : b ≠ d := hbd
      simp only [set_next_next, if_true, chain_cons, hbd', if_false, true_and]
      exact (c3.set_next_of_not_mem _ hbl2).set_next_of_not_mem _ hdl2
  · intro x hxd hxb
    simp [hxd, hxb]

/-- Claim C11: on a non-empty list with anchor `d` in the list and a fresh
node `b` not in the list, `insertion_after_node` returns the same head; the
new chain is the old one with `b` right after `d`, so the values are the
old ones with `b`'s value inserted after `d`'s and the nodes after `d`
follow `b` in their old order. -/
theorem insertion_after_node_found (fuel : Nat) (h : Heap) (head : Ptr) (ns : List Nat)
    (d b : Nat) (hc : Chain h head ns) (hd : d ∈ ns) (hb : b ∉ ns) (hf : ns.length < fuel) :
    ∃ h' l1 l2, ns = l1 ++ d :: l2 ∧
      insertion_after_node fuel h head (some d) (some b) = some (h', head) ∧
      Chain h' head (l1 ++ d :: b :: l2) ∧
      vals h' (l1 ++ d :: b :: l2) = vals h l1 ++ h.value1 d :: h.value1 b :: vals h l2 ∧
      (l1 ++ d :: b :: l2).length = ns.length + 1 := by
  obtain ⟨l1, l2, rfl⟩ := List.append_of_mem hd
  obtain ⟨h', e, c, v, -, -⟩ :=
    insertion_after_node_inner fuel h head l1 l2 d b hc hb (by simp at hf; omega)
  refine ⟨h', l1, l2, rfl, e, c, ?_, by simp; omega⟩
  simp [vals, v]

/-! ## max_list and min_list -/

theorem max_list_loop_spec (h : Heap) (ns : List Nat) :
    ∀ (fuel : Nat) (temp : Ptr) (m : Int), Chain h temp ns → ns.length < fuel →
      ∃ r, max_list_loop fuel h temp m = some r ∧ (r = m ∨ r ∈ vals h ns) ∧ m ≤ r ∧
        ∀ v ∈ vals h ns, v ≤ r := by
  induction ns with
  | nil =>
    intro fuel temp m hc hf
    obtain ⟨f, rfl⟩ : ∃ f, fuel = f + 1 := ⟨fuel - 1, by simp at hf; omega⟩
    simp at hc
    subst hc
    exact ⟨m, rfl, Or.inl rfl, le_refl _, by simp⟩
  | cons a ns ih =>
    intro fuel temp m hc hf
    obtain ⟨f, rfl⟩ : ∃ f, fuel = f + 1 := ⟨fuel - 1, by simp at hf; omega⟩
    obtain ⟨rfl, hc2⟩ := hc
    obtain ⟨r, e, hr, hm, hall⟩ :=
      ih f (h.next a) (if h.value1 a > m then h.value1 a else m) hc2 (by simp at hf; omega)
    refine ⟨r, by simpa [max_list_loop] using e, ?_, ?_, ?_⟩
    · rcases hr with hr | hr
      · by_cases hgt : h.value1 a > m
        · right; simp [hr, hgt]
        · left; simp [hr, hgt]
      · right; simp [hr]
    · by_cases hgt : h.value1 a > m
      · simp only [hgt, if_true] at hm; omega
      · simpa only [hgt, if_false] using hm
    · intro v hv
      simp only [vals_cons, List.mem_cons] at hv
      rcases hv with rfl | hv
      · by_cases hgt : h.value1 a > m
        · simpa only [hgt, if_true] using hm
        · simp only [hgt, if_false] at hm; omega
      · exact hall v hv

theorem min_list_loop_spec (h : Heap) (ns : List Nat) :
    ∀ (fuel : Nat) (temp : Ptr) (m : Int), Chain h temp ns → ns.length < fuel →
      ∃ r, min_list_loop fuel h temp m = some r ∧ (r = m ∨ r ∈ vals h ns) ∧ r ≤ m ∧
        ∀ v ∈ vals h ns, r ≤ v := by
  induction ns with
  | nil =>
    intro fuel temp m hc hf
    obtain ⟨f, rfl⟩ : ∃ f, fuel = f + 1 := ⟨fuel - 1, by simp at hf; omega⟩
    simp at hc
    subst hc
    exact ⟨m, rfl, Or.inl rfl, le_refl _, by simp⟩
  | cons a ns ih =>
    intro fuel temp m hc hf
    obtain ⟨f, rfl⟩ : ∃ f, fuel = f + 1 := ⟨fuel - 1, by simp at hf; omega⟩
    obtain ⟨rfl, hc2⟩ := hc
    obtain ⟨r, e, hr, hm, hall⟩ :=
      ih f (h.next a) (if h.value1 a < m then h.value1 a else m) hc2 (by simp at hf; omega)
    refine ⟨r, by simpa [min_list_loop] using e, ?_, ?_, ?_⟩
    · rcases hr with hr | hr
      · by_cases hgt : h.value1 a < m
        · right; simp [hr, hgt]
        · left; simp [hr, hgt]
      · right; simp [hr]
    · by_cases hgt : h.value1 a < m
      · simp only [hgt, if_true] at hm; omega
      · simpa only [hgt, if_false] using hm
    · intro v hv
      simp only [vals_cons, List.mem_cons] at hv
      rcases hv with rfl | hv
      · by_cases hgt : h.value1 a < m
        · simpa only [hgt, if_true] using hm
        · simp only [hgt, if_false] at hm; omega
      · exact hall v hv

/-- Claim C12: on a non-empty list, `max_list` returns a value that occurs
in the list and is greater than or equal to every value of the list, and
`min_list` returns a value that occurs in the list and is less than or equal
to every value of the list. -/
theorem max_list_min_list_spec (fuel : Nat) (h : Heap) (head : Ptr) (ns : List Nat)
    (hc : Chain h head ns) (hne : ns ≠ []) (hf : ns.length < fuel) :
    ∃ mx mn, max_list fuel h head = some mx ∧ mx ∈ vals h ns ∧ (∀ v ∈ vals h ns, v ≤ mx) ∧
      min_list fuel h head = some mn ∧ mn ∈ vals h ns ∧ (∀ v ∈ vals h ns, mn ≤ v) := by
  cases ns with
  | nil => exact absurd rfl hne
  | cons a ns =>
    have ha : head = some a := hc.1
    subst ha
    obtain ⟨mx, e1, hr1, -, hall1⟩ := max_list_loop_spec h (a :: ns) fuel (some a) (h.value1 a) hc hf
    obtain ⟨mn, e2, hr2, -, hall2⟩ := min_list_loop_spec h (a :: ns) fuel (some a) (h.value1 a) hc hf
    refine ⟨mx, mn, by simpa [max_list] using e1, ?_, hall1, by simpa [min_list] using e2, ?_,
      hall2⟩
    · rcases hr1 with hr | hr
      · simp [hr]
      · exact hr
    · rcases hr2 with hr | hr
      · simp [hr]
      · exact hr

/-! ## The empty list -/

/-- Claim C13: on the empty list `is_empty_list` returns 1 (and it returns
0 on every non-empty list), `max_list` and `min_list` return
`DEFAULT_VALUE`, which is 0, and `list_values` returns `NULL`; none of them
needs any fuel. -/
theorem empty_list_results (fuel : Nat) (h : Heap) (a : Nat) :
    is_empty_list none = 1 ∧ is_empty_list (some a) = 0 ∧
    max_list fuel h none = some DEFAULT_VALUE ∧ min_list fuel h none = some DEFAULT_VALUE ∧
    DEFAULT_VALUE = 0 ∧ list_values fuel h none = some values_result.null :=
  ⟨rfl, rfl, rfl, rfl, rfl, rfl⟩

/-! ## count_frequents_in_list -/

theorem count_frequents_in_list_loop_spec (h : Heap) (v : Int) (ns : List Nat) :
    ∀ (fuel : Nat) (temp : Ptr) (acc : Int), Chain h temp ns → ns.length < fuel →
      count_frequents_in_list_loop fuel h temp v (wrap_int acc) =
        some (wrap_int (acc + (vals h ns).count v)) := by
  induction ns with
  | nil =>
    intro fuel temp acc hc hf
    obtain ⟨f, rfl⟩ : ∃ f, fuel = f + 1 := ⟨fuel - 1, by simp at hf; omega⟩
    simp at hc
    subst hc
    simp [count_frequents_in_list_loop]
  | cons a ns ih =>
    intro fuel temp acc hc hf
    obtain ⟨f, rfl⟩ : ∃ f, fuel = f + 1 := ⟨fuel - 1, by simp at hf; omega⟩
    obtain ⟨rfl, hc2⟩ := hc
    by_cases hv : h.value1 a = v
    · simp only [count_frequents_in_list_loop, hv, if_true, wrap_int_add]
      rw [ih f _ (acc + 1) hc2 (by simp at hf; omega)]
      simp only [vals_cons, hv, List.count_cons_self, Nat.cast_add, Nat.cast_one]
      congr 2
      ring
    · simp only [count_frequents_in_list_loop, hv, if_false]
      rw [ih f _ acc hc2 (by simp at hf; omega)]
      simp only [vals_cons]
      rw [List.count_cons_of_ne (fun e => hv e.symm)]

theorem count_frequents_in_list_loop_none (h : Heap) (v : Int) (ns : List Nat) :
    ∀ (fuel : Nat) (temp : Ptr) (acc : Int), Chain h temp ns → fuel ≤ ns.length →
      count_frequents_in_list_loop fuel h temp v acc = none := by
  induction ns with
  | nil =>
    intro fuel temp acc _ hf
    have : fuel = 0 := by simpa using hf
    subst this
    rfl
  | cons a ns ih =>
    intro fuel temp acc hc hf
    cases fuel with
    | zero => rfl
    | succ f =>
      obtain ⟨rfl, hc2⟩ := hc
      simp only [count_frequents_in_list_loop]
      exact ih f _ _ hc2 (by simp at hf; omega)

theorem count_frequents_in_list_wrap (fuel : Nat) (h : Heap) (head : Ptr) (ns : List Nat)
    (v : Int) (hc : Chain h head ns) (hf : ns.length < fuel) :
    count_frequents_in_list fuel h head v = some (wrap_int ((vals h ns).count v)) := by
  cases head with
  | none =>
    have : ns = [] := by simpa using hc
    subst this
    simp [count_frequents_in_list, wrap_int]
  | some a =>
    have := count_frequents_in_list_loop_spec h v ns fuel (some a) 0 hc hf
    rw [wrap_int_of_range 0 (by norm_num) (by norm_num)] at this
    simpa [count_frequents_in_list] using this

/-- Claim C14, as the code has it: when fewer than `2 ^ 31` nodes of the
list hold `v`, `count_frequents_in_list` returns the number of nodes whose
value is `v`; in particular 0 for the empty list and for a `v` that does
not occur. -/
theorem count_frequents_in_list_count (fuel : Nat) (h : Heap) (head : Ptr) (ns : List Nat)
    (v : Int) (hc : Chain h head ns) (hlen : (vals h ns).count v < 2 ^ 31)
    (hf : ns.length < fuel) :
    count_frequents_in_list fuel h head v = some (((vals h ns).count v : Nat) : Int) ∧
    (ns = [] → count_frequents_in_list fuel h head v = some 0) ∧
    (v ∉ vals h ns → count_frequents_in_list fuel h head v = some 0) := by
  have e := count_frequents_in_list_wrap fuel h head ns v hc hf
  rw [wrap_int_of_range _ (by omega) (by exact_mod_cast hlen)] at e
  refine ⟨e, ?_, ?_⟩
  · rintro rfl
    simpa using e
  · intro hv
    rw [e, List.count_eq_zero_of_not_mem hv]
    rfl

/-- With `2 ^ 31` or more nodes holding the value, the `int` counter of
`count_frequents_in_list` wraps to a negative number. -/
theorem count_frequents_in_list_too_long (n : Nat) (h : Heap) (h1 : 2 ^ 31 ≤ n)
    (h2 : n < 2 ^ 32) :
    ∃ h' p' ns, create_list (some (List.replicate n 0)) (List.replicate n (0 : Int)).length h =
        some (h', p') ∧ Chain h' p' ns ∧ (vals h' ns).count 0 = n ∧
      ∀ fuel, count_frequents_in_list fuel h' p' 0 = none ∨
        ∃ r, r < 0 ∧ count_frequents_in_list fuel h' p' 0 = some r := by
  have hne : List.replicate n (0 : Int) ≠ [] := by
    intro e
    have := congrArg List.length e
    simp at this
    omega
  obtain ⟨h', e, c, v⟩ := create_list_spec (List.replicate n (0 : Int)) h hne
  rw [List.length_replicate] at c v
  have hcount : (vals h' (List.range' h.brk n)).count 0 = n := by
    rw [v, List.count_replicate_self]
  refine ⟨h', some h.brk, List.range' h.brk n, e, c, hcount, fun fuel => ?_⟩
  by_cases hf : fuel ≤ n
  · left
    have := count_frequents_in_list_loop_none h' 0 _ fuel (some h.brk) 0 c (by simpa using hf)
    simpa [count_frequents_in_list] using this
  · right
    have := count_frequents_in_list_wrap fuel h' (some h.brk) _ 0 c (by simp; omega)
    rw [hcount] at this
    refine ⟨wrap_int n, ?_, this⟩
    unfold wrap_int
    omega

/-- Claim C14 fails on a list of `2 ^ 31` nodes that all hold 0: the number
of nodes with value 0 is `2 ^ 31`, but what `count_frequents_in_list`
returns is negative. -/
theorem count_frequents_in_list_overflow :
    ∃ h' p' ns, create_list (some (List.replicate (2 ^ 31) 0))
        (List.replicate (2 ^ 31) (0 : Int)).length Heap.init = some (h', p') ∧
      Chain h' p' ns ∧ (vals h' ns).count 0 = 2 ^ 31 ∧
      ∀ fuel, count_frequents_in_list fuel h' p' 0 = none ∨
        ∃ r, r < 0 ∧ count_frequents_in_list fuel h' p' 0 = some r :=
  count_frequents_in_list_too_long (2 ^ 31) Heap.init (Nat.le_refl _) (by norm_num)

/-! ## list_length of a created list -/

/-- Claim C15, as the code has it: for a sequence `S` of fewer than `2 ^ 31`
integers, `list_length(create_list(S, n))` is the length `n` of `S`, and
`list_length` of the empty list is 0. -/
theorem list_length_create_list (fuel : Nat) (h : Heap) (S : List Int)
    (hlen : S.length < 2 ^ 31) (hf : S.length < fuel) :
    (∃ h' p', create_list (some S) S.length h = some (h', p') ∧
      list_length fuel h' p' = some (S.length : Int)) ∧
    list_length fuel h none = some 0 := by
  obtain ⟨f, rfl⟩ : ∃ f, fuel = f + 1 := ⟨fuel - 1, by omega⟩
  refine ⟨?_, rfl⟩
  by_cases hS : S = []
  · subst hS
    exact ⟨h, none, rfl, rfl⟩
  · obtain ⟨h', e, c, -⟩ := create_list_spec S h hS
    refine ⟨h', some h.brk, e, ?_⟩
    have := list_length_spec (f + 1) h' (some h.brk) _ c (by simpa using hf)
    rw [List.length_range', wrap_int_of_range _ (by omega) (by exact_mod_cast hlen)] at this
    exact this

/-- A created list of `2 ^ 31` or more nodes is too long for the `int`
result of `list_length`. -/
theorem list_length_too_long (n : Nat) (h : Heap) (h1 : 2 ^ 31 ≤ n) (h2 : n < 2 ^ 32) :
    ∃ h' p', create_list (some (List.replicate n 0)) (List.replicate n (0 : Int)).length h =
        some (h', p') ∧
      ∀ fuel, list_length fuel h' p' = none ∨ ∃ r, r < 0 ∧ list_length fuel h' p' = some r := by
  have hne : List.replicate n (0 : Int) ≠ [] := by
    intro e
    have := congrArg List.length e
    simp at this
    omega
  obtain ⟨h', e, c, -⟩ := create_list_spec (List.replicate n (0 : Int)) h hne
  rw [List.length_replicate] at c
  refine ⟨h', some h.brk, e, fun fuel => ?_⟩
  by_cases hf : fuel ≤ n
  · left
    exact list_length_loop_none h' _ fuel (some h.brk) 0 c (by simpa using hf)
  · right
    have := list_length_spec fuel h' (some h.brk) _ c (by simp; omega)
    rw [List.length_range'] at this
    refine ⟨wrap_int n, ?_, this⟩
    unfold wrap_int
    omega

/-- Claim C15 fails for a sequence of `2 ^ 31` integers: the length is
`2 ^ 31`, but what `list_length` returns on the created list is negative. -/
theorem list_length_int_overflow :
    ∃ h' p', create_list (some (List.replicate (2 ^ 31) 0))
        (List.replicate (2 ^ 31) (0 : Int)).length Heap.init = some (h', p') ∧
      ∀ fuel, list_length fuel h' p' = none ∨ ∃ r, r < 0 ∧ list_length fuel h' p' = some r :=
  list_length_too_long (2 ^ 31) Heap.init (Nat.le_refl _) (by norm_num)

/-! ## concatenate_lists -/

theorem concatenate_lists_eq_insertion_end_node (fuel : Nat) (h : Heap) (p q : Ptr) :
    concatenate_lists fuel h p q = insertion_end_node fuel h p q := by
  cases p <;> cases q <;> rfl

/-- Claim C16: for node-disjoint lists `L1` and `L2`, `concatenate_lists`
returns a list with the nodes and values of `L1` followed by those of `L2`;
when one of the two is empty the other is returned and the store is
unchanged; and the result is the one of `insertion_end_node(L1, L2)`. -/
theorem concatenate_lists_spec (fuel : Nat) (h : Heap) (p q : Ptr) (ns ms : List Nat)
    (hp : Chain h p ns) (hq : Chain h q ms) (hd : ∀ x ∈ ns, x ∉ ms) (hf : ns.length ≤ fuel) :
    ∃ h' r, concatenate_lists fuel h p q = some (h', r) ∧ Chain h' r (ns ++ ms) ∧
      vals h' (ns ++ ms) = vals h ns ++ vals h ms ∧
      (ns = [] → h' = h ∧ r = q) ∧ (ms = [] → h' = h ∧ r = p) ∧
      concatenate_lists fuel h p q = insertion_end_node fuel h p q := by
  have heq := concatenate_lists_eq_insertion_end_node fuel h p q
  cases p with
  | none =>
    have : ns = [] := by simpa using hp
    subst this
    refine ⟨h, q, by cases q <;> rfl, by simpa using hq, by simp, fun _ => ⟨rfl, rfl⟩, ?_, heq⟩
    rintro rfl
    exact ⟨rfl, by simpa using hq⟩
  | some a =>
    cases q with
    | none =>
      have : ms = [] := by simpa using hq
      subst this
      refine ⟨h, some a, rfl, by simpa using hp, by simp, ?_, fun _ => ⟨rfl, rfl⟩, heq⟩
      rintro rfl
      simp at hp
    | some b =>
      obtain ⟨h', r, e, c, v, -, -⟩ := insertion_end_node_chain fuel h (some a) (some b) ns ms
        hp hq hd hf
      refine ⟨h', r, by rw [heq]; exact e, c, ?_, ?_, ?_, heq⟩
      · rw [vals_congr v, vals_append]
      · rintro rfl
        simp at hp
      · rintro rfl
        simp at hq

/-! ## split_list_at_value with a match -/

/-- Claim C17: when `key` occurs in `L`, `split_list_at_value` returns the
head of `L` and the successor `b` of the first node `d` holding `key`; the
first list is `L` up to and including `d` (so `key` is its last value and
occurs nowhere before), the link of `d` is cleared, and the second list is
what followed `d`, in the original order. -/
theorem split_list_at_value_first (fuel : Nat) (h : Heap) (head : Ptr) (ns : List Nat)
    (key : Int) (hc : Chain h head ns) (hk : key ∈ vals h ns) (hf : ns.length < fuel) :
    ∃ h' b l1 d l2, ns = l1 ++ d :: l2 ∧ key ∉ vals h l1 ∧ h.value1 d = key ∧
      split_list_at_value fuel h head key = some (h', ⟨head, b⟩) ∧
      Chain h' head (l1 ++ [d]) ∧ h'.next d = none ∧ Chain h' b l2 ∧
      h'.value1 = h.value1 ∧ b = h.next d := by
  obtain ⟨l1, d, l2, rfl, hl, hd⟩ := exists_first_value h key ns hk
  have e := split_list_at_value_found fuel h head key l1 l2 d hc hl hd (by simp at hf; omega)
  obtain ⟨c1, c2⟩ := chain_cut hc
  refine ⟨h.set_next d none, h.next d, l1, d, l2, rfl, ?_, hd, e, c1, by simp, c2, rfl, rfl⟩
  intro hm
  simp only [vals, List.mem_map] at hm
  obtain ⟨x, hx, hxv⟩ := hm
  exact hl x hx hxv

/-! ## change_node_value and change_node_value_with_value -/

@[simp] theorem set_value1_next (h : Heap) (a : Nat) (v : Int) :
    (h.set_value1 a v).next = h.next := rfl

@[simp] theorem set_value1_value1 (h : Heap) (a : Nat) (v : Int) (b : Nat) :
    (h.set_value1 a v).value1 b = if b = a then v else h.value1 b := rfl

@[simp] theorem set_value1_brk (h : Heap) (a : Nat) (v : Int) :
    (h.set_value1 a v).brk = h.brk := rfl

theorem change_node_value_with_value_loop_found (h : Heap) (v w : Int) (d : Nat)
    (hd : h.value1 d = v) (l : List Nat) :
    ∀ (fuel : Nat) (temp : Ptr), Seg h temp l (some d) → (∀ x ∈ l, h.value1 x ≠ v) →
      l.length < fuel →
      change_node_value_with_value_loop fuel h temp v w = some (h.set_value1 d w) := by
  induction l with
  | nil =>
    intro fuel temp hs _ hf
    obtain ⟨f, rfl⟩ : ∃ f, fuel = f + 1 := ⟨fuel - 1, by simp at hf; omega⟩
    simp at hs
    subst hs
    simp [change_node_value_with_value_loop, hd]
  | cons x l ih =>
    intro fuel temp hs hl hf
    obtain ⟨f, rfl⟩ : ∃ f, fuel = f + 1 := ⟨fuel - 1, by simp at hf; omega⟩
    obtain ⟨rfl, hs2⟩ := hs
    have hx : h.value1 x ≠ v := hl x (List.mem_cons_self x l)
    simp only [change_node_value_with_value_loop, hx, if_false]
    exact ih f _ hs2 (fun y hy => hl y (List.mem_cons_of_mem x hy)) (by simp at hf; omega)

theorem change_node_value_with_value_loop_not_found (h : Heap) (v w : Int) (ns : List Nat) :
    ∀ (fuel : Nat) (temp : Ptr), Chain h temp ns → (∀ x ∈ ns, h.value1 x ≠ v) →
      ns.length < fuel → change_node_value_with_value_loop fuel h temp v w = some h := by
  induction ns with
  | nil =>
    intro fuel temp hs _ hf
    obtain ⟨f, rfl⟩ : ∃ f, fuel = f + 1 := ⟨fuel - 1, by simp at hf; omega⟩
    simp at hs
    subst hs
    simp [change_node_value_with_value_loop]
  | cons x l ih =>
    intro fuel temp hs hl hf
    obtain ⟨f, rfl⟩ : ∃ f, fuel = f + 1 := ⟨fuel - 1, by simp at hf; omega⟩
    obtain ⟨rfl, hs2⟩ := hs
    have hx : h.value1 x ≠ v := hl x (List.mem_cons_self x l)
    simp only [change_node_value_with_value_loop, hx, if_false]
    exact ih f _ hs2 (fun y hy => hl y (List.mem_cons_of_mem x hy)) (by simp at hf; omega)

theorem change_node_value_loop_found (h : Heap) (w : Int) (d : Nat) (l : List Nat) :
    ∀ (fuel : Nat) (temp : Ptr), Seg h temp l (some d) → d ∉ l → l.length < fuel →
      change_node_value_loop fuel h temp (some d) w = some (h.set_value1 d w) := by
  induction l with
  | nil =>
    intro fuel temp hs _ hf
    obtain ⟨f, rfl⟩ : ∃ f, fuel = f + 1 := ⟨fuel - 1, by simp at hf; omega⟩
    simp at hs
    subst hs
    simp [change_node_value_loop]
  | cons x l ih =>
    intro fuel temp hs hl hf
    obtain ⟨f, rfl⟩ : ∃ f, fuel = f + 1 := ⟨fuel - 1, by simp at hf; omega⟩
    obtain ⟨rfl, hs2⟩ := hs
    have hx : x ≠ d := fun e => hl (by simp [e])
    simp only [change_node_value_loop, Option.some.injEq, hx, if_false]
    exact ih f _ hs2 (fun hy => hl (List.mem_cons_of_mem x hy)) (by simp at hf; omega)

theorem change_node_value_loop_not_found (h : Heap) (w : Int) (n : Ptr) (ns : List Nat) :
    ∀ (fuel : Nat) (temp : Ptr), Chain h temp ns → (∀ x ∈ ns, some x ≠ n) →
      ns.length < fuel → change_node_value_loop fuel h temp n w = some h := by
  induction ns with
  | nil =>
    intro fuel temp hs _ hf
    obtain ⟨f, rfl⟩ : ∃ f, fuel = f + 1 := ⟨fuel - 1, by simp at hf; omega⟩
    simp at hs
    subst hs
    simp [change_node_value_loop]
  | cons x l ih =>
    intro fuel temp hs hl hf
    obtain ⟨f, rfl⟩ : ∃ f, fuel = f + 1 := ⟨fuel - 1, by simp at hf; omega⟩
    obtain ⟨rfl, hs2⟩ := hs
    have hx : some x ≠ n := hl x (List.mem_cons_self x l)
    simp only [change_node_value_loop, hx, if_false]
    exact ih f _ hs2 (fun y hy => hl y (List.mem_cons_of_mem x hy)) (by simp at hf; omega)

/-- A chain is not affected by a change of a value. -/
theorem Chain.of_set_value1 {h : Heap} {p : Ptr} {ns : List Nat} (d : Nat) (w : Int)
    (hc : Chain h p ns) : Chain (h.set_value1 d w) p ns :=
  @Chain.frame h (h.set_value1 d w) ns p (fun _ _ => rfl) hc

/-- Claim C18: `change_node_value_with_value` writes `w` into the first
node holding `v`, and `change_node_value` writes `w` into the node `n` when
it is a node of the list; the store is otherwise untouched (links, the
other values, hence order, head and length), and without a match the store
is returned as it was. -/
theorem change_node_value_spec (fuel : Nat) (h : Heap) (head n : Ptr) (ns : List Nat)
    (v w : Int) (hc : Chain h head ns) (hf : ns.length < fuel) :
    (∀ l1 d l2, ns = l1 ++ d :: l2 → v ∉ vals h l1 → h.value1 d = v →
      change_node_value_with_value fuel h head v w = some (h.set_value1 d w, head)) ∧
    (v ∉ vals h ns → change_node_value_with_value fuel h head v w = some (h, head)) ∧
    (∀ d ∈ ns, change_node_value fuel h head (some d) w = some (h.set_value1 d w, head)) ∧
    (n ∉ ns.map some → change_node_value fuel h head n w = some (h, head)) ∧
    (∀ d, (h.set_value1 d w).value1 d = w ∧
      (∀ x, x ≠ d → (h.set_value1 d w).value1 x = h.value1 x) ∧
      (h.set_value1 d w).next = h.next ∧ Chain (h.set_value1 d w) head ns) := by
  have hval : ∀ l : List Nat, v ∉ vals h l → ∀ x ∈ l, h.value1 x ≠ v := by
    intro l hl x hx e
    exact hl (by simp only [vals, List.mem_map]; exact ⟨x, hx, e⟩)
  refine ⟨?_, ?_, ?_, ?_, ?_⟩
  · rintro l1 d l2 rfl hl hd
    obtain ⟨m, s1, c1⟩ := (chain_append h l1 (d :: l2) head).mp hc
    obtain ⟨rfl, -⟩ := c1
    have e := change_node_value_with_value_loop_found h v w d hd l1 fuel head s1
      (hval l1 hl) (by simp at hf; omega)
    cases head with
    | none => cases l1 <;> simp at s1
    | some a => simp [change_node_value_with_value, e]
  · intro hv
    cases head with
    | none => rfl
    | some a =>
      simp [change_node_value_with_value,
        change_node_value_with_value_loop_not_found h v w ns fuel _ hc (hval ns hv) hf]
  · intro d hd
    obtain ⟨l1, l2, rfl⟩ := List.append_of_mem hd
    have hnd := hc.nodup
    have hdl : d ∉ l1 := fun hm =>
      (List.nodup_append.mp hnd).2.2 hm (List.mem_cons_self d l2)
    obtain ⟨m, s1, c1⟩ := (chain_append h l1 (d :: l2) head).mp hc
    obtain ⟨rfl, -⟩ := c1
    have e := change_node_value_loop_found h w d l1 fuel head s1 hdl (by simp at hf; omega)
    cases head with
    | none => cases l1 <;> simp at s1
    | some a => simp [change_node_value, e]
  · intro hn
    have hn' : ∀ x ∈ ns, some x ≠ n := fun x hx e => hn (List.mem_map.mpr ⟨x, hx, e⟩)
    cases head with
    | none => rfl
    | some a =>
      cases n with
      | none => rfl
      | some b =>
        simp [change_node_value, change_node_value_loop_not_found h w (some b) ns fuel _ hc hn' hf]
  · intro d
    refine ⟨by simp, ?_, rfl, hc.of_set_value1 d w⟩
    intro x hx
    simp [hx]

/-! ## node_in_list with a match -/

theorem node_in_list_loop_found (h : Heap) (d : Nat) (l : List Nat) :
    ∀ (fuel : Nat) (temp : Ptr), Seg h temp l (some d) → d ∉ l → l.length < fuel →
      node_in_list_loop fuel h temp d = some (h.set_next d none, some d) := by
  induction l with
  | nil =>
    intro fuel temp hs _ hf
    obtain ⟨f, rfl⟩ : ∃ f, fuel = f + 1 := ⟨fuel - 1, by simp at hf; omega⟩
    simp at hs
    subst hs
    simp [node_in_list_loop]
  | cons x l ih =>
    intro fuel temp hs hl hf
    obtain ⟨f, rfl⟩ : ∃ f, fuel = f + 1 := ⟨fuel - 1, by simp at hf; omega⟩
    obtain ⟨rfl, hs2⟩ := hs
    have hx : x ≠ d := fun e => hl (by simp [e])
    simp only [node_in_list_loop, hx, if_false]
    exact ih f _ hs2 (fun hy => hl (List.mem_cons_of_mem x hy)) (by simp at hf; omega)

/-- Claim C19: for a node `d` of the list, `node_in_list` returns the pair
(head, `d`) and clears the link of `d`: afterwards the list from the head
is the part of the old list up to and including `d`, none of the nodes that
followed `d` is in it, and the store is unchanged exactly when `d` was the
last node. -/
theorem node_in_list_found (fuel : Nat) (h : Heap) (head : Ptr) (ns : List Nat) (d : Nat)
    (hc : Chain h head ns) (hd : d ∈ ns) (hf : ns.length < fuel) :
    ∃ l1 l2, ns = l1 ++ d :: l2 ∧
      node_in_list fuel h head (some d) = some (h.set_next d none, ⟨head, some d⟩) ∧
      Chain (h.set_next d none) head (l1 ++ [d]) ∧ (h.set_next d none).next d = none ∧
      (∀ x ∈ l2, x ∉ l1 ++ [d]) ∧ (h.set_next d none = h ↔ l2 = []) := by
  obtain ⟨l1, l2, rfl⟩ := List.append_of_mem hd
  have hnd := hc.nodup
  have hdl : d ∉ l1 := fun hm =>
    (List.nodup_append.mp hnd).2.2 hm (List.mem_cons_self d l2)
  obtain ⟨m, s1, c1⟩ := (chain_append h l1 (d :: l2) head).mp hc
  obtain ⟨rfl, c2⟩ := c1
  have e := node_in_list_loop_found h d l1 fuel head s1 hdl (by simp at hf; omega)
  refine ⟨l1, l2, rfl, ?_, (chain_cut hc).1, by simp, ?_, ?_⟩
  · cases head with
    | none => cases l1 <;> simp at s1
    | some a => simp [node_in_list, e]
  · intro x hx hm
    simp only [List.nodup_append, List.nodup_cons, List.mem_cons] at hnd
    rcases List.mem_append.mp hm with h1 | h1
    · exact hnd.2.2 h1 (List.mem_cons_of_mem d hx)
    · rw [List.mem_singleton] at h1
      subst h1
      exact hnd.2.1.1 hx
  · constructor
    · intro heq
      have : (h.set_next d none).next d = h.next d := by rw [heq]
      simp only [set_next_next, if_true] at this
      rw [← this] at c2
      simpa using c2
    · rintro rfl
      have : h.next d = none := by simpa using c2
      rw [← this]
      exact set_next_self h d

/-! ## remove_node with a match -/

/-- Claim C20: for a node `d` of the list (head, interior or last),
`remove_node` returns the pair (new head, `d`); the new list has all the
nodes of the old one other than `d`, in their old order, the link of `d` is
cleared, the values are untouched and the length is one less. -/
theorem remove_node_found (fuel : Nat) (h : Heap) (head : Ptr) (ns : List Nat) (d : Nat)
    (hc : Chain h head ns) (hd : d ∈ ns) (hf : ns.length < fuel) :
    ∃ h' p' l1 l2, ns = l1 ++ d :: l2 ∧
      remove_node fuel h head (some d) = some (h', ⟨p', some d⟩) ∧
      Chain h' p' (l1 ++ l2) ∧ h'.next d = none ∧ h'.value1 = h.value1 ∧
      (l1 ++ l2).length + 1 = ns.length := by
  obtain ⟨l1, l2, rfl⟩ := List.append_of_mem hd
  have hnd := hc.nodup
  rcases List.eq_nil_or_concat l1 with rfl | ⟨l, z, rfl⟩
  · obtain ⟨rfl, c2⟩ := hc
    have hd2 : d ∉ l2 := (List.nodup_cons.mp hnd).1
    refine ⟨h.set_next d none, h.next d, [], l2, rfl, by simp [remove_node],
      by simpa using c2.set_next_of_not_mem none hd2, by simp, rfl, by simp⟩
  · simp only [List.concat_eq_append, List.append_assoc, List.singleton_append] at hc hnd hf ⊢
    obtain ⟨m, s1, c1⟩ := (chain_append h l (z :: d :: l2) head).mp hc
    obtain ⟨rfl, hzd, c3⟩ := c1
    obtain ⟨a, rfl⟩ := s1.start_some
    simp only [List.nodup_append, List.nodup_cons, List.mem_cons, not_or] at hnd
    obtain ⟨-, ⟨⟨hzd', hzl2⟩, ⟨hdl2, -⟩⟩, hdisj⟩ := hnd
    have hzl : z ∉ l := fun hm => hdisj hm (by simp)
    have hdl : d ∉ l := fun hm => hdisj hm (by simp)
    have hne : ∀ x ∈ (l ++ [z]).tail, some x ≠ some d := by
      intro x hx e
      cases e
      rcases List.mem_append.mp (List.mem_of_mem_tail hx) with hx | hx
      · exact hdl hx
      · exact hzd' (List.mem_singleton.mp hx).symm
    have hloop := remove_node_loop_tail h (some d) z (Or.inr hzd) l fuel a s1 hne
      (by simp at hf; omega)
    have had : d ≠ a := by
      intro e
      subst e
      have := s1.start_mem
      rcases List.mem_append.mp this with h1 | h1
      · exact hdl h1
      · exact hzd' (List.mem_singleton.mp h1).symm
    refine ⟨(h.set_next z (h.next d)).set_next d none, some a, l ++ [z], l2, by simp, ?_, ?_,
      by simp, rfl, by simp; omega⟩
    · simp [remove_node, had, hloop, hzd]
    · simp only [List.append_assoc, List.singleton_append]
      refine (chain_append _ l (z :: l2) (some a)).mpr ⟨some z, ?_, rfl, ?_⟩
      · exact (s1.set_next_outside _ hzl).set_next_outside _ hdl
      · simp only [set_next_next, hzd', if_false, if_true]
        exact (c3.set_next_of_not_mem _ hzl2).set_next_of_not_mem _ hdl2

/-! ## Instances on the sample stores -/

theorem insertion_after_node_found_witness :
    Chain sample_store_node (some 0) [0, 1, 2, 3, 4] ∧ 2 ∈ [0, 1, 2, 3, 4] ∧
    5 ∉ [0, 1, 2, 3, 4] ∧
    ∃ h' l1 l2, [0, 1, 2, 3, 4] = l1 ++ 2 :: l2 ∧
      insertion_after_node 6 sample_store_node (some 0) (some 2) (some 5) =
        some (h', some 0) ∧
      Chain h' (some 0) (l1 ++ 2 :: 5 :: l2) ∧
      vals h' (l1 ++ 2 :: 5 :: l2) =
        vals sample_store_node l1 ++ sample_store_node.value1 2 ::
          sample_store_node.value1 5 :: vals sample_store_node l2 ∧
      (l1 ++ 2 :: 5 :: l2).length = [0, 1, 2, 3, 4].length + 1 :=
  ⟨by decide, by decide, by decide,
    insertion_after_node_found 6 sample_store_node (some 0) [0, 1, 2, 3, 4] 2 5
      (by decide) (by decide) (by decide) (by decide)⟩

theorem max_list_min_list_spec_witness :
    Chain sample_store (some 0) [0, 1, 2, 3, 4] ∧ [0, 1, 2, 3, 4] ≠ ([] : List Nat) ∧
    ∃ mx mn, max_list 6 sample_store (some 0) = some mx ∧
      mx ∈ vals sample_store [0, 1, 2, 3, 4] ∧
      (∀ v ∈ vals sample_store [0, 1, 2, 3, 4], v ≤ mx) ∧
      min_list 6 sample_store (some 0) = some mn ∧
      mn ∈ vals sample_store [0, 1, 2, 3, 4] ∧
      (∀ v ∈ vals sample_store [0, 1, 2, 3, 4], mn ≤ v) :=
  ⟨by decide, by decide,
    max_list_min_list_spec 6 sample_store (some 0) [0, 1, 2, 3, 4] (by decide) (by decide)
      (by decide)⟩

theorem count_frequents_in_list_count_witness :
    Chain sample_store (some 0) [0, 1, 2, 3, 4] ∧
    (vals sample_store [0, 1, 2, 3, 4]).count 5 < 2 ^ 31 ∧
    (count_frequents_in_list 6 sample_store (some 0) 5 =
        some (((vals sample_store [0, 1, 2, 3, 4]).count 5 : Nat) : Int) ∧
      ([0, 1, 2, 3, 4] = ([] : List Nat) →
        count_frequents_in_list 6 sample_store (some 0) 5 = some 0) ∧
      ((5 : Int) ∉ vals sample_store [0, 1, 2, 3, 4] →
        count_frequents_in_list 6 sample_store (some 0) 5 = some 0)) :=
  ⟨by decide, by decide,
    count_frequents_in_list_count 6 sample_store (some 0) [0, 1, 2, 3, 4] 5 (by decide)
      (by decide) (by decide)⟩

theorem list_length_create_list_witness :
    [5, 3, 5, 1, 4].length < 2 ^ 31 ∧
    ((∃ h' p', create_list (some [5, 3, 5, 1, 4]) [5, 3, 5, 1, 4].length Heap.init =
        some (h', p') ∧
      list_length 6 h' p' = some (([5, 3, 5, 1, 4] : List Int).length : Int)) ∧
    list_length 6 Heap.init none = some 0) :=
  ⟨by decide, list_length_create_list 6 Heap.init [5, 3, 5, 1, 4] (by decide) (by decide)⟩

theorem concatenate_lists_spec_witness :
    Chain sample_store_node (some 0) [0, 1, 2, 3, 4] ∧ Chain sample_store_node (some 5) [5] ∧
    (∀ x ∈ [0, 1, 2, 3, 4], x ∉ [5]) ∧
    ∃ h' r, concatenate_lists 6 sample_store_node (some 0) (some 5) = some (h', r) ∧
      Chain h' r ([0, 1, 2, 3, 4] ++ [5]) ∧
      vals h' ([0, 1, 2, 3, 4] ++ [5]) =
        vals sample_store_node [0, 1, 2, 3, 4] ++ vals sample_store_node [5] ∧
      ([0, 1, 2, 3, 4] = ([] : List Nat) → h' = sample_store_node ∧ r = some 5) ∧
      ([5] = ([] : List Nat) → h' = sample_store_node ∧ r = some 0) ∧
      concatenate_lists 6 sample_store_node (some 0) (some 5) =
        insertion_end_node 6 sample_store_node (some 0) (some 5) :=
  ⟨by decide, by decide, by decide,
    concatenate_lists_spec 6 sample_store_node (some 0) (some 5) [0, 1, 2, 3, 4] [5]
      (by decide) (by decide) (by decide) (by decide)⟩

theorem split_list_at_value_first_witness :
    Chain sample_store (some 0) [0, 1, 2, 3, 4] ∧
    (5 : Int) ∈ vals sample_store [0, 1, 2, 3, 4] ∧
    ∃ h' b l1 d l2, [0, 1, 2, 3, 4] = l1 ++ d :: l2 ∧ (5 : Int) ∉ vals sample_store l1 ∧
      sample_store.value1 d = 5 ∧
      split_list_at_value 6 sample_store (some 0) 5 = some (h', ⟨some 0, b⟩) ∧
      Chain h' (some 0) (l1 ++ [d]) ∧ h'.next d = none ∧ Chain h' b l2 ∧
      h'.value1 = sample_store.value1 ∧ b = sample_store.next d :=
  ⟨by decide, by decide,
    split_list_at_value_first 6 sample_store (some 0) [0, 1, 2, 3, 4] 5 (by decide)
      (by decide) (by decide)⟩

theorem change_node_value_spec_witness :
    Chain sample_store (some 0) [0, 1, 2, 3, 4] ∧
    ((∀ l1 d l2, [0, 1, 2, 3, 4] = l1 ++ d :: l2 → (3 : Int) ∉ vals sample_store l1 →
      sample_store.value1 d = 3 →
      change_node_value_with_value 6 sample_store (some 0) 3 8 =
        some (sample_store.set_value1 d 8, some 0)) ∧
    ((3 : Int) ∉ vals sample_store [0, 1, 2, 3, 4] →
      change_node_value_with_value 6 sample_store (some 0) 3 8 =
        some (sample_store, some 0)) ∧
    (∀ d ∈ [0, 1, 2, 3, 4], change_node_value 6 sample_store (some 0) (some d) 8 =
      some (sample_store.set_value1 d 8, some 0)) ∧
    ((some 9 : Ptr) ∉ [0, 1, 2, 3, 4].map some →
      change_node_value 6 sample_store (some 0) (some 9) 8 = some (sample_store, some 0)) ∧
    (∀ d, (sample_store.set_value1 d 8).value1 d = 8 ∧
      (∀ x, x ≠ d → (sample_store.set_value1 d 8).value1 x = sample_store.value1 x) ∧
      (sample_store.set_value1 d 8).next = sample_store.next ∧
      Chain (sample_store.set_value1 d 8) (some 0) [0, 1, 2, 3, 4])) :=
  ⟨by decide,
    change_node_value_spec 6 sample_store (some 0) (some 9) [0, 1, 2, 3, 4] 3 8 (by decide)
      (by decide)⟩

theorem node_in_list_found_witness :
    Chain sample_store (some 0) [0, 1, 2, 3, 4] ∧ 2 ∈ [0, 1, 2, 3, 4] ∧
    ∃ l1 l2, [0, 1, 2, 3, 4] = l1 ++ 2 :: l2 ∧
      node_in_list 6 sample_store (some 0) (some 2) =
        some (sample_store.set_next 2 none, ⟨some 0, some 2⟩) ∧
      Chain (sample_store.set_next 2 none) (some 0) (l1 ++ [2]) ∧
      (sample_store.set_next 2 none).next 2 = none ∧
      (∀ x ∈ l2, x ∉ l1 ++ [2]) ∧ (sample_store.set_next 2 none = sample_store ↔ l2 = []) :=
  ⟨by decide, by decide,
    node_in_list_found 6 sample_store (some 0) [0, 1, 2, 3, 4] 2 (by decide) (by decide)
      (by decide)⟩

theorem remove_node_found_witness :
    Chain sample_store (some 0) [0, 1, 2, 3, 4] ∧ 2 ∈ [0, 1, 2, 3, 4] ∧
    ∃ h' p' l1 l2, [0, 1, 2, 3, 4] = l1 ++ 2 :: l2 ∧
      remove_node 6 sample_store (some 0) (some 2) = some (h', ⟨p', some 2⟩) ∧
      Chain h' p' (l1 ++ l2) ∧ h'.next 2 = none ∧ h'.value1 = sample_store.value1 ∧
      (l1 ++ l2).length + 1 = [0, 1, 2, 3, 4].length :=
  ⟨by decide, by decide,
    remove_node_found 6 sample_store (some 0) [0, 1, 2, 3, 4] 2 (by decide) (by decide)
      (by decide)⟩

/-! ## insertion_head_node -/

/-- Claim C21: for a single node `n` that is not in `L`,
`insertion_head_node(L, n)` returns `n` as the new head with the old head
as its successor, so the values are `n`'s value followed by those of `L`;
on the empty list the result is `n` and the store is unchanged, for an
absent `n` the result is `L`, and for both absent it is empty. -/
theorem insertion_head_node_spec (h : Heap) (head : Ptr) (ns : List Nat) (n : Nat)
    (hc : Chain h head ns) (hn : n ∉ ns) (hs : h.next n = none) :
    (insertion_head_node h head (some n)).2 = some n ∧
    (insertion_head_node h head (some n)).1.next n = head ∧
    Chain (insertion_head_node h head (some n)).1 (some n) (n :: ns) ∧
    vals (insertion_head_node h head (some n)).1 (n :: ns) = h.value1 n :: vals h ns ∧
    (head = none → insertion_head_node h head (some n) = (h, some n)) ∧
    insertion_head_node h head none = (h, head) ∧
    insertion_head_node h none none = (h, none) := by
  cases head with
  | none =>
    have : ns = [] := by simpa using hc
    subst this
    exact ⟨rfl, hs, ⟨rfl, by simpa [insertion_head_node] using hs⟩, rfl, fun _ => rfl, rfl, rfl⟩
  | some a =>
    refine ⟨rfl, by simp [insertion_head_node], ?_, rfl, fun e => by simp at e, rfl, rfl⟩
    refine ⟨rfl, ?_⟩
    simp only [insertion_head_node, set_next_next, if_true]
    exact hc.set_next_of_not_mem _ hn

/-- Claim C30 fails as it stands when a successor of the node is also a node
of the list: for `L` the nodes 3, 4 of the sample list and `n` its node 0,
whose successors are 1, 2, 3, 4, the result of `insertion_head_node` is
0, 3, 4 with the value of `n` followed by the values of `L`, and the former
successors 3 and 4 of `n` are in it. -/
theorem insertion_head_node_shared_successors :
    Chain sample_store (some 3) [3, 4] ∧ Chain sample_store (some 0) (0 :: [1, 2, 3, 4]) ∧
    insertion_head_node sample_store (some 3) (some 0) =
      (sample_store.set_next 0 (some 3), some 0) ∧
    Chain (sample_store.set_next 0 (some 3)) (some 0) (0 :: [3, 4]) ∧
    vals (sample_store.set_next 0 (some 3)) (0 :: [3, 4]) =
      sample_store.value1 0 :: vals sample_store [3, 4] ∧
    3 ∈ [1, 2, 3, 4] ∧ 3 ∈ 0 :: [3, 4] ∧ 4 ∈ [1, 2, 3, 4] ∧ 4 ∈ 0 :: [3, 4] :=
  ⟨by decide, by decide, rfl, by decide, by decide, by decide, by decide, by decide, by decide⟩

/-- Claim C30, as the code has it: a node `b` with successors `ms` that is
not itself a node of `L` is treated in two ways.  On a non-empty list
`insertion_head_node` overwrites the link of `b`: the result is `b`
followed by the nodes of `L`, a former successor of `b` is in it exactly
when it is also a node of `L`, and so none is when the successors share no
node with `L`.  On the empty list the result is `b` with all its
successors, the store being untouched. -/
theorem insertion_head_node_multi (h : Heap) (head : Ptr) (ns ms : List Nat) (b : Nat)
    (hc : Chain h head ns) (hne : ns ≠ []) (hb : Chain h (some b) (b :: ms))
    (hbn : b ∉ ns) :
    insertion_head_node h head (some b) = (h.set_next b head, some b) ∧
    Chain (h.set_next b head) (some b) (b :: ns) ∧
    vals (h.set_next b head) (b :: ns) = h.value1 b :: vals h ns ∧
    (∀ x ∈ ms, x ∈ b :: ns ↔ x ∈ ns) ∧
    ((∀ x ∈ ms, x ∉ ns) → ∀ x ∈ ms, x ∉ b :: ns) ∧
    insertion_head_node h none (some b) = (h, some b) ∧ Chain h (some b) (b :: ms) := by
  have hbm : b ∉ ms := hb.head_not_mem_tail
  have hiff : ∀ x ∈ ms, x ∈ b :: ns ↔ x ∈ ns := by
    intro x hx
    constructor
    · intro hmem
      rcases List.mem_cons.mp hmem with e | e
      · exact absurd (e ▸ hx) hbm
      · exact e
    · exact List.mem_cons_of_mem b
  cases head with
  | none => exact absurd (by simpa using hc) hne
  | some a =>
    refine ⟨rfl, ⟨rfl, ?_⟩, rfl, hiff, ?_, rfl, hb⟩
    · simp only [set_next_next, if_true]
      exact hc.set_next_of_not_mem _ hbn
    · intro hd x hx hmem
      exact hd x hx ((hiff x hx).mp hmem)

/-! ## reverse_list -/

/-- Claim C24: `reverse_list` returns a list with the nodes, hence the
values, of `L` in reverse order; its head is the last node of `L`, the old
head is its last node and has no successor, and the empty list is returned
as it is. -/
theorem reverse_list_reversed (fuel : Nat) (h : Heap) (head : Ptr) (ns : List Nat)
    (hc : Chain h head ns) (hf : ns.length < fuel) :
    ∃ h' q, reverse_list fuel h head = some (h', q) ∧ Chain h' q ns.reverse ∧
      vals h' ns.reverse = (vals h ns).reverse ∧ q = ns.getLast? ∧
      (∀ a, head = some a → ns.reverse.getLast? = some a ∧ h'.next a = none) ∧
      (head = none → q = none ∧ h' = h) := by
  obtain ⟨h', q, e, c, v, -, -⟩ := reverse_list_spec fuel h head ns hc hf
  refine ⟨h', q, e, c, ?_, ?_, ?_, ?_⟩
  · rw [vals_congr v]
    simp [vals]
  · rw [c.head_eq, List.head?_reverse]
  · rintro a rfl
    cases ns with
    | nil => simp at hc
    | cons x t =>
      obtain ⟨hx, -⟩ := hc
      cases hx
      rw [List.reverse_cons] at c ⊢
      obtain ⟨m, -, c1⟩ := (chain_append h' t.reverse [a] q).mp c
      exact ⟨by simp, by simpa using c1.2⟩
  · rintro rfl
    have : ns = [] := by simpa using hc
    subst this
    simp only [reverse_list, Option.some.injEq, Prod.mk.injEq] at e
    exact ⟨e.2.symm, e.1.symm⟩

theorem insertion_head_node_spec_witness :
    Chain sample_store_node (some 0) [0, 1, 2, 3, 4] ∧ 5 ∉ [0, 1, 2, 3, 4] ∧
    sample_store_node.next 5 = none ∧
    ((insertion_head_node sample_store_node (some 0) (some 5)).2 = some 5 ∧
    (insertion_head_node sample_store_node (some 0) (some 5)).1.next 5 = some 0 ∧
    Chain (insertion_head_node sample_store_node (some 0) (some 5)).1 (some 5)
      (5 :: [0, 1, 2, 3, 4]) ∧
    vals (insertion_head_node sample_store_node (some 0) (some 5)).1 (5 :: [0, 1, 2, 3, 4]) =
      sample_store_node.value1 5 :: vals sample_store_node [0, 1, 2, 3, 4] ∧
    ((some 0 : Ptr) = none →
      insertion_head_node sample_store_node (some 0) (some 5) = (sample_store_node, some 5)) ∧
    insertion_head_node sample_store_node (some 0) none = (sample_store_node, some 0) ∧
    insertion_head_node sample_store_node none none = (sample_store_node, none)) :=
  ⟨by decide, by decide, by decide,
    insertion_head_node_spec sample_store_node (some 0) [0, 1, 2, 3, 4] 5 (by decide)
      (by decide) (by decide)⟩

theorem insertion_head_node_multi_witness :
    Chain sample_store_node (some 5) [5] ∧ [5] ≠ ([] : List Nat) ∧
    Chain sample_store_node (some 0) (0 :: [1, 2, 3, 4]) ∧ 0 ∉ [5] ∧
    (insertion_head_node sample_store_node (some 5) (some 0) =
      (sample_store_node.set_next 0 (some 5), some 0) ∧
    Chain (sample_store_node.set_next 0 (some 5)) (some 0) (0 :: [5]) ∧
    vals (sample_store_node.set_next 0 (some 5)) (0 :: [5]) =
      sample_store_node.value1 0 :: vals sample_store_node [5] ∧
    (∀ x ∈ [1, 2, 3, 4], x ∈ 0 :: [5] ↔ x ∈ [5]) ∧
    ((∀ x ∈ [1, 2, 3, 4], x ∉ [5]) → ∀ x ∈ [1, 2, 3, 4], x ∉ 0 :: [5]) ∧
    insertion_head_node sample_store_node none (some 0) = (sample_store_node, some 0) ∧
    Chain sample_store_node (some 0) (0 :: [1, 2, 3, 4])) :=
  ⟨by decide, by decide, by decide, by decide,
    insertion_head_node_multi sample_store_node (some 5) [5] [1, 2, 3, 4] 0 (by decide)
      (by decide) (by decide) (by decide)⟩

theorem reverse_list_reversed_witness :
    Chain sample_store (some 0) [0, 1, 2, 3, 4] ∧
    ∃ h' q, reverse_list 6 sample_store (some 0) = some (h', q) ∧
      Chain h' q [0, 1, 2, 3, 4].reverse ∧
      vals h' [0, 1, 2, 3, 4].reverse = (vals sample_store [0, 1, 2, 3, 4]).reverse ∧
      q = [0, 1, 2, 3, 4].getLast? ∧
      (∀ a, (some 0 : Ptr) = some a →
        [0, 1, 2, 3, 4].reverse.getLast? = some a ∧ h'.next a = none) ∧
      ((some 0 : Ptr) = none → q = none ∧ h' = sample_store) :=
  ⟨by decide,
    reverse_list_reversed 6 sample_store (some 0) [0, 1, 2, 3, 4] (by decide) (by decide)⟩

/-! ## Explicit results of the split and remove functions -/

theorem split_list_at_node_loop_found (h : Heap) (d : Nat) (l : List Nat) :
    ∀ (fuel : Nat) (temp : Ptr), Seg h temp l (some d) → d ∉ l → l.length < fuel →
      split_list_at_node_loop fuel h temp (some d) = some (some d) := by
  induction l with
  | nil =>
    intro fuel temp hs _ hf
    obtain ⟨f, rfl⟩ : ∃ f, fuel = f + 1 := ⟨fuel - 1, by simp at hf; omega⟩
    simp at hs
    subst hs
    simp [split_list_at_node_loop]
  | cons x l ih =>
    intro fuel temp hs hl hf
    obtain ⟨f, rfl⟩ : ∃ f, fuel = f + 1 := ⟨fuel - 1, by simp at hf; omega⟩
    obtain ⟨rfl, hs2⟩ := hs
    have hx : x ≠ d := fun e => hl (by simp [e])
    simp only [split_list_at_node_loop, Option.some.injEq, hx, if_false]
    exact ih f _ hs2 (fun hy => hl (List.mem_cons_of_mem x hy)) (by simp at hf; omega)

theorem split_list_at_node_found (fuel : Nat) (h : Heap) (head : Ptr) (l1 l2 : List Nat)
    (d : Nat) (hc : Chain h head (l1 ++ d :: l2)) (hf : l1.length < fuel) :
    split_list_at_node fuel h head (some d) = some (h.set_next d none, ⟨head, h.next d⟩) := by
  have hnd := hc.nodup
  have hdl : d ∉ l1 := fun hm =>
    (List.nodup_append.mp hnd).2.2 hm (List.mem_cons_self d l2)
  obtain ⟨m, s1, c1⟩ := (chain_append h l1 (d :: l2) head).mp hc
  obtain ⟨rfl, -⟩ := c1
  cases l1 with
  | nil =>
    simp at s1
    subst s1
    simp [split_list_at_node]
  | cons x l1 =>
    have e := split_list_at_node_loop_found h d (x :: l1) fuel head s1 hdl hf
    obtain ⟨rfl, -⟩ := s1
    have hx : d ≠ x := fun e => hdl (by simp [e])
    simp [split_list_at_node, hx, e]

theorem split_list_at_node_none (fuel : Nat) (h : Heap) (head n : Ptr) (ns : List Nat)
    (hc : Chain h head ns) (hn : ∀ x ∈ ns, some x ≠ n) (hf : ns.length < fuel) :
    split_list_at_node fuel h head n = some (h, ⟨head, none⟩) := by
  cases head with
  | none => simp [split_list_at_node]
  | some a =>
    have ha : n ≠ some a := by
      cases ns with
      | nil => simp at hc
      | cons x ns =>
        obtain ⟨e, -⟩ := hc; cases e
        exact fun e => hn _ (List.mem_cons_self _ _) e.symm
    simp [split_list_at_node, ha, split_list_at_node_loop_not_found h n ns fuel _ hc hn hf]

theorem split_list_at_value_none (fuel : Nat) (h : Heap) (head : Ptr) (v : Int) (ns : List Nat)
    (hc : Chain h head ns) (hv : ∀ x ∈ ns, h.value1 x ≠ v) (hf : ns.length < fuel) :
    split_list_at_value fuel h head v = some (h, ⟨head, none⟩) := by
  cases head with
  | none => simp [split_list_at_value]
  | some a =>
    have ha : h.value1 a ≠ v := by
      cases ns with
      | nil => simp at hc
      | cons x ns => obtain ⟨e, -⟩ := hc; cases e; exact hv _ (List.mem_cons_self _ _)
    simp [split_list_at_value, ha, split_list_at_value_loop_not_found h v ns fuel _ hc hv hf]

theorem remove_node_with_value_none (fuel : Nat) (h : Heap) (head : Ptr) (v : Int)
    (ns : List Nat) (hc : Chain h head ns) (hv : ∀ x ∈ ns, h.value1 x ≠ v)
    (hf : ns.length < fuel) :
    remove_node_with_value fuel h head v = some (h, ⟨head, none⟩) := by
  cases head with
  | none => simp [remove_node_with_value]
  | some a =>
    obtain ⟨l, z, rfl, s1, hz⟩ := hc.exists_last
    have ha : h.value1 a ≠ v := hv a (by simpa using s1.start_mem)
    have hloop := remove_node_with_value_loop_spec h v z (Or.inl hz) l fuel a s1 hv
      (by simp at hf; omega)
    simp [remove_node_with_value, ha, hloop, hz]

/-- Taking the node `d` out of a chain: its predecessor `z` is linked to its
successor and its own link is cleared. -/
theorem chain_unlink {h : Heap} {p : Ptr} {l l2 : List Nat} {z d : Nat}
    (hc : Chain h p (l ++ z :: d :: l2)) :
    Chain ((h.set_next z (h.next d)).set_next d none) p (l ++ z :: l2) := by
  have hnd := hc.nodup
  obtain ⟨m, s1, c1⟩ := (chain_append h l (z :: d :: l2) p).mp hc
  obtain ⟨rfl, -, c3⟩ := c1
  simp only [List.nodup_append, List.nodup_cons, List.mem_cons, not_or] at hnd
  obtain ⟨-, ⟨⟨hzd', hzl2⟩, ⟨hdl2, -⟩⟩, hdisj⟩ := hnd
  have hzl : z ∉ l := fun hm => hdisj hm (by simp)
  have hdl : d ∉ l := fun hm => hdisj hm (by simp)
  refine (chain_append _ l (z :: l2) p).mpr ⟨some z, ?_, rfl, ?_⟩
  · exact (s1.set_next_outside _ hzl).set_next_outside _ hdl
  · simp only [set_next_next, hzd', if_false, if_true]
    exact (c3.set_next_of_not_mem _ hzl2).set_next_of_not_mem _ hdl2

theorem remove_node_at_head (fuel : Nat) (h : Heap) (d : Nat) :
    remove_node fuel h (some d) (some d) = some (h.set_next d none, ⟨h.next d, some d⟩) := by
  simp [remove_node]

theorem remove_node_inner (fuel : Nat) (h : Heap) (head : Ptr) (l l2 : List Nat) (z d : Nat)
    (hc : Chain h head (l ++ z :: d :: l2)) (hf : l.length < fuel) :
    remove_node fuel h head (some d) =
      some ((h.set_next z (h.next d)).set_next d none, ⟨head, some d⟩) := by
  have hnd := hc.nodup
  obtain ⟨m, s1, c1⟩ := (chain_append h l (z :: d :: l2) head).mp hc
  obtain ⟨rfl, hzd, -⟩ := c1
  obtain ⟨a, rfl⟩ := s1.start_some
  simp only [List.nodup_append, List.nodup_cons, List.mem_cons, not_or] at hnd
  obtain ⟨-, ⟨⟨hzd', -⟩, -⟩, hdisj⟩ := hnd
  have hdl : d ∉ l := fun hm => hdisj hm (by simp)
  have hne : ∀ x ∈ (l ++ [z]).tail, some x ≠ some d := by
    intro x hx e
    cases e
    rcases List.mem_append.mp (List.mem_of_mem_tail hx) with hx | hx
    · exact hdl hx
    · exact hzd' (List.mem_singleton.mp hx).symm
  have hloop := remove_node_loop_tail h (some d) z (Or.inr hzd) l fuel a s1 hne hf
  have had : d ≠ a := by
    intro e
    subst e
    rcases List.mem_append.mp s1.start_mem with h1 | h1
    · exact hdl h1
    · exact hzd' (List.mem_singleton.mp h1).symm
  simp [remove_node, had, hloop, hzd]

theorem remove_node_with_value_at_head (fuel : Nat) (h : Heap) (d : Nat) (v : Int)
    (hd : h.value1 d = v) :
    remove_node_with_value fuel h (some d) v =
      some (h.set_next d none, ⟨h.next d, some d⟩) := by
  simp [remove_node_with_value, hd]

theorem remove_node_with_value_inner (fuel : Nat) (h : Heap) (head : Ptr) (l l2 : List Nat)
    (z d : Nat) (v : Int) (hc : Chain h head (l ++ z :: d :: l2))
    (hl : ∀ x ∈ l ++ [z], h.value1 x ≠ v) (hd : h.value1 d = v) (hf : l.length < fuel) :
    remove_node_with_value fuel h head v =
      some ((h.set_next z (h.next d)).set_next d none, ⟨head, some d⟩) := by
  obtain ⟨m, s1, c1⟩ := (chain_append h l (z :: d :: l2) head).mp hc
  obtain ⟨rfl, hzd, -⟩ := c1
  obtain ⟨a, rfl⟩ := s1.start_some
  have hav : h.value1 a ≠ v := hl a s1.start_mem
  have hloop := remove_node_with_value_loop_spec h v z (Or.inr ⟨d, hzd, hd⟩) l fuel a s1 hl hf
  simp [remove_node_with_value, hav, hloop, hzd]

/-! ## Identity-based and value-based variants -/

/-- Claim C22: with `d` the first node of `L` that holds `v`, the
identity-based and the value-based functions return the same:
`split_list_at_node(L, d)` is `split_list_at_value(L, v)` and
`remove_node(L, d)` is `remove_node_with_value(L, v)`, store included. -/
theorem node_and_value_variants_agree (fuel : Nat) (h : Heap) (head : Ptr)
    (l1 l2 : List Nat) (d : Nat) (v : Int) (hc : Chain h head (l1 ++ d :: l2))
    (hl : v ∉ vals h l1) (hd : h.value1 d = v) (hf : (l1 ++ d :: l2).length < fuel) :
    ∃ r1 r2, split_list_at_node fuel h head (some d) = some r1 ∧
      split_list_at_value fuel h head v = some r1 ∧
      remove_node fuel h head (some d) = some r2 ∧
      remove_node_with_value fuel h head v = some r2 := by
  have hl' : ∀ x ∈ l1, h.value1 x ≠ v := by
    intro x hx e
    exact hl (by simp only [vals, List.mem_map]; exact ⟨x, hx, e⟩)
  have hf1 : l1.length < fuel := by simp at hf; omega
  have e1 := split_list_at_node_found fuel h head l1 l2 d hc hf1
  have e2 := split_list_at_value_found fuel h head v l1 l2 d hc hl' hd hf1
  rcases List.eq_nil_or_concat l1 with rfl | ⟨l, z, rfl⟩
  · obtain ⟨rfl, -⟩ := hc
    exact ⟨_, _, e1, e2, remove_node_at_head fuel h d,
      remove_node_with_value_at_head fuel h d v hd⟩
  · have hc' := hc
    simp only [List.concat_eq_append, List.append_assoc, List.singleton_append] at hc' hf
    have hf2 : l.length < fuel := by simp at hf; omega
    exact ⟨_, _, e1, e2, remove_node_inner fuel h head l l2 z d hc' hf2,
      remove_node_with_value_inner fuel h head l l2 z d v hc'
        (fun x hx => hl' x (by simpa using hx)) hd hf2⟩

theorem node_and_value_variants_agree_witness :
    Chain sample_store (some 0) ([0] ++ 1 :: [2, 3, 4]) ∧ (3 : Int) ∉ vals sample_store [0] ∧
    sample_store.value1 1 = 3 ∧
    ∃ r1 r2, split_list_at_node 6 sample_store (some 0) (some 1) = some r1 ∧
      split_list_at_value 6 sample_store (some 0) 3 = some r1 ∧
      remove_node 6 sample_store (some 0) (some 1) = some r2 ∧
      remove_node_with_value 6 sample_store (some 0) 3 = some r2 :=
  ⟨by decide, by decide, by decide,
    node_and_value_variants_agree 6 sample_store (some 0) [0] [2, 3, 4] 1 3 (by decide)
      (by decide) (by decide) (by decide)⟩

/-! ## The top call of sort_list -/

/-- One call of `sort_list` on a list of two or more nodes: the partition
loop fills the three buckets, and the result is the sorted `left` bucket,
then the `middle` bucket as the loop left it, then the sorted `right`
bucket. -/
theorem sort_list_top (fuel : Nat) (h : Heap) (a : Nat) (t : List Nat)
    (hc : Chain h (some a) (a :: t)) (ht : t ≠ []) (hf : (a :: t).length < fuel) :
    ∃ h1 pl pm pr h' p' L' R',
      sort_list_loop (h.value1 a) fuel h none none none (some a) = some (h1, pl, pm, pr) ∧
      Chain h1 pl ((a :: t).filter (fun x => h.value1 x < h.value1 a)).reverse ∧
      Chain h1 pm ((a :: t).filter (fun x => h.value1 x = h.value1 a)).reverse ∧
      Chain h1 pr ((a :: t).filter (fun x => h.value1 a < h.value1 x)).reverse ∧
      sort_list (fuel + 1) h (some a) = some (h', p') ∧
      Chain h' p' (L' ++ (((a :: t).filter (fun x => h.value1 x = h.value1 a)).reverse ++ R')) ∧
      L'.Perm ((a :: t).filter (fun x => h.value1 x < h.value1 a)).reverse ∧
      R'.Perm ((a :: t).filter (fun x => h.value1 a < h.value1 x)).reverse ∧
      h'.value1 = h.value1 := by
  have hnext : ∃ b, h.next a = some b := by
    cases t with
    | nil => exact absurd rfl ht
    | cons b t => exact ⟨b, hc.2.1⟩
  obtain ⟨b, hnext⟩ := hnext
  obtain ⟨h1, pl, pm, pr, e1, cl, cm, cr, v1, n1, b1⟩ :=
    sort_list_loop_spec (h.value1 a) (a :: t) fuel h none none none (some a) [] [] [] hc rfl rfl
      rfl (fun _ _ => ⟨List.not_mem_nil _, List.not_mem_nil _, List.not_mem_nil _⟩) hf
  simp only [List.append_nil] at cl cm cr
  set L := ((a :: t).filter (fun x => h.value1 x < h.value1 a)).reverse with hL
  set M := ((a :: t).filter (fun x => h.value1 x = h.value1 a)).reverse with hM
  set R := ((a :: t).filter (fun x => h.value1 a < h.value1 x)).reverse with hR
  have memL : ∀ x, x ∈ L → x ∈ a :: t ∧ h.value1 x < h.value1 a := by
    intro x hx
    rw [hL] at hx
    simpa only [List.mem_reverse, List.mem_filter, decide_eq_true_eq] using hx
  have memM : ∀ x, x ∈ M → x ∈ a :: t ∧ h.value1 x = h.value1 a := by
    intro x hx
    rw [hM] at hx
    simpa only [List.mem_reverse, List.mem_filter, decide_eq_true_eq] using hx
  have memR : ∀ x, x ∈ R → x ∈ a :: t ∧ h.value1 a < h.value1 x := by
    intro x hx
    rw [hR] at hx
    simpa only [List.mem_reverse, List.mem_filter, decide_eq_true_eq] using hx
  have lenL : L.length + 1 < fuel := by
    have : L.length ≤ t.length := by
      simp only [hL, List.length_reverse, List.filter_cons, lt_self_iff_false,
        decide_False, Bool.false_eq_true, if_false]
      exact List.length_filter_le _ _
    simp at hf
    omega
  have lenR : R.length + 1 < fuel := by
    have : R.length ≤ t.length := by
      simp only [hR, List.length_reverse, List.filter_cons, lt_self_iff_false,
        decide_False, Bool.false_eq_true, if_false]
      exact List.length_filter_le _ _
    simp at hf
    omega
  have lenM : M.length ≤ fuel := by
    have : M.length ≤ (a :: t).length := by
      simp only [hM, List.length_reverse]
      exact List.length_filter_le _ _
    omega
  obtain ⟨h2, pl', L', e2, cl', permL, -, v2, n2, -⟩ := sort_list_spec fuel h1 pl L cl lenL
  have cm2 : Chain h2 pm M :=
    Chain.frame (fun x hx => n2 x (fun hxl => by
      have := (memL x hxl).2; have := (memM x hx).2; omega)) cm
  have cr2 : Chain h2 pr R :=
    Chain.frame (fun x hx => n2 x (fun hxl => by
      have := (memL x hxl).2; have := (memR x hx).2; omega)) cr
  obtain ⟨h3, pr', R', e3, cr', permR, -, v3, n3, -⟩ := sort_list_spec fuel h2 pr R cr2 lenR
  have memL' : ∀ x, x ∈ L' → x ∈ a :: t ∧ h.value1 x < h.value1 a :=
    fun x hx => memL x (permL.mem_iff.mp hx)
  have memR' : ∀ x, x ∈ R' → x ∈ a :: t ∧ h.value1 a < h.value1 x :=
    fun x hx => memR x (permR.mem_iff.mp hx)
  have cl3 : Chain h3 pl' L' :=
    Chain.frame (fun x hx => n3 x (fun hxr => by
      have := (memL' x hx).2; have := (memR x hxr).2; omega)) cl'
  have cm3 : Chain h3 pm M :=
    Chain.frame (fun x hx => n3 x (fun hxr => by
      have := (memM x hx).2; have := (memR x hxr).2; omega)) cm2
  obtain ⟨h4, pm', e4, cmr, v4, n4, -⟩ :=
    insertion_end_node_chain fuel h3 pm pr' M R' cm3 cr'
      (fun x hx hxr => by
        have := (memM x hx).2; have := (memR' x hxr).2; omega) lenM
  have cl4 : Chain h4 pl' L' :=
    Chain.frame (fun x hx => n4 x (fun hxm => by
      have := (memL' x hx).2; have := (memM x hxm).2; omega)) cl3
  have lenL' : L'.length ≤ fuel := by
    have := permL.length_eq
    omega
  obtain ⟨h5, p5, e5, call, v5, -, -⟩ :=
    insertion_end_node_chain fuel h4 pl' pm' L' (M ++ R') cl4 cmr
      (fun x hx hxr => by
        have := (memL' x hx).2
        rcases List.mem_append.mp hxr with hm | hr
        · have := (memM x hm).2; omega
        · have := (memR' x hr).2; omega) lenL'
  refine ⟨h1, pl, pm, pr, h5, p5, L', R', e1, cl, cm, cr, ?_, call, permL, permR, ?_⟩
  · simp [sort_list, hnext, e1, e2, e3, e4, e5]
  · rw [v5, v4, v3, v2, v1]

/-- Claim C25: `sort_list` is not stable.  On a list of two or more nodes
the nodes that hold the value of the head (the pivot) stand together in the
result, in the reverse of their order in the input, between the nodes with
smaller and the nodes with larger values; two nodes with equal values are
swapped. -/
theorem sort_list_reverses_equal (fuel : Nat) (h : Heap) (head : Ptr) (ns : List Nat)
    (hc : Chain h head ns) (hk : 2 ≤ ns.length) (hf : ns.length + 1 < fuel) :
    ∃ a h' p' L' R', head = some a ∧ sort_list fuel h head = some (h', p') ∧
      Chain h' p' (L' ++ ((ns.filter (fun x => h.value1 x = h.value1 a)).reverse ++ R')) ∧
      (∀ x ∈ L', h'.value1 x < h.value1 a) ∧ (∀ x ∈ R', h.value1 a < h'.value1 x) ∧
      (∀ b, ns = [a, b] → h.value1 b = h.value1 a → Chain h' p' [b, a]) := by
  obtain ⟨f, rfl⟩ : ∃ f, fuel = f + 1 := ⟨fuel - 1, by omega⟩
  cases ns with
  | nil => simp at hk
  | cons a t =>
    have ht : t ≠ [] := by
      rintro rfl
      simp at hk
    obtain ⟨rfl, hc2⟩ := hc
    obtain ⟨h1, pl, pm, pr, h', p', L', R', -, -, -, -, e, c, pL, pR, v⟩ :=
      sort_list_top f h a t ⟨rfl, hc2⟩ ht (by omega)
    have mL : ∀ x ∈ L', h'.value1 x < h.value1 a := by
      intro x hx
      have := pL.mem_iff.mp hx
      rw [v]
      simp only [List.mem_reverse, List.mem_filter, decide_eq_true_eq] at this
      exact this.2
    have mR : ∀ x ∈ R', h.value1 a < h'.value1 x := by
      intro x hx
      have := pR.mem_iff.mp hx
      rw [v]
      simp only [List.mem_reverse, List.mem_filter, decide_eq_true_eq] at this
      exact this.2
    refine ⟨a, h', p', L', R', rfl, e, c, mL, mR, ?_⟩
    intro b hab hv
    have htb : t = [b] := by simpa using hab
    subst htb
    have hL : L' = [] := by
      have := pL.length_eq
      simpa [List.filter_cons, hv] using this
    have hR : R' = [] := by
      have := pR.length_eq
      simpa [List.filter_cons, hv] using this
    subst hL hR
    simpa [List.filter_cons, hv] using c

/-- Claim C29: `sort_list` returns on every finite list, with fuel above
its length.  In a call on two or more nodes the head (the pivot) lands in
the middle bucket, so the `left` and `right` buckets handed to the
recursive calls have at most one node less than the input each, and the
three buckets together hold exactly the nodes of the input. -/
theorem sort_list_terminates (fuel : Nat) (h : Heap) (head : Ptr) (ns : List Nat)
    (hc : Chain h head ns) (hf : ns.length < fuel) :
    (∃ h' p', sort_list (fuel + 1) h head = some (h', p')) ∧
    (2 ≤ ns.length → ∃ a h1 pl pm pr L M R, head = some a ∧
      sort_list_loop (h.value1 a) fuel h none none none head = some (h1, pl, pm, pr) ∧
      Chain h1 pl L ∧ Chain h1 pm M ∧ Chain h1 pr R ∧ a ∈ M ∧
      L.length ≤ ns.length - 1 ∧ R.length ≤ ns.length - 1 ∧
      (L ++ (M ++ R)).Perm ns ∧ (L ++ (M ++ R)).length = ns.length) := by
  constructor
  · obtain ⟨h', p', -, e, -⟩ := sort_list_spec (fuel + 1) h head ns hc (by omega)
    exact ⟨h', p', e⟩
  · intro hk
    cases ns with
    | nil => simp at hk
    | cons a t =>
      have ht : t ≠ [] := by
        rintro rfl
        simp at hk
      obtain ⟨rfl, hc2⟩ := hc
      obtain ⟨h1, pl, pm, pr, -, -, -, -, e, cl, cm, cr, -⟩ :=
        sort_list_top fuel h a t ⟨rfl, hc2⟩ ht hf
      have hperm := three_way_perm h.value1 (h.value1 a) (a :: t)
      have hperm' : (((a :: t).filter (fun x => h.value1 x < h.value1 a)).reverse ++
          (((a :: t).filter (fun x => h.value1 x = h.value1 a)).reverse ++
            ((a :: t).filter (fun x => h.value1 a < h.value1 x)).reverse)).Perm (a :: t) :=
        List.Perm.trans (List.Perm.append (List.reverse_perm _)
          (List.Perm.append (List.reverse_perm _) (List.reverse_perm _))) hperm
      refine ⟨a, h1, pl, pm, pr, _, _, _, rfl, e, cl, cm, cr, ?_, ?_, ?_, hperm',
        hperm'.length_eq⟩
      · simp [List.mem_filter]
      · simp only [List.length_reverse, List.filter_cons, lt_self_iff_false,
          decide_False, Bool.false_eq_true, if_false, List.length_cons, Nat.add_sub_cancel]
        exact List.length_filter_le _ _
      · simp only [List.length_reverse, List.filter_cons, lt_self_iff_false,
          decide_False, Bool.false_eq_true, if_false, List.length_cons, Nat.add_sub_cancel]
        exact List.length_filter_le _ _

theorem sort_list_reverses_equal_witness :
    Chain sample_store (some 0) [0, 1, 2, 3, 4] ∧ 2 ≤ [0, 1, 2, 3, 4].length ∧
    ∃ a h' p' L' R', (some 0 : Ptr) = some a ∧
      sort_list 7 sample_store (some 0) = some (h', p') ∧
      Chain h' p' (L' ++ (([0, 1, 2, 3, 4].filter
        (fun x => sample_store.value1 x = sample_store.value1 a)).reverse ++ R')) ∧
      (∀ x ∈ L', h'.value1 x < sample_store.value1 a) ∧
      (∀ x ∈ R', sample_store.value1 a < h'.value1 x) ∧
      (∀ b, [0, 1, 2, 3, 4] = [a, b] → sample_store.value1 b = sample_store.value1 a →
        Chain h' p' [b, a]) :=
  ⟨by decide, by decide,
    sort_list_reverses_equal 7 sample_store (some 0) [0, 1, 2, 3, 4] (by decide) (by decide)
      (by decide)⟩

theorem sort_list_terminates_witness :
    Chain sample_store (some 0) [0, 1, 2, 3, 4] ∧
    ((∃ h' p', sort_list (6 + 1) sample_store (some 0) = some (h', p')) ∧
    (2 ≤ [0, 1, 2, 3, 4].length → ∃ a h1 pl pm pr L M R, (some 0 : Ptr) = some a ∧
      sort_list_loop (sample_store.value1 a) 6 sample_store none none none (some 0) =
        some (h1, pl, pm, pr) ∧
      Chain h1 pl L ∧ Chain h1 pm M ∧ Chain h1 pr R ∧ a ∈ M ∧
      L.length ≤ [0, 1, 2, 3, 4].length - 1 ∧ R.length ≤ [0, 1, 2, 3, 4].length - 1 ∧
      (L ++ (M ++ R)).Perm [0, 1, 2, 3, 4] ∧
      (L ++ (M ++ R)).length = [0, 1, 2, 3, 4].length)) :=
  ⟨by decide,
    sort_list_terminates 6 sample_store (some 0) [0, 1, 2, 3, 4] (by decide) (by decide)⟩

/-! ## Well-formedness -/

theorem Chain.to_well_formed {h : Heap} {p : Ptr} {ns : List Nat} (hc : Chain h p ns) :
    well_formed h p := ⟨ns, hc, hc.nodup⟩

theorem well_formed_none (h : Heap) : well_formed h none := ⟨[], rfl, List.nodup_nil⟩

theorem insertion_after_node_none (fuel : Nat) (h : Heap) (a : Nat) (n after_n : Ptr)
    (ns : List Nat) (hc : Chain h (some a) ns) (hn : ∀ x ∈ ns, some x ≠ n)
    (hf : ns.length < fuel) :
    insertion_after_node fuel h (some a) n after_n = some (h, some a) := by
  cases after_n with
  | none => simp [insertion_after_node]
  | some b =>
    cases n with
    | none => simp [insertion_after_node]
    | some c =>
      simp [insertion_after_node,
        insertion_after_node_loop_not_found h (some c) ns fuel _ hc hn hf]

theorem insertion_before_node_none (fuel : Nat) (h : Heap) (a : Nat) (n before_n : Ptr)
    (ns : List Nat) (hc : Chain h (some a) ns) (hn : ∀ x ∈ ns, some x ≠ n)
    (hf : ns.length < fuel) :
    insertion_before_node fuel h (some a) n before_n = some (h, some a) := by
  cases before_n with
  | none => simp [insertion_before_node]
  | some b =>
    cases n with
    | none => simp [insertion_before_node]
    | some c =>
      obtain ⟨l, z, rfl, s1, hz⟩ := hc.exists_last
      have hloop := remove_node_loop_tail h (some c) z (Or.inl hz) l fuel a s1
        (fun x hx => hn x (List.mem_of_mem_tail hx)) (by simp at hf; omega)
      simp [insertion_before_node, insertion_before_node_loop_eq, hloop, hz]

theorem well_formed_insertion_head_node (h : Heap) (head n : Ptr) (ns ms : List Nat)
    (hc : Chain h head ns) (hm : Chain h n ms) (hd : ∀ x ∈ ns, x ∉ ms) :
    well_formed (insertion_head_node h head n).1 (insertion_head_node h head n).2 := by
  cases head with
  | none => cases n <;> exact hm.to_well_formed
  | some a =>
    cases n with
    | none => exact hc.to_well_formed
    | some b =>
      have hb : b ∉ ns := by
        intro hmem
        cases ms with
        | nil => simp at hm
        | cons x ms => obtain ⟨e, -⟩ := hm; cases e; exact hd b hmem (List.mem_cons_self _ _)
      have : Chain (h.set_next b (some a)) (some b) (b :: ns) :=
        ⟨rfl, by simpa using hc.set_next_of_not_mem (some a) hb⟩
      exact this.to_well_formed

theorem well_formed_insertion_end_node (fuel : Nat) (h : Heap) (head n : Ptr)
    (ns ms : List Nat) (hc : Chain h head ns) (hm : Chain h n ms) (hd : ∀ x ∈ ns, x ∉ ms)
    (hf : ns.length ≤ fuel) :
    ∃ h' r, insertion_end_node fuel h head n = some (h', r) ∧ well_formed h' r := by
  obtain ⟨h', r, e, c, -⟩ := insertion_end_node_chain fuel h head n ns ms hc hm hd hf
  exact ⟨h', r, e, c.to_well_formed⟩

theorem head_not_mem_of_disjoint {h : Heap} {b : Nat} {ns ms : List Nat}
    (hm : Chain h (some b) ms) (hd : ∀ x ∈ ns, x ∉ ms) : b ∉ ns := by
  intro hmem
  cases ms with
  | nil => simp at hm
  | cons x ms => obtain ⟨e, -⟩ := hm; cases e; exact hd b hmem (List.mem_cons_self _ _)

theorem well_formed_insertion_after_node (fuel : Nat) (h : Heap) (head anchor n : Ptr)
    (ns ms : List Nat) (hc : Chain h head ns) (hm : Chain h n ms) (hd : ∀ x ∈ ns, x ∉ ms)
    (hf : ns.length < fuel) :
    ∃ h' r, insertion_after_node fuel h head anchor n = some (h', r) ∧ well_formed h' r := by
  cases head with
  | none =>
    cases n with
    | none => exact ⟨h, none, rfl, well_formed_none h⟩
    | some b => exact ⟨h, some b, rfl, hm.to_well_formed⟩
  | some a =>
    by_cases hfound : ∀ x ∈ ns, some x ≠ anchor
    · exact ⟨h, some a, insertion_after_node_none fuel h a anchor n ns hc hfound hf,
        hc.to_well_formed⟩
    · simp only [ne_eq, not_forall, not_not] at hfound
      obtain ⟨d, hdm, rfl⟩ := hfound
      cases n with
      | none => exact ⟨h, some a, by simp [insertion_after_node], hc.to_well_formed⟩
      | some b =>
        obtain ⟨l1, l2, rfl⟩ := List.append_of_mem hdm
        obtain ⟨h', e, c, -⟩ := insertion_after_node_inner fuel h (some a) l1 l2 d b hc
          (head_not_mem_of_disjoint hm hd) (by simp at hf; omega)
        exact ⟨h', some a, e, c.to_well_formed⟩

theorem well_formed_insertion_before_node (fuel : Nat) (h : Heap) (head anchor n : Ptr)
    (ns ms : List Nat) (hc : Chain h head ns) (hm : Chain h n ms) (hd : ∀ x ∈ ns, x ∉ ms)
    (hf : ns.length < fuel) :
    ∃ h' r, insertion_before_node fuel h head anchor n = some (h', r) ∧ well_formed h' r := by
  cases head with
  | none =>
    cases n with
    | none => exact ⟨h, none, rfl, well_formed_none h⟩
    | some b => exact ⟨h, some b, rfl, hm.to_well_formed⟩
  | some a =>
    by_cases hfound : ∀ x ∈ ns, some x ≠ anchor
    · exact ⟨h, some a, insertion_before_node_none fuel h a anchor n ns hc hfound hf,
        hc.to_well_formed⟩
    · simp only [ne_eq, not_forall, not_not] at hfound
      obtain ⟨d, hdm, rfl⟩ := hfound
      cases n with
      | none => exact ⟨h, some a, by simp [insertion_before_node], hc.to_well_formed⟩
      | some b =>
        obtain ⟨l1, l2, rfl⟩ := List.append_of_mem hdm
        rcases List.eq_nil_or_concat l1 with rfl | ⟨l, z, rfl⟩
        · have hda : a = d := by
            obtain ⟨e, -⟩ := hc
            exact (Option.some.inj e)
          subst hda
          exact ⟨h, some a, insertion_before_node_at_head fuel h a b _ hc hf,
            hc.to_well_formed⟩
        · simp only [List.concat_eq_append, List.append_assoc, List.singleton_append] at hc hf hd
          obtain ⟨h', e, c, -⟩ := insertion_before_node_inner fuel h (some a) l l2 z d b hc
            (head_not_mem_of_disjoint hm hd) (by simp at hf; omega)
          exact ⟨h', some a, e, c.to_well_formed⟩

theorem well_formed_concatenate_lists (fuel : Nat) (h : Heap) (head n : Ptr)
    (ns ms : List Nat) (hc : Chain h head ns) (hm : Chain h n ms) (hd : ∀ x ∈ ns, x ∉ ms)
    (hf : ns.length ≤ fuel) :
    ∃ h' r, concatenate_lists fuel h head n = some (h', r) ∧ well_formed h' r := by
  rw [concatenate_lists_eq_insertion_end_node]
  exact well_formed_insertion_end_node fuel h head n ns ms hc hm hd hf

theorem well_formed_split_list_at_node (fuel : Nat) (h : Heap) (head anchor : Ptr)
    (ns : List Nat) (hc : Chain h head ns) (hf : ns.length < fuel) :
    ∃ h' t, split_list_at_node fuel h head anchor = some (h', t) ∧
      well_formed h' t.node1 ∧ well_formed h' t.node2 := by
  by_cases hfound : ∀ x ∈ ns, some x ≠ anchor
  · exact ⟨h, _, split_list_at_node_none fuel h head anchor ns hc hfound hf,
      hc.to_well_formed, well_formed_none h⟩
  · simp only [ne_eq, not_forall, not_not] at hfound
    obtain ⟨d, hdm, rfl⟩ := hfound
    obtain ⟨l1, l2, rfl⟩ := List.append_of_mem hdm
    obtain ⟨c1, c2⟩ := chain_cut hc
    exact ⟨_, _, split_list_at_node_found fuel h head l1 l2 d hc (by simp at hf; omega),
      c1.to_well_formed, c2.to_well_formed⟩

theorem well_formed_split_list_at_value (fuel : Nat) (h : Heap) (head : Ptr) (v : Int)
    (ns : List Nat) (hc : Chain h head ns) (hf : ns.length < fuel) :
    ∃ h' t, split_list_at_value fuel h head v = some (h', t) ∧
      well_formed h' t.node1 ∧ well_formed h' t.node2 := by
  by_cases hv : v ∈ vals h ns
  · obtain ⟨l1, d, l2, rfl, hl, hd⟩ := exists_first_value h v ns hv
    obtain ⟨c1, c2⟩ := chain_cut hc
    exact ⟨_, _, split_list_at_value_found fuel h head v l1 l2 d hc hl hd
      (by simp at hf; omega), c1.to_well_formed, c2.to_well_formed⟩
  · have hv' : ∀ x ∈ ns, h.value1 x ≠ v := by
      intro x hx e
      exact hv (by simp only [vals, List.mem_map]; exact ⟨x, hx, e⟩)
    exact ⟨h, _, split_list_at_value_none fuel h head v ns hc hv' hf, hc.to_well_formed,
      well_formed_none h⟩

theorem well_formed_remove_node (fuel : Nat) (h : Heap) (head anchor : Ptr)
    (ns : List Nat) (hc : Chain h head ns) (hf : ns.length < fuel) :
    ∃ h' t, remove_node fuel h head anchor = some (h', t) ∧
      well_formed h' t.node1 ∧ well_formed h' t.node2 := by
  by_cases hfound : ∀ x ∈ ns, some x ≠ anchor
  · exact ⟨h, _, remove_node_not_found fuel h head anchor ns hc hfound hf,
      hc.to_well_formed, well_formed_none h⟩
  · simp only [ne_eq, not_forall, not_not] at hfound
    obtain ⟨d, hdm, rfl⟩ := hfound
    obtain ⟨l1, l2, rfl⟩ := List.append_of_mem hdm
    have hnd := hc.nodup
    rcases List.eq_nil_or_concat l1 with rfl | ⟨l, z, rfl⟩
    · obtain ⟨rfl, c2⟩ := hc
      have hd2 : d ∉ l2 := (List.nodup_cons.mp hnd).1
      have cd : Chain (h.set_next d none) (some d) [d] := ⟨rfl, by simp⟩
      exact ⟨_, _, remove_node_at_head fuel h d,
        (c2.set_next_of_not_mem none hd2).to_well_formed, cd.to_well_formed⟩
    · simp only [List.concat_eq_append, List.append_assoc, List.singleton_append] at hc hf
      have cd : Chain ((h.set_next z (h.next d)).set_next d none) (some d) [d] :=
        ⟨rfl, by simp⟩
      exact ⟨_, _, remove_node_inner fuel h head l l2 z d hc (by simp at hf; omega),
        (chain_unlink hc).to_well_formed, cd.to_well_formed⟩

theorem well_formed_remove_node_with_value (fuel : Nat) (h : Heap) (head : Ptr) (v : Int)
    (ns : List Nat) (hc : Chain h head ns) (hf : ns.length < fuel) :
    ∃ h' t, remove_node_with_value fuel h head v = some (h', t) ∧
      well_formed h' t.node1 ∧ well_formed h' t.node2 := by
  by_cases hv : v ∈ vals h ns
  · obtain ⟨l1, d, l2, rfl, hl, hd⟩ := exists_first_value h v ns hv
    obtain ⟨h', p', e, c, -, hnx, -, -⟩ :=
      remove_node_with_value_found fuel h head v l1 l2 d hc hl hd (by simp at hf; omega)
    have cd : Chain h' (some d) [d] := ⟨rfl, by simpa using hnx⟩
    exact ⟨h', _, e, c.to_well_formed, cd.to_well_formed⟩
  · have hv' : ∀ x ∈ ns, h.value1 x ≠ v := by
      intro x hx e
      exact hv (by simp only [vals, List.mem_map]; exact ⟨x, hx, e⟩)
    exact ⟨h, _, remove_node_with_value_none fuel h head v ns hc hv' hf, hc.to_well_formed,
      well_formed_none h⟩

/-- Claim C26: well-formedness is kept by every function that changes
links.  When `head` is a well-formed list and `n` a well-formed list (or
node, or `NULL`) that shares no node with it, then for every anchor and
every value the lists returned by the eleven functions are well formed:
finite chains to `NULL` without a repeated node. -/
theorem well_formed_preserved (fuel : Nat) (h : Heap) (head n anchor : Ptr) (v : Int)
    (ns ms : List Nat) (hc : Chain h head ns) (hm : Chain h n ms) (hd : ∀ x ∈ ns, x ∉ ms)
    (hf : ns.length + 1 < fuel) :
    well_formed (insertion_head_node h head n).1 (insertion_head_node h head n).2 ∧
    (∃ h' r, insertion_end_node fuel h head n = some (h', r) ∧ well_formed h' r) ∧
    (∃ h' r, insertion_after_node fuel h head anchor n = some (h', r) ∧ well_formed h' r) ∧
    (∃ h' r, insertion_before_node fuel h head anchor n = some (h', r) ∧ well_formed h' r) ∧
    (∃ h' r, concatenate_lists fuel h head n = some (h', r) ∧ well_formed h' r) ∧
    (∃ h' t, split_list_at_node fuel h head anchor = some (h', t) ∧
      well_formed h' t.node1 ∧ well_formed h' t.node2) ∧
    (∃ h' t, split_list_at_value fuel h head v = some (h', t) ∧
      well_formed h' t.node1 ∧ well_formed h' t.node2) ∧
    (∃ h' t, remove_node fuel h head anchor = some (h', t) ∧
      well_formed h' t.node1 ∧ well_formed h' t.node2) ∧
    (∃ h' t, remove_node_with_value fuel h head v = some (h', t) ∧
      well_formed h' t.node1 ∧ well_formed h' t.node2) ∧
    (∃ h' r, reverse_list fuel h head = some (h', r) ∧ well_formed h' r) ∧
    (∃ h' r, sort_list fuel h head = some (h', r) ∧ well_formed h' r) := by
  have hf1 : ns.length < fuel := by omega
  have hf2 : ns.length ≤ fuel := by omega
  refine ⟨well_formed_insertion_head_node h head n ns ms hc hm hd,
    well_formed_insertion_end_node fuel h head n ns ms hc hm hd hf2,
    well_formed_insertion_after_node fuel h head anchor n ns ms hc hm hd hf1,
    well_formed_insertion_before_node fuel h head anchor n ns ms hc hm hd hf1,
    well_formed_concatenate_lists fuel h head n ns ms hc hm hd hf2,
    well_formed_split_list_at_node fuel h head anchor ns hc hf1,
    well_formed_split_list_at_value fuel h head v ns hc hf1,
    well_formed_remove_node fuel h head anchor ns hc hf1,
    well_formed_remove_node_with_value fuel h head v ns hc hf1, ?_, ?_⟩
  · obtain ⟨h', q, e, c, -⟩ := reverse_list_spec fuel h head ns hc hf1
    exact ⟨h', q, e, c.to_well_formed⟩
  · obtain ⟨h', p', ns', e, c, -⟩ := sort_list_spec fuel h head ns hc hf
    exact ⟨h', p', e, c.to_well_formed⟩

theorem well_formed_preserved_witness :
    Chain sample_store_node (some 0) [0, 1, 2, 3, 4] ∧ Chain sample_store_node (some 5) [5] ∧
    (∀ x ∈ [0, 1, 2, 3, 4], x ∉ [5]) ∧
    (well_formed (insertion_head_node sample_store_node (some 0) (some 5)).1
      (insertion_head_node sample_store_node (some 0) (some 5)).2 ∧
    (∃ h' r, insertion_end_node 7 sample_store_node (some 0) (some 5) = some (h', r) ∧
      well_formed h' r) ∧
    (∃ h' r, insertion_after_node 7 sample_store_node (some 0) (some 2) (some 5) =
      some (h', r) ∧ well_formed h' r) ∧
    (∃ h' r, insertion_before_node 7 sample_store_node (some 0) (some 2) (some 5) =
      some (h', r) ∧ well_formed h' r) ∧
    (∃ h' r, concatenate_lists 7 sample_store_node (some 0) (some 5) = some (h', r) ∧
      well_formed h' r) ∧
    (∃ h' t, split_list_at_node 7 sample_store_node (some 0) (some 2) = some (h', t) ∧
      well_formed h' t.node1 ∧ well_formed h' t.node2) ∧
    (∃ h' t, split_list_at_value 7 sample_store_node (some 0) 3 = some (h', t) ∧
      well_formed h' t.node1 ∧ well_formed h' t.node2) ∧
    (∃ h' t, remove_node 7 sample_store_node (some 0) (some 2) = some (h', t) ∧
      well_formed h' t.node1 ∧ well_formed h' t.node2) ∧
    (∃ h' t, remove_node_with_value 7 sample_store_node (some 0) 3 = some (h', t) ∧
      well_formed h' t.node1 ∧ well_formed h' t.node2) ∧
    (∃ h' r, reverse_list 7 sample_store_node (some 0) = some (h', r) ∧ well_formed h' r) ∧
    (∃ h' r, sort_list 7 sample_store_node (some 0) = some (h', r) ∧ well_formed h' r)) :=
  ⟨by decide, by decide, by decide,
    well_formed_preserved 7 sample_store_node (some 0) (some 5) (some 2) 3 [0, 1, 2, 3, 4] [5]
      (by decide) (by decide) (by decide) (by decide)⟩

/-! ## value_in_list -/

theorem value_in_list_loop_found (h : Heap) (v : Int) (d : Nat) (hd : h.value1 d = v)
    (l : List Nat) :
    ∀ (fuel : Nat) (temp : Ptr), Seg h temp l (some d) → (∀ x ∈ l, h.value1 x ≠ v) →
      l.length < fuel → value_in_list_loop fuel h temp v = some (some d) := by
  induction l with
  | nil =>
    intro fuel temp hs _ hf
    obtain ⟨f, rfl⟩ : ∃ f, fuel = f + 1 := ⟨fuel - 1, by simp at hf; omega⟩
    simp at hs
    subst hs
    simp [value_in_list_loop, hd]
  | cons x l ih =>
    intro fuel temp hs hl hf
    obtain ⟨f, rfl⟩ : ∃ f, fuel = f + 1 := ⟨fuel - 1, by simp at hf; omega⟩
    obtain ⟨rfl, hs2⟩ := hs
    have hx : h.value1 x ≠ v := hl x (List.mem_cons_self x l)
    simp only [value_in_list_loop, hx, if_false]
    exact ih f _ hs2 (fun y hy => hl y (List.mem_cons_of_mem x hy)) (by simp at hf; omega)

/-- Claim C27, as the code has it: on every list `value_in_list` leaves the
store as it is and returns (head, `m`) with `m` the first node that holds
`v`, or `NULL` when no node does; and when fewer than `2 ^ 32` nodes hold
`v`, `m` is `NULL` exactly when `count_frequents_in_list` returns 0. -/
theorem value_in_list_first (fuel : Nat) (h : Heap) (head : Ptr) (ns : List Nat) (v : Int)
    (hc : Chain h head ns) (hf : ns.length < fuel) :
    ∃ m, value_in_list fuel h head v = some (h, ⟨head, m⟩) ∧
      (v ∈ vals h ns → ∃ l1 d l2, ns = l1 ++ d :: l2 ∧ v ∉ vals h l1 ∧ h.value1 d = v ∧
        m = some d) ∧
      (v ∉ vals h ns → m = none) ∧
      ((vals h ns).count v < 2 ^ 32 →
        (m = none ↔ count_frequents_in_list fuel h head v = some 0)) := by
  have hcf := count_frequents_in_list_wrap fuel h head ns v hc hf
  have hzero : (vals h ns).count v < 2 ^ 32 →
      (wrap_int ((vals h ns).count v : Nat) = 0 ↔ (vals h ns).count v = 0) := by
    intro hcount
    unfold wrap_int
    omega
  by_cases hv : v ∈ vals h ns
  · obtain ⟨l1, d, l2, rfl, hl, hd⟩ := exists_first_value h v _ hv
    obtain ⟨m0, s1, c1⟩ := (chain_append h l1 (d :: l2) head).mp hc
    obtain ⟨rfl, -⟩ := c1
    have e := value_in_list_loop_found h v d hd l1 fuel head s1 hl (by simp at hf; omega)
    have hl' : v ∉ vals h l1 := by
      intro hm
      simp only [vals, List.mem_map] at hm
      obtain ⟨x, hx, hxv⟩ := hm
      exact hl x hx hxv
    have hpos : (vals h (l1 ++ d :: l2)).count v ≠ 0 := by
      have := List.count_pos_iff.mpr hv
      omega
    refine ⟨some d, ?_, fun _ => ⟨l1, d, l2, rfl, hl', hd, rfl⟩, fun hn => absurd hv hn, ?_⟩
    · cases head with
      | none => cases l1 <;> simp at s1
      | some a => simp [value_in_list, e]
    · intro hcount
      rw [hcf]
      constructor
      · intro e; cases e
      · intro e
        exact absurd ((hzero hcount).mp (Option.some.inj e)) hpos
  · have hv' : ∀ x ∈ ns, h.value1 x ≠ v := by
      intro x hx e
      exact hv (by simp only [vals, List.mem_map]; exact ⟨x, hx, e⟩)
    refine ⟨none, ?_, fun hm => absurd hm hv, fun _ => rfl, ?_⟩
    · cases head with
      | none => simp [value_in_list]
      | some a => simp [value_in_list, value_in_list_loop_not_found h v ns fuel _ hc hv' hf]
    · intro _
      rw [hcf, List.count_eq_zero_of_not_mem hv]
      simp [wrap_int]

/-- The store and list that `create_list` builds, with what it leaves
untouched. -/
theorem create_list_frame (vs : List Int) (h : Heap) (hne : vs ≠ []) :
    ∃ h', create_list (some vs) vs.length h = some (h', some h.brk) ∧
      Chain h' (some h.brk) (List.range' h.brk vs.length) ∧
      vals h' (List.range' h.brk vs.length) = vs ∧ h'.brk = h.brk + vs.length ∧
      (∀ a, a < h.brk → h'.value1 a = h.value1 a ∧ h'.next a = h.next a) := by
  cases vs with
  | nil => exact absurd rfl hne
  | cons x xs =>
    obtain ⟨h', e, b, c, v, fv, fn⟩ :=
      create_list_loop_spec (x :: xs) xs.length 1 (create_node x h).1 (create_node x h).2
        (by simp) (by simp) (by simp; omega)
    simp only [create_node_brk, create_node_addr, create_node_value1, create_node_next]
      at b c v fv fn
    refine ⟨h', ?_, ?_, ?_, ?_, ?_⟩
    · simp only [create_node_addr] at e
      simp only [create_list, List.length_cons, Nat.add_one_ne_zero, if_false,
        List.getElem?_cons_zero, Nat.add_sub_cancel, e, create_node_addr]
    · rw [List.length_cons, List.range'_succ]
      exact ⟨rfl, c⟩
    · rw [List.length_cons, List.range'_succ, vals_cons, v, fv h.brk (by omega)]
      simp
    · rw [b, List.length_cons]
      omega
    · intro a ha
      have hne' : a ≠ h.brk := by omega
      refine ⟨?_, ?_⟩
      · rw [fv a (by omega)]
        simp [hne']
      · rw [fn a (by omega) hne']
        simp [hne']

/-- Two created lists of `n` zeros each, concatenated: a list of `2 * n`
nodes that all hold 0. -/
theorem two_created_lists (n : Nat) (h : Heap) (hn : 0 < n) :
    ∃ h1 p1 h2 p2 h3 a ns,
      create_list (some (List.replicate n 0)) (List.replicate n (0 : Int)).length h =
        some (h1, p1) ∧
      create_list (some (List.replicate n 0)) (List.replicate n (0 : Int)).length h1 =
        some (h2, p2) ∧
      concatenate_lists n h2 p1 p2 = some (h3, some a) ∧
      Chain h3 (some a) ns ∧ ns.length = 2 * n ∧ (vals h3 ns).count 0 = 2 * n ∧
      h3.value1 a = 0 := by
  have hne : List.replicate n (0 : Int) ≠ [] := by
    intro e
    have := congrArg List.length e
    simp at this
    omega
  obtain ⟨h1, e1, c1, v1, b1, -⟩ := create_list_frame (List.replicate n (0 : Int)) h hne
  obtain ⟨h2, e2, c2, v2, -, f2⟩ := create_list_frame (List.replicate n (0 : Int)) h1 hne
  rw [List.length_replicate] at c1 c2 v1 v2 b1
  have hlt : ∀ x ∈ List.range' h.brk n, x < h1.brk := by
    intro x hx
    rw [List.mem_range'_1] at hx
    omega
  have c1' : Chain h2 (some h.brk) (List.range' h.brk n) :=
    Chain.frame (fun x hx => (f2 x (hlt x hx)).2) c1
  have v1' : vals h2 (List.range' h.brk n) = List.replicate n 0 := by
    rw [← v1]
    simp only [vals]
    exact List.map_congr_left (fun x hx => (f2 x (hlt x hx)).1)
  have hdis : ∀ x ∈ List.range' h.brk n, x ∉ List.range' h1.brk n := by
    intro x hx hx2
    have := hlt x hx
    rw [List.mem_range'_1] at hx2
    omega
  obtain ⟨h3, r, e3, c3, v3, -, -⟩ :=
    insertion_end_node_chain n h2 (some h.brk) (some h1.brk) _ _ c1' c2 hdis (by simp)
  have hr : r = some h.brk := by
    have := c3.head_eq
    cases n with
    | zero => omega
    | succ k => simpa [List.range'_succ] using this
  subst hr
  have hvals : vals h3 (List.range' h.brk n ++ List.range' h1.brk n) =
      List.replicate n 0 ++ List.replicate n 0 := by
    rw [vals_congr v3, vals_append, v1', v2]
  refine ⟨h1, some h.brk, h2, some h1.brk, h3, h.brk, _, e1, e2, ?_, c3, by simp; omega, ?_, ?_⟩
  · rw [concatenate_lists_eq_insertion_end_node]
    exact e3
  · rw [hvals, List.count_append, List.count_replicate_self]
    omega
  · have hmem : h.brk ∈ List.range' h.brk n := by
      rw [List.mem_range'_1]
      omega
    have h0 : h2.value1 h.brk = 0 := by
      have : h2.value1 h.brk ∈ vals h2 (List.range' h.brk n) := by
        simp only [vals]
        exact List.mem_map_of_mem _ hmem
      rw [v1'] at this
      exact List.eq_of_mem_replicate this
    rw [v3]
    exact h0

/-- On a list of `2 ^ 32` nodes holding 0, `value_in_list` finds a node but
the counter of `count_frequents_in_list` has wrapped around to 0. -/
theorem count_wraps_to_zero (n : Nat) (h : Heap) (hn : 2 * n = 2 ^ 32) :
    ∃ h1 p1 h2 p2 h3 a ns,
      create_list (some (List.replicate n 0)) (List.replicate n (0 : Int)).length h =
        some (h1, p1) ∧
      create_list (some (List.replicate n 0)) (List.replicate n (0 : Int)).length h1 =
        some (h2, p2) ∧
      concatenate_lists n h2 p1 p2 = some (h3, some a) ∧ Chain h3 (some a) ns ∧
      (∀ fuel, value_in_list (fuel + 1) h3 (some a) 0 = some (h3, ⟨some a, some a⟩)) ∧
      (∀ fuel, count_frequents_in_list fuel h3 (some a) 0 = none ∨
        count_frequents_in_list fuel h3 (some a) 0 = some 0) := by
  obtain ⟨h1, p1, h2, p2, h3, a, ns, e1, e2, e3, c, hlen, hcount, hval⟩ :=
    two_created_lists n h (by omega)
  refine ⟨h1, p1, h2, p2, h3, a, ns, e1, e2, e3, c, ?_, ?_⟩
  · intro fuel
    simp [value_in_list, value_in_list_loop, hval]
  · intro fuel
    by_cases hf : fuel ≤ ns.length
    · left
      have := count_frequents_in_list_loop_none h3 0 ns fuel (some a) 0 c hf
      simpa [count_frequents_in_list] using this
    · right
      have := count_frequents_in_list_wrap fuel h3 (some a) ns 0 c (by omega)
      rw [this, hcount]
      have : wrap_int ((2 * n : Nat) : Int) = 0 := by
        unfold wrap_int
        omega
      rw [this]

/-- Claim C27 fails on a list of `2 ^ 32` nodes that all hold 0, made of two
created lists of `2 ^ 31` nodes: `value_in_list` returns the head, which is
not `NULL`, while `count_frequents_in_list`, when it returns, returns 0. -/
theorem value_in_list_count_overflow :
    ∃ h1 p1 h2 p2 h3 a ns,
      create_list (some (List.replicate (2 ^ 31) 0)) (List.replicate (2 ^ 31) (0 : Int)).length
        Heap.init = some (h1, p1) ∧
      create_list (some (List.replicate (2 ^ 31) 0)) (List.replicate (2 ^ 31) (0 : Int)).length
        h1 = some (h2, p2) ∧
      concatenate_lists (2 ^ 31) h2 p1 p2 = some (h3, some a) ∧ Chain h3 (some a) ns ∧
      (∀ fuel, value_in_list (fuel + 1) h3 (some a) 0 = some (h3, ⟨some a, some a⟩)) ∧
      (∀ fuel, count_frequents_in_list fuel h3 (some a) 0 = none ∨
        count_frequents_in_list fuel h3 (some a) 0 = some 0) :=
  count_wraps_to_zero (2 ^ 31) Heap.init (by norm_num)

theorem value_in_list_first_witness :
    Chain sample_store (some 0) [0, 1, 2, 3, 4] ∧
    ∃ m, value_in_list 6 sample_store (some 0) 5 = some (sample_store, ⟨some 0, m⟩) ∧
      ((5 : Int) ∈ vals sample_store [0, 1, 2, 3, 4] →
        ∃ l1 d l2, [0, 1, 2, 3, 4] = l1 ++ d :: l2 ∧ (5 : Int) ∉ vals sample_store l1 ∧
          sample_store.value1 d = 5 ∧ m = some d) ∧
      ((5 : Int) ∉ vals sample_store [0, 1, 2, 3, 4] → m = none) ∧
      ((vals sample_store [0, 1, 2, 3, 4]).count 5 < 2 ^ 32 →
        (m = none ↔ count_frequents_in_list 6 sample_store (some 0) 5 = some 0)) :=
  ⟨by decide,
    value_in_list_first 6 sample_store (some 0) [0, 1, 2, 3, 4] 5 (by decide) (by decide)⟩

/-! ## The second component of a split -/

/-- In a chain, the link of a node is `NULL` exactly when nothing follows
the node. -/
theorem chain_next_none_iff {h : Heap} {p : Ptr} {l1 l2 : List Nat} {d : Nat}
    (hc : Chain h p (l1 ++ d :: l2)) : h.next d = none ↔ l2 = [] := by
  obtain ⟨m, -, c1⟩ := (chain_append h l1 (d :: l2) p).mp hc
  obtain ⟨-, c2⟩ := c1
  constructor
  · intro e
    rw [e] at c2
    simpa using c2
  · rintro rfl
    simpa using c2

/-- The first node holding `v` is unique: if it is also the last node of
the list, nothing follows it. -/
theorem first_value_last (h : Heap) (v : Int) (l1 l2 k1 : List Nat) (d e : Nat)
    (heq : l1 ++ d :: l2 = k1 ++ [e]) (hd : h.value1 d = v)
    (hk : ∀ x ∈ k1, h.value1 x ≠ v) : l2 = [] := by
  rcases List.append_eq_append_iff.mp heq with ⟨a', ha, hb⟩ | ⟨c', -, hb⟩
  · cases a' with
    | nil =>
      simp only [List.nil_append, List.cons.injEq] at hb
      exact hb.2
    | cons x a' =>
      simp only [List.cons_append, List.cons.injEq] at hb
      have : d ∈ k1 := by rw [ha, hb.1]; simp
      exact absurd hd (hk d this)
  · cases c' with
    | nil =>
      simp only [List.nil_append, List.cons.injEq] at hb
      exact hb.2.symm
    | cons x c' =>
      have := congrArg List.length hb
      simp at this

/-- Claim C31: an empty second component does not tell that nothing was
found.  On a non-empty list `split_list_at_value` returns an empty second
component exactly when `v` does not occur or its first occurrence is the
last node, and `split_list_at_node` exactly when `n` is not a node of the
list (or is `NULL`) or is its last node; in these cases the first
component is the head and the store is unchanged. -/
theorem split_second_component_empty (fuel : Nat) (h : Heap) (head n : Ptr) (ns : List Nat)
    (v : Int) (hc : Chain h head ns) (hne : ns ≠ []) (hf : ns.length < fuel) :
    (∃ h1 t1, split_list_at_value fuel h head v = some (h1, t1) ∧
      (t1.node2 = none ↔
        (v ∉ vals h ns ∨ ∃ l1 d, ns = l1 ++ [d] ∧ v ∉ vals h l1 ∧ h.value1 d = v)) ∧
      (t1.node2 = none → t1.node1 = head ∧ h1 = h)) ∧
    (∃ h2 t2, split_list_at_node fuel h head n = some (h2, t2) ∧
      (t2.node2 = none ↔ (n ∉ ns.map some ∨ ∃ d, n = some d ∧ ns.getLast? = some d)) ∧
      (t2.node2 = none → t2.node1 = head ∧ h2 = h)) := by
  have hval : ∀ l : List Nat, v ∉ vals h l → ∀ x ∈ l, h.value1 x ≠ v := by
    intro l hl x hx e
    exact hl (by simp only [vals, List.mem_map]; exact ⟨x, hx, e⟩)
  constructor
  · by_cases hv : v ∈ vals h ns
    · obtain ⟨l1, d, l2, rfl, hl, hd⟩ := exists_first_value h v ns hv
      have e := split_list_at_value_found fuel h head v l1 l2 d hc hl hd (by simp at hf; omega)
      have hiff := chain_next_none_iff hc
      have hl' : v ∉ vals h l1 := by
        intro hm
        simp only [vals, List.mem_map] at hm
        obtain ⟨x, hx, hxv⟩ := hm
        exact hl x hx hxv
      refine ⟨_, _, e, ?_, ?_⟩
      · simp only
        constructor
        · intro hnone
          have := hiff.mp hnone
          subst this
          exact Or.inr ⟨l1, d, rfl, hl', hd⟩
        · rintro (hnot | ⟨k1, e1, heq, hk, -⟩)
          · exact absurd hv hnot
          · exact hiff.mpr (first_value_last h v l1 l2 k1 d e1 heq hd (hval k1 hk))
      · intro (hnone : h.next d = none)
        refine ⟨rfl, ?_⟩
        rw [← hnone]
        exact set_next_self h d
    · refine ⟨h, _, split_list_at_value_none fuel h head v ns hc (hval ns hv) hf, ?_, ?_⟩
      · simp only [true_iff]
        exact Or.inl hv
      · intro _
        exact ⟨rfl, rfl⟩
  · by_cases hn : n ∈ ns.map some
    · obtain ⟨d, hdm, rfl⟩ := List.mem_map.mp hn
      obtain ⟨l1, l2, rfl⟩ := List.append_of_mem hdm
      have e := split_list_at_node_found fuel h head l1 l2 d hc (by simp at hf; omega)
      have hiff := chain_next_none_iff hc
      have hnd := hc.nodup
      have hd2 : d ∉ l2 := (List.nodup_cons.mp (List.nodup_append.mp hnd).2.1).1
      refine ⟨_, _, e, ?_, ?_⟩
      · simp only
        constructor
        · intro hnone
          have := hiff.mp hnone
          subst this
          exact Or.inr ⟨d, rfl, by simp⟩
        · rintro (hnot | ⟨d', hd', hlast⟩)
          · exact absurd hn hnot
          · cases hd'
            apply hiff.mpr
            have hne2 : d :: l2 ≠ [] := List.cons_ne_nil _ _
            rw [List.getLast?_append_of_ne_nil _ hne2] at hlast
            cases l2 with
            | nil => rfl
            | cons y l2 =>
              rw [List.getLast?_cons_cons] at hlast
              exact absurd (List.mem_of_getLast?_eq_some hlast) hd2
      · intro (hnone : h.next d = none)
        refine ⟨rfl, ?_⟩
        rw [← hnone]
        exact set_next_self h d
    · have hn' : ∀ x ∈ ns, some x ≠ n := fun x hx e => hn (List.mem_map.mpr ⟨x, hx, e⟩)
      refine ⟨h, _, split_list_at_node_none fuel h head n ns hc hn' hf, ?_, ?_⟩
      · simp only [true_iff]
        exact Or.inl hn
      · intro _
        exact ⟨rfl, rfl⟩

theorem split_second_component_empty_witness :
    Chain sample_store (some 0) [0, 1, 2, 3, 4] ∧ [0, 1, 2, 3, 4] ≠ ([] : List Nat) ∧
    ((∃ h1 t1, split_list_at_value 6 sample_store (some 0) 4 = some (h1, t1) ∧
      (t1.node2 = none ↔
        ((4 : Int) ∉ vals sample_store [0, 1, 2, 3, 4] ∨
          ∃ l1 d, [0, 1, 2, 3, 4] = l1 ++ [d] ∧ (4 : Int) ∉ vals sample_store l1 ∧
            sample_store.value1 d = 4)) ∧
      (t1.node2 = none → t1.node1 = some 0 ∧ h1 = sample_store)) ∧
    (∃ h2 t2, split_list_at_node 6 sample_store (some 0) (some 4) = some (h2, t2) ∧
      (t2.node2 = none ↔
        ((some 4 : Ptr) ∉ [0, 1, 2, 3, 4].map some ∨
          ∃ d, (some 4 : Ptr) = some d ∧ [0, 1, 2, 3, 4].getLast? = some d)) ∧
      (t2.node2 = none → t2.node1 = some 0 ∧ h2 = sample_store))) :=
  ⟨by decide, by decide,
    split_second_component_empty 6 sample_store (some 0) (some 4) [0, 1, 2, 3, 4] 4
      (by decide) (by decide) (by decide)⟩

end LinkedList

namespace PerfectNumbers

/-! # Properties of the perfect numbers program -/

/-! ## is_prime -/

/-- Claim C23 fails on 2, 5 and 1: `is_prime` returns 0 for the primes 2
and 5, which its first test rejects, and 1 for 1, which is not prime. -/
theorem is_prime_small_values :
    (∀ fuel, is_prime fuel 2 = some 0) ∧ Nat.Prime 2 ∧
    (∀ fuel, is_prime fuel 5 = some 0) ∧ Nat.Prime 5 ∧
    (∀ fuel, is_prime (fuel + 1) 1 = some 1) ∧ ¬ Nat.Prime 1 :=
  ⟨fun _ => rfl, Nat.prime_two, fun _ => rfl, Nat.prime_five, fun _ => rfl, Nat.not_prime_one⟩

theorem is_prime_loop_mono (n limit : Nat) :
    ∀ (fuel : Nat) (i r : Int), is_prime_loop n limit fuel i = some r →
      ∀ k, is_prime_loop n limit (fuel + k) i = some r := by
  intro fuel
  induction fuel with
  | zero => intro i r e; simp [is_prime_loop] at e
  | succ f ih =>
    intro i r e k
    rw [Nat.add_right_comm]
    simp only [is_prime_loop] at e ⊢
    by_cases h1 : to_ull i ≤ limit
    · simp only [h1, if_true] at e ⊢
      by_cases h2 : n % to_ull i = 0
      · simpa only [h2, if_true] using e
      · simp only [h2, if_false] at e ⊢
        exact ih _ r e k
    · simpa only [h1, if_false] using e

theorem is_prime_mono (fuel n : Nat) (r : Int) (e : is_prime fuel n = some r) (k : Nat) :
    is_prime (fuel + k) n = some r := by
  unfold is_prime at e ⊢
  by_cases h1 : n % 2 = 0 ∨ n % 5 = 0
  · simpa only [h1, if_true] using e
  · simp only [h1, if_false] at e ⊢
    exact is_prime_loop_mono n _ fuel 3 r e k

/-! ## n_perfect_numbers -/

/-- One round of the loop without the store. -/
theorem created_pairs_succ (f n p : Nat) :
    created_pairs (f + 1) n p =
      if n > 0 then
        match is_prime f (to_ull (LinkedList.wrap_int (shl_one ((p + 1) % 2 ^ 32) - 1))) with
        | none => none
        | some r =>
          if r ≠ 1 then created_pairs f n ((p + 1) % 2 ^ 32)
          else
            match created_pairs f ((n + 2 ^ 16 - 1) % 2 ^ 16) ((p + 1) % 2 ^ 32) with
            | none => none
            | some rest =>
              some (((p + 1) % 2 ^ 32,
                to_ull (shl_one (((p + 1) % 2 ^ 32 + 2 ^ 32 - 1) % 2 ^ 32)) *
                  to_ull (LinkedList.wrap_int (shl_one ((p + 1) % 2 ^ 32) - 1)) % 2 ^ 64) ::
                rest)
      else some [] := by
  rfl

/-- One round of the loop of `n_perfect_numbers`. -/
theorem n_perfect_numbers_loop_succ (f : Nat) (h : Heap) (n p : Nat) (head : Ptr) :
    n_perfect_numbers_loop (f + 1) h n p head =
      if n > 0 then
        match is_prime f (to_ull (LinkedList.wrap_int (shl_one ((p + 1) % 2 ^ 32) - 1))) with
        | none => none
        | some r =>
          if r ≠ 1 then n_perfect_numbers_loop f h n ((p + 1) % 2 ^ 32) head
          else
            n_perfect_numbers_loop f
              (insertion_head_node (create_node ((p + 1) % 2 ^ 32)
                (to_ull (shl_one (((p + 1) % 2 ^ 32 + 2 ^ 32 - 1) % 2 ^ 32)) *
                  to_ull (LinkedList.wrap_int (shl_one ((p + 1) % 2 ^ 32) - 1)) % 2 ^ 64) h).1
                head (create_node ((p + 1) % 2 ^ 32)
                (to_ull (shl_one (((p + 1) % 2 ^ 32 + 2 ^ 32 - 1) % 2 ^ 32)) *
                  to_ull (LinkedList.wrap_int (shl_one ((p + 1) % 2 ^ 32) - 1)) % 2 ^ 64) h).2).1
              ((n + 2 ^ 16 - 1) % 2 ^ 16) ((p + 1) % 2 ^ 32)
              (insertion_head_node (create_node ((p + 1) % 2 ^ 32)
                (to_ull (shl_one (((p + 1) % 2 ^ 32 + 2 ^ 32 - 1) % 2 ^ 32)) *
                  to_ull (LinkedList.wrap_int (shl_one ((p + 1) % 2 ^ 32) - 1)) % 2 ^ 64) h).1
                head (create_node ((p + 1) % 2 ^ 32)
                (to_ull (shl_one (((p + 1) % 2 ^ 32 + 2 ^ 32 - 1) % 2 ^ 32)) *
                  to_ull (LinkedList.wrap_int (shl_one ((p + 1) % 2 ^ 32) - 1)) % 2 ^ 64) h).2).2
      else some (h, head) := by
  rfl

theorem created_pairs_mono :
    ∀ (fuel n p : Nat) (tr : List (Nat × Nat)), created_pairs fuel n p = some tr →
      ∀ k, created_pairs (fuel + k) n p = some tr := by
  intro fuel
  induction fuel with
  | zero => intro n p tr e; cases (e : (none : Option (List (Nat × Nat))) = some tr)
  | succ f ih =>
    intro n p tr e k
    rw [Nat.add_right_comm]
    rw [created_pairs_succ] at e ⊢
    generalize (p + 1) % 2 ^ 32 = p1 at e ⊢
    generalize to_ull (LinkedList.wrap_int (shl_one p1 - 1)) = m at e ⊢
    generalize to_ull (shl_one ((p1 + 2 ^ 32 - 1) % 2 ^ 32)) * m % 2 ^ 64 = v2 at e ⊢
    generalize (n + 2 ^ 16 - 1) % 2 ^ 16 = n1 at e ⊢
    by_cases hn : n > 0
    · simp only [hn, if_true] at e ⊢
      cases hp : is_prime f m with
      | none => simp [hp] at e
      | some r =>
        rw [is_prime_mono f _ r hp k]
        rw [hp] at e
        simp only at e ⊢
        by_cases hr : r = 1
        · simp only [hr, ne_eq, not_true_eq_false, if_false] at e ⊢
          cases hrest : created_pairs f n1 p1 with
          | none => simp [hrest] at e
          | some rest =>
            rw [ih _ _ _ hrest k]
            rw [hrest] at e
            exact e
        · simp only [ne_eq, hr, not_false_eq_true, if_true] at e ⊢
          exact ih _ _ _ e k
    · simpa only [hn, if_false] using e

set_option maxRecDepth 100000 in
theorem created_pairs_first_seven (n : Nat) (hn : n ≤ 7) :
    created_pairs 400 n 1 = some (first_seven.take n) := by
  interval_cases n <;> decide

/-- Creating a node and putting it at the head keeps the list built. -/
theorem Built.push {h : Heap} {head : Ptr} {b0 : Nat} {tr : List (Nat × Nat)}
    (hb : Built h head b0 tr) (v1 v2 : Nat) :
    Built (insertion_head_node (create_node v1 v2 h).1 head (create_node v1 v2 h).2).1
      (insertion_head_node (create_node v1 v2 h).1 head (create_node v1 v2 h).2).2 b0
      (tr ++ [(v1, v2)]) := by
  obtain ⟨hbrk, hhead, hall⟩ := hb
  refine ⟨?_, ?_, ?_⟩
  · simp [insertion_head_node, create_node, hbrk]
    omega
  · simp [insertion_head_node, create_node, node_ptr, hbrk]
  · intro j hj
    simp only [List.length_append, List.length_singleton] at hj
    by_cases hlt : j < tr.length
    · obtain ⟨hn, hv⟩ := hall j hlt
      have hne : b0 + j ≠ h.brk := by omega
      refine ⟨?_, ?_⟩
      · simp only [insertion_head_node, create_node, hne, if_false]
        exact hn
      · rw [List.getElem?_append_left hlt]
        simp only [insertion_head_node, create_node, hne, if_false]
        exact hv
    · have hj' : j = tr.length := by omega
      subst hj'
      have he : b0 + tr.length = h.brk := hbrk.symm
      refine ⟨?_, ?_⟩
      · simp only [insertion_head_node, create_node, he, if_true]
        exact hhead
      · simp [insertion_head_node, create_node, he]

theorem n_perfect_numbers_loop_built :
    ∀ (fuel : Nat) (h : Heap) (n p : Nat) (head : Ptr) (b0 : Nat) (tr tr' : List (Nat × Nat)),
      Built h head b0 tr → created_pairs fuel n p = some tr' →
      ∃ h' head', n_perfect_numbers_loop fuel h n p head = some (h', head') ∧
        Built h' head' b0 (tr ++ tr') := by
  intro fuel
  induction fuel with
  | zero =>
    intro h n p head b0 tr tr' _ e
    cases (e : (none : Option (List (Nat × Nat))) = some tr')
  | succ f ih =>
    intro h n p head b0 tr tr' hb e
    rw [created_pairs_succ] at e
    rw [n_perfect_numbers_loop_succ]
    generalize (p + 1) % 2 ^ 32 = p1 at e ⊢
    generalize to_ull (LinkedList.wrap_int (shl_one p1 - 1)) = m at e ⊢
    generalize to_ull (shl_one ((p1 + 2 ^ 32 - 1) % 2 ^ 32)) * m % 2 ^ 64 = v2 at e ⊢
    generalize (n + 2 ^ 16 - 1) % 2 ^ 16 = n1 at e ⊢
    by_cases hn : n > 0
    · simp only [hn, if_true] at e ⊢
      cases hp : is_prime f m with
      | none => simp [hp] at e
      | some r =>
        rw [hp] at e
        simp only at e ⊢
        by_cases hr : r = 1
        · simp only [hr, ne_eq, not_true_eq_false, if_false] at e ⊢
          cases hrest : created_pairs f n1 p1 with
          | none => simp [hrest] at e
          | some rest =>
            rw [hrest] at e
            simp only [Option.some.injEq] at e
            subst e
            obtain ⟨h', head', e', b'⟩ := ih _ n1 p1 _ b0 _ rest (hb.push p1 v2) hrest
            exact ⟨h', head', e', by simpa using b'⟩
        · simp only [ne_eq, hr, not_false_eq_true, if_true] at e ⊢
          exact ih h n p1 head b0 tr tr' hb e
    · simp only [hn, if_false, Option.some.injEq] at e ⊢
      subst e
      exact ⟨h, head, rfl, by simpa using hb⟩

theorem print_list_loop_built {h : Heap} {head : Ptr} {b0 : Nat} {tr : List (Nat × Nat)}
    (hb : Built h head b0 tr) :
    ∀ (m fuel : Nat) (out : List (Nat × Nat)), m ≤ tr.length → m < fuel →
      print_list_loop fuel h (node_ptr b0 m) out = some (out ++ (tr.take m).reverse) := by
  intro m
  induction m with
  | zero =>
    intro fuel out _ hf
    obtain ⟨f, rfl⟩ : ∃ f, fuel = f + 1 := ⟨fuel - 1, by omega⟩
    simp [print_list_loop, node_ptr]
  | succ m ih =>
    intro fuel out hm hf
    obtain ⟨f, rfl⟩ : ∃ f, fuel = f + 1 := ⟨fuel - 1, by omega⟩
    obtain ⟨hn, hv⟩ := hb.2.2 m (by omega)
    have hp : node_ptr b0 (m + 1) = some (b0 + m) := by simp [node_ptr]
    rw [hp]
    simp only [print_list_loop, hn]
    rw [ih f _ (by omega) (by omega), List.take_succ, hv]
    simp

theorem print_list_built {h : Heap} {head : Ptr} {b0 : Nat} {tr : List (Nat × Nat)}
    (hb : Built h head b0 tr) (fuel : Nat) (hf : tr.length < fuel) :
    print_list fuel h head = some tr.reverse := by
  have := print_list_loop_built hb tr.length fuel [] (le_refl _) hf
  rw [← hb.2.1] at this
  simpa [print_list] using this

/-- Euclid: `2 ^ k * (2 ^ (k + 1) - 1)` is perfect when the second factor is
prime. -/
theorem perfect_of_prime_mersenne (k : Nat) (hp : Nat.Prime (2 ^ (k + 1) - 1)) :
    Nat.Perfect (2 ^ k * (2 ^ (k + 1) - 1)) := by
  have h1 : 1 ≤ 2 ^ (k + 1) := Nat.one_le_two_pow
  have hpos : 0 < 2 ^ k * (2 ^ (k + 1) - 1) := Nat.mul_pos (Nat.pos_pow_of_pos k (by norm_num)) hp.pos
  rw [Nat.perfect_iff_sum_divisors_eq_two_mul hpos]
  have hodd : ¬ 2 ∣ 2 ^ (k + 1) - 1 := by
    have h2 : 2 ∣ 2 ^ (k + 1) := dvd_pow_self 2 (Nat.succ_ne_zero k)
    omega
  have hcop : Nat.Coprime (2 ^ k) (2 ^ (k + 1) - 1) :=
    Nat.Coprime.pow_left k ((Nat.coprime_primes Nat.prime_two hp).mpr (by
      intro e
      exact hodd (e ▸ dvd_refl 2)))
  have hgeom : ∑ i ∈ Finset.range (k + 1), 2 ^ i = 2 ^ (k + 1) - 1 := by
    have := Nat.geomSum_eq (le_refl 2) (k + 1)
    simpa using this
  have hq : ∑ d ∈ (2 ^ (k + 1) - 1).divisors, d = 2 ^ (k + 1) := by
    rw [hp.sum_divisors]
    omega
  have h2k : ∑ d ∈ (2 ^ k).divisors, d = 2 ^ (k + 1) - 1 := by
    rw [← ArithmeticFunction.sigma_one_apply,
      ArithmeticFunction.sigma_one_apply_prime_pow Nat.prime_two, hgeom]
  rw [hcop.sum_divisors_mul, hq, h2k, pow_succ]
  ring

set_option maxRecDepth 100000 in
/-- The largest square root that `is_prime` takes for the first seven
perfect numbers. -/
theorem sqrt_ull_largest : sqrt_ull (2 ^ 19 - 1) = 724 := by decide

/-- Claim C28: for `n ≤ 7`, `n_perfect_numbers(n)` returns a list of `n`
nodes that hold, largest first, the first `n` of the pairs (2, 6), (3, 28),
(5, 496), (7, 8128), (13, 33550336), (17, 8589869056), (19, 137438691328):
the Mersenne exponent in `value1`, the perfect number in `value2`.  Every
value is the exact one, `2 ^ (p - 1) * (2 ^ p - 1)`: no shift leaves the
`int` range and no product the 64-bit range. -/
theorem n_perfect_numbers_first_seven (fuel n : Nat) (h : Heap) (hn : n ≤ 7)
    (hf : 400 ≤ fuel) :
    ∃ h' head, n_perfect_numbers fuel n h = some (h', head) ∧
      Built h' head h.brk (first_seven.take n) ∧
      (∀ fuel2, n < fuel2 → print_list fuel2 h' head = some (first_seven.take n).reverse) ∧
      (first_seven.take n).length = n ∧
      (∀ x ∈ first_seven, x.2 = 2 ^ (x.1 - 1) * (2 ^ x.1 - 1) ∧ Nat.Perfect x.2 ∧
        shl_one x.1 = 2 ^ x.1 ∧ (2 : Int) ^ x.1 < 2 ^ 31 ∧ x.2 < 2 ^ 64) ∧
      sqrt_ull (2 ^ 19 - 1) + 2 < 2 ^ 31 := by
  obtain ⟨k, rfl⟩ : ∃ k, fuel = 400 + k := ⟨fuel - 400, by omega⟩
  have e := created_pairs_mono 400 n 1 _ (created_pairs_first_seven n hn) k
  have hb0 : Built h none h.brk [] := ⟨rfl, rfl, fun j hj => absurd hj (Nat.not_lt_zero j)⟩
  obtain ⟨h', head, e', b⟩ := n_perfect_numbers_loop_built (400 + k) h n 1 none h.brk [] _ hb0 e
  rw [List.nil_append] at b
  have hlen : (first_seven.take n).length = n := by
    rw [List.length_take]
    simp [first_seven]
    omega
  refine ⟨h', head, e', b, ?_, hlen, ?_, by rw [sqrt_ull_largest]; norm_num⟩
  · intro fuel2 hf2
    exact print_list_built b fuel2 (by omega)
  · intro x hx
    simp only [first_seven, List.mem_cons, List.mem_singleton, List.not_mem_nil, or_false] at hx
    rcases hx with rfl | rfl | rfl | rfl | rfl | rfl | rfl
    · exact ⟨by norm_num, perfect_of_prime_mersenne 1 (by norm_num), by decide, by norm_num,
        by norm_num⟩
    · exact ⟨by norm_num, perfect_of_prime_mersenne 2 (by norm_num), by decide, by norm_num,
        by norm_num⟩
    · exact ⟨by norm_num, perfect_of_prime_mersenne 4 (by norm_num), by decide, by norm_num,
        by norm_num⟩
    · exact ⟨by norm_num, perfect_of_prime_mersenne 6 (by norm_num), by decide, by norm_num,
        by norm_num⟩
    · exact ⟨by norm_num, perfect_of_prime_mersenne 12 (by norm_num), by decide, by norm_num,
        by norm_num⟩
    · exact ⟨by norm_num, perfect_of_prime_mersenne 16 (by norm_num), by decide, by norm_num,
        by norm_num⟩
    · exact ⟨by norm_num, perfect_of_prime_mersenne 18 (by norm_num), by decide, by norm_num,
        by norm_num⟩

theorem n_perfect_numbers_first_seven_witness :
    7 ≤ 7 ∧ 400 ≤ 400 ∧
    ∃ h' head, n_perfect_numbers 400 7 Heap.init = some (h', head) ∧
      Built h' head Heap.init.brk (first_seven.take 7) ∧
      (∀ fuel2, 7 < fuel2 → print_list fuel2 h' head = some (first_seven.take 7).reverse) ∧
      (first_seven.take 7).length = 7 ∧
      (∀ x ∈ first_seven, x.2 = 2 ^ (x.1 - 1) * (2 ^ x.1 - 1) ∧ Nat.Perfect x.2 ∧
        shl_one x.1 = 2 ^ x.1 ∧ (2 : Int) ^ x.1 < 2 ^ 31 ∧ x.2 < 2 ^ 64) ∧
      sqrt_ull (2 ^ 19 - 1) + 2 < 2 ^ 31 :=
  ⟨by decide, by decide, n_perfect_numbers_first_seven 400 7 Heap.init (by decide) (by decide)⟩

end PerfectNumbers
